import Mathlib

/-!
Verification of the sharded buffer cache (final design) of this repository,
together with the socket-layer receive path.

The cache state is embedded at pointer level, mirroring the C exactly:
hash chains are `next_hash` links threaded from per-shard head slots, and
each shard's LRU list is a circular doubly linked list through `lnext`/`lprev`
with a sentinel node per shard.  Machine pointers become buffer indices
(`0 ≤ j < nbuf`) and sentinel node ids (`nbuf + i` for shard `i`).
The reference count is modelled as an integer (the spec describes it as a
count that must stay ≥ 0; the C declaration is outside the given sources).
The disk is a map from (device, block-number) to an abstract content word,
and `nreads` counts device reads performed by `bread`.
-/

namespace BufCache

def NBUCKETS : Nat := 13

structure Buf where
  dev : Nat
  blockno : Nat
  valid : Bool
  refcnt : Int
  held : Bool
  next_hash : Option Nat
  lnext : Nat
  lprev : Nat
  data : Nat
deriving Repr, DecidableEq

structure St where
  bufs : List Buf
  elems : List (Option Nat)
  sentNext : List Nat
  sentPrev : List Nat
  disk : List ((Nat × Nat) × Nat)
  nreads : Nat
deriving Repr, DecidableEq

def St.nbuf (st : St) : Nat := st.bufs.length

def defaultBuf : Buf :=
  { dev := 0, blockno := 0, valid := false, refcnt := 0, held := false,
    next_hash := none, lnext := 0, lprev := 0, data := 0 }

def getBuf (st : St) (j : Nat) : Buf := st.bufs.getD j defaultBuf

def setBuf (st : St) (j : Nat) (b : Buf) : St := { st with bufs := st.bufs.set j b }

def updBuf (st : St) (j : Nat) (f : Buf → Buf) : St := setBuf st j (f (getBuf st j))

/-- Sentinel node id of shard `i` (the `&bcache.lrus[i]` head). -/
def sentinel (st : St) (i : Nat) : Nat := st.nbuf + i

/-- Read a node's `next` pointer (buffer `lnext` field or sentinel slot). -/
def getN (st : St) (n : Nat) : Nat :=
  if n < st.nbuf then (getBuf st n).lnext else st.sentNext.getD (n - st.nbuf) 0

/-- Read a node's `prev` pointer. -/
def getP (st : St) (n : Nat) : Nat :=
  if n < st.nbuf then (getBuf st n).lprev else st.sentPrev.getD (n - st.nbuf) 0

def setN (st : St) (n v : Nat) : St :=
  if n < st.nbuf then updBuf st n (fun b => { b with lnext := v })
  else { st with sentNext := st.sentNext.set (n - st.nbuf) v }

def setP (st : St) (n v : Nat) : St :=
  if n < st.nbuf then updBuf st n (fun b => { b with lprev := v })
  else { st with sentPrev := st.sentPrev.set (n - st.nbuf) v }

/-- `lru_remove`: `b->next->prev = b->prev; b->prev->next = b->next`. -/
def lru_remove (st : St) (b : Nat) : St :=
  let st1 := setP st (getN st b) (getP st b)
  setN st1 (getP st1 b) (getN st1 b)

/-- `lru_add`: insert `b` just before `h`
    (`b->next = h; b->prev = h->prev; b->prev->next = b; b->next->prev = b`). -/
def lru_add (st : St) (b h : Nat) : St :=
  let st1 := setN st b h
  let st2 := setP st1 b (getP st1 h)
  let st3 := setN st2 (getP st2 b) b
  setP st3 (getN st3 b) b

/-- A hash-chain slot: a shard's head pointer or some buffer's `next_hash`. -/
inductive Ptr where
  | head (i : Nat)
  | link (j : Nat)
deriving Repr, DecidableEq

def readSlot (st : St) : Ptr → Option Nat
  | .head i => st.elems.getD i none
  | .link j => (getBuf st j).next_hash

def writeSlot (st : St) (p : Ptr) (v : Option Nat) : St :=
  match p with
  | .head i => { st with elems := st.elems.set i v }
  | .link j => updBuf st j (fun b => { b with next_hash := v })

/-- The walk of `find_ptr`: follow `next_hash` links from slot `p` until the
    slot is null or its buffer matches `(dv, bno)`; return the slot. -/
def findPtrAux (st : St) (dv bno : Nat) : Nat → Ptr → Ptr
  | 0, p => p
  | fuel+1, p =>
    match readSlot st p with
    | none => p
    | some j =>
      if (getBuf st j).blockno = bno ∧ (getBuf st j).dev = dv then p
      else findPtrAux st dv bno fuel (.link j)

def find_ptr (st : St) (dv bno : Nat) : Ptr :=
  findPtrAux st dv bno (st.nbuf + 1) (.head (bno % NBUCKETS))

/-- `btable_insert`: `*p = buf; buf->next_hash = 0` — note it searches under
    the buffer's CURRENT `dev`/`blockno` fields. -/
def btable_insert (st : St) (j : Nat) : St :=
  let p := find_ptr st (getBuf st j).dev (getBuf st j).blockno
  let st1 := writeSlot st p (some j)
  updBuf st1 j (fun b => { b with next_hash := none })

/-- `btable_remove`: unlink the first chain entry matching the buffer's
    current identity (which need not be the buffer itself). -/
def btable_remove (st : St) (j : Nat) : St :=
  let p := find_ptr st (getBuf st j).dev (getBuf st j).blockno
  match readSlot st p with
  | none => st
  | some r => writeSlot st p (getBuf st r).next_hash

def btable_find (st : St) (dv bno : Nat) : Option Nat :=
  readSlot st (find_ptr st dv bno)

/-- `binit` with `nbuf` buffers: self-linked shard sentinels, then each buffer
    `i` is `lru_add`ed to shard `i % NBUCKETS`.  Chains start empty and all
    buffer fields are zero-initialized (static storage). -/
def binit (nbuf : Nat) : St :=
  let st0 : St :=
    { bufs := List.replicate nbuf defaultBuf,
      elems := List.replicate NBUCKETS none,
      sentNext := (List.range NBUCKETS).map (fun i => nbuf + i),
      sentPrev := (List.range NBUCKETS).map (fun i => nbuf + i),
      disk := [], nreads := 0 }
  (List.range nbuf).foldl (fun st i => lru_add st i (sentinel st (i % NBUCKETS))) st0

/-- Which way a `bget` call was satisfied. -/
inductive GetPath where
  | hit
  | localVictim
  | stealHit (i : Nat)
  | steal (i : Nat)
deriving Repr, DecidableEq

/-- The stealing loop of `bget` (`for i in 0..NBUCKETS` skipping `idx`).
    Sequentially the lock release/reacquire has no state effect; the
    double-check lookup is re-run faithfully.  In the steal branch,
    `btable_insert` runs BEFORE the new identity is assigned, exactly as in
    the source.  `none` models `panic("bget: no buffers")`. -/
def bgetSteal (dv bno idx : Nat) : Nat → Nat → St → Option (St × Nat × GetPath)
  | 0, _, _ => none
  | fuel+1, i, st =>
    if NBUCKETS ≤ i then none
    else if i = idx then bgetSteal dv bno idx fuel (i + 1) st
    else
      match btable_find st dv bno with
      | some b =>
        some (updBuf st b (fun x => { x with refcnt := x.refcnt + 1, held := true }), b, .stealHit i)
      | none =>
        if getN st (sentinel st i) = sentinel st i then
          bgetSteal dv bno idx fuel (i + 1) st
        else
          let b := getN st (sentinel st i)
          let st1 := lru_remove st b
          let st2 := btable_insert st1 b
          let st3 := updBuf st2 b
            (fun x => { x with refcnt := 1, blockno := bno, dev := dv, valid := false, held := true })
          some (st3, b, .steal i)

/-- `bget`: chain lookup, then local victim (shard `idx`'s LRU front), then the
    stealing loop.  In the local path the new identity is assigned BEFORE
    `btable_insert`; `acquiresleep` becomes setting `held`. -/
def bget (st : St) (dv bno : Nat) : Option (St × Nat × GetPath) :=
  let idx := bno % NBUCKETS
  match btable_find st dv bno with
  | some b =>
    some (updBuf st b (fun x => { x with refcnt := x.refcnt + 1, held := true }), b, .hit)
  | none =>
    if getN st (sentinel st idx) = sentinel st idx then
      bgetSteal dv bno idx (NBUCKETS + 1) 0 st
    else
      let b := getN st (sentinel st idx)
      let st1 := updBuf st b
        (fun x => { x with refcnt := 1, blockno := bno, dev := dv, valid := false })
      let st2 := btable_insert st1 b
      let st3 := lru_remove st2 b
      some (updBuf st3 b (fun x => { x with held := true }), b, .localVictim)

/-- `brelse`: panics (`none`) unless the content lock is held; releases it,
    decrements the count under the shard lock, and at zero moves the buffer
    to the MRU end of the home shard's LRU list and removes its identity from
    the hash table. -/
def brelse (st : St) (j : Nat) : Option St :=
  if (getBuf st j).held = false then none
  else
    let st1 := updBuf st j (fun b => { b with held := false })
    let idx := (getBuf st1 j).blockno % NBUCKETS
    let st2 := updBuf st1 j (fun b => { b with refcnt := b.refcnt - 1 })
    if (getBuf st2 j).refcnt = 0 then
      let st3 := lru_add st2 j (sentinel st2 idx)
      some (btable_remove st3 j)
    else some st2

/-- `bpin`: unconditional increment (under the global lock). -/
def bpin (st : St) (j : Nat) : St :=
  updBuf st j (fun b => { b with refcnt := b.refcnt + 1 })

/-- `bunpin`: unconditional decrement (under the global lock); no check, no
    LRU handling. -/
def bunpin (st : St) (j : Nat) : St :=
  updBuf st j (fun b => { b with refcnt := b.refcnt - 1 })

def diskRead (st : St) (dv bno : Nat) : Nat :=
  (((st.disk.find? (fun e => e.1 = (dv, bno)))).map (fun e => e.2)).getD 0

/-- `bread`: `bget`, then if the buffer is invalid fill it from the device
    (counted in `nreads`) and mark it valid.  The `Bool` reports whether a
    device read occurred. -/
def bread (st : St) (dv bno : Nat) : Option (St × Nat × GetPath × Bool) :=
  match bget st dv bno with
  | none => none
  | some (st1, b, path) =>
    if (getBuf st1 b).valid = false then
      let st2 := updBuf st1 b
        (fun x => { x with data := diskRead st1 x.dev x.blockno, valid := true })
      some ({ st2 with nreads := st2.nreads + 1 }, b, path, true)
    else some (st1, b, path, false)

/-- `bwrite`: panics (`none`) unless the content lock is held; writes the
    buffer's content to disk at its identity. -/
def bwrite (st : St) (j : Nat) : Option St :=
  if (getBuf st j).held = false then none
  else
    some { st with
      disk := (((getBuf st j).dev, (getBuf st j).blockno), (getBuf st j).data) :: st.disk }

/-- A caller mutating the buffer's content through the held buffer. -/
def setData (st : St) (j : Nat) (v : Nat) : St :=
  updBuf st j (fun b => { b with data := v })

/-! Query helpers used to state properties. -/

def lruWalkAux (st : St) (i : Nat) : Nat → Nat → List Nat
  | 0, _ => []
  | fuel+1, n => if n = sentinel st i then [] else n :: lruWalkAux st i fuel (getN st n)

/-- The nodes of shard `i`'s LRU list, front (`next` of sentinel, the victim
    end) first. -/
def lruWalk (st : St) (i : Nat) : List Nat :=
  lruWalkAux st i (st.nbuf + 1) (getN st (sentinel st i))

def onLru (st : St) (j : Nat) : Bool :=
  (List.range NBUCKETS).any (fun i => (lruWalk st i).contains j)

/-- On how many shards' LRU lists buffer `j` appears. -/
def lruCount (st : St) (j : Nat) : Nat :=
  ((List.range NBUCKETS).filter (fun i => (lruWalk st i).contains j)).length

def chainWalkAux (st : St) : Nat → Option Nat → List Nat
  | 0, _ => []
  | _+1, none => []
  | fuel+1, some j => j :: chainWalkAux st fuel (getBuf st j).next_hash

/-- The buffers linked on shard `i`'s hash chain. -/
def chainWalk (st : St) (i : Nat) : List Nat :=
  chainWalkAux st (st.nbuf + 1) (st.elems.getD i none)

def inSomeChain (st : St) (j : Nat) : Bool :=
  (List.range NBUCKETS).any (fun i => (chainWalk st i).contains j)

/-! Operation sequences. -/

inductive Op where
  | get (dv bno : Nat)
  | read (dv bno : Nat)
  | rel (j : Nat)
  | pin (j : Nat)
  | unpin (j : Nat)
  | write (j : Nat)
  | put (j v : Nat)
deriving Repr, DecidableEq

def execOp (st : St) : Op → Option St
  | .get dv bno => (bget st dv bno).map (fun r => r.1)
  | .read dv bno => (bread st dv bno).map (fun r => r.1)
  | .rel j => brelse st j
  | .pin j => some (bpin st j)
  | .unpin j => some (bunpin st j)
  | .write j => bwrite st j
  | .put j v => some (setData st j v)

def execSeq : St → List Op → Option St
  | st, [] => some st
  | st, op :: l =>
    match execOp st op with
    | none => none
    | some st' => execSeq st' l

/-- Run an operation sequence from a freshly initialized cache of `n` buffers. -/
def run (n : Nat) (l : List Op) : Option St := execSeq (binit n) l

/-- Run a sequence of `bread`s, collecting for each the returned buffer index,
    the path taken, and whether a device read happened. -/
def breadSeq : St → List (Nat × Nat) → Option (St × List (Nat × GetPath × Bool))
  | st, [] => some (st, [])
  | st, (d, b) :: l =>
    match bread st d b with
    | none => none
    | some (st', j, p, r) => (breadSeq st' l).map (fun x => (x.1, (j, p, r) :: x.2))

/-- The identity test of `find_ptr`'s loop: buffer `j`'s current fields match
    `(dv, bno)`. -/
def isMatch (st : St) (dv bno j : Nat) : Prop :=
  (getBuf st j).blockno = bno ∧ (getBuf st j).dev = dv

instance (st : St) (dv bno j : Nat) : Decidable (isMatch st dv bno j) :=
  inferInstanceAs (Decidable (_ ∧ _))

/-- The chain starting at slot `p` consists exactly of the buffers `l` and
    then a null slot. -/
def ChainSeg (st : St) : Ptr → List Nat → Prop
  | p, [] => readSlot st p = none
  | p, j :: l => readSlot st p = some j ∧ ChainSeg st (.link j) l

def chainSegDec (st : St) : (p : Ptr) → (l : List Nat) → Decidable (ChainSeg st p l)
  | _, [] => inferInstanceAs (Decidable (_ = _))
  | p, j :: l =>
    haveI : Decidable (ChainSeg st (.link j) l) := chainSegDec st (.link j) l
    inferInstanceAs (Decidable (_ ∧ _))

instance (st : St) (p : Ptr) (l : List Nat) : Decidable (ChainSeg st p l) :=
  chainSegDec st p l

/-- The links of a chain prefix hold (no terminal condition). -/
def SegLinks (st : St) : Ptr → List Nat → Prop
  | _, [] => True
  | p, j :: l => readSlot st p = some j ∧ SegLinks st (.link j) l

/-- The slot reached after walking through the buffers `l` from slot `p`. -/
def slotAfter (p : Ptr) : List Nat → Ptr
  | [] => p
  | a :: l => slotAfter (.link a) l

/-- A pointer chain under a read function `f`: from `a`, successive `f`-steps
    visit exactly the nodes of `M` and then reach `b`. -/
def FChain (f : Nat → Nat) : Nat → List Nat → Nat → Prop
  | a, [], b => f a = b
  | a, x :: l, b => f a = x ∧ FChain f x l b

def fchainDec (f : Nat → Nat) : (a : Nat) → (M : List Nat) → (b : Nat) → Decidable (FChain f a M b)
  | _, [], _ => inferInstanceAs (Decidable (_ = _))
  | a, x :: l, b =>
    haveI : Decidable (FChain f x l b) := fchainDec f x l b
    inferInstanceAs (Decidable (_ ∧ _))

instance (f : Nat → Nat) (a : Nat) (M : List Nat) (b : Nat) : Decidable (FChain f a M b) :=
  fchainDec f a M b

/-- Shard `i`'s LRU list is exactly `L` (front first): the `next` pointers
    run from the sentinel through `L` back to the sentinel, the `prev`
    pointers run the same cycle backwards, all members are buffers, and no
    buffer appears twice. -/
def IsLruList (st : St) (i : Nat) (L : List Nat) : Prop :=
  FChain (getN st) (sentinel st i) L (sentinel st i) ∧
  FChain (getP st) (sentinel st i) L.reverse (sentinel st i) ∧
  (∀ x ∈ L, x < st.nbuf) ∧ L.Nodup

instance (st : St) (i : Nat) (L : List Nat) : Decidable (IsLruList st i L) :=
  inferInstanceAs (Decidable (_ ∧ _ ∧ _ ∧ _))

/-- Structural sanity of the fixed-size tables. -/
def WfSt (st : St) : Prop :=
  st.sentNext.length = NBUCKETS ∧ st.sentPrev.length = NBUCKETS ∧ st.elems.length = NBUCKETS

instance (st : St) : Decidable (WfSt st) :=
  inferInstanceAs (Decidable (_ ∧ _ ∧ _))

/-- A slot that actually exists in the fixed-size tables. -/
def PtrOk (st : St) : Ptr → Prop
  | .head i => i < NBUCKETS
  | .link j => j < st.nbuf

instance (st : St) (p : Ptr) : Decidable (PtrOk st p) := by
  cases p <;> exact Nat.decLt _ _

/-- All buffer fields other than the LRU links agree between two states. -/
def EqFields (st st' : St) : Prop :=
  ∀ x, (getBuf st' x).dev = (getBuf st x).dev ∧
    (getBuf st' x).blockno = (getBuf st x).blockno ∧
    (getBuf st' x).valid = (getBuf st x).valid ∧
    (getBuf st' x).refcnt = (getBuf st x).refcnt ∧
    (getBuf st' x).held = (getBuf st x).held ∧
    (getBuf st' x).data = (getBuf st x).data

/-- The cache state after `bread (1, 5)` from a fresh 16-buffer cache. -/
def stC2 : St := (run 16 [.read 1 5]).getD (binit 0)

/-- The cache state after 16 unreleased `bget`s (blocks 0..15, device 1) from a
    fresh 16-buffer cache: every buffer is handed out, every LRU list empty. -/
def stC8 : St := (run 16 ((List.range 16).map (fun b => Op.get 1 b))).getD (binit 0)

/-- The evolution of one hash-chain walk under `btable_insert`'s two writes
    (`*p = j` then `j->next_hash = 0`): walking from slot `q`, the first point
    where either the written slot `p` is reached or the buffer `j` is entered
    ends the new walk at `j`; otherwise the walk is unchanged. -/
def insWalk (p : Ptr) (j : Nat) : Ptr → List Nat → List Nat
  | q, [] => if q = p then [j] else []
  | q, x :: l => if q = p then [j] else if x = j then [j] else x :: insWalk p j (.link x) l

/-- Every shard's hash chain is a well-formed, duplicate-free, null-terminated
    list of buffer indices (the computed walk is the real chain). -/
def ChainsOk (st : St) : Prop :=
  ∀ k, k < NBUCKETS → ChainSeg st (.head k) (chainWalk st k) ∧
    (chainWalk st k).Nodup ∧ ∀ x ∈ chainWalk st k, x < st.nbuf

instance (st : St) : Decidable (ChainsOk st) :=
  Nat.decidableBallLT _ _

/-- The cache's reachable-state invariant: well-formed tables; every shard's
    LRU list is a well-formed cycle; the LRU lists are pairwise disjoint; every
    buffer on an LRU list has reference count 0 and is not locked; every hash
    chain is well-formed; a buffer sitting in the chain of its own home shard
    (its `blockno % NBUCKETS`) is on no LRU list; and within one chain, a
    home-shard identity is held by at most one buffer. -/
def Inv (st : St) : Prop :=
  WfSt st ∧
  (∀ i, i < NBUCKETS → IsLruList st i (lruWalk st i)) ∧
  (∀ i, i < NBUCKETS → ∀ i', i' < NBUCKETS → ∀ j, j ∈ lruWalk st i → j ∈ lruWalk st i' → i = i') ∧
  (∀ i, i < NBUCKETS → ∀ j ∈ lruWalk st i, (getBuf st j).refcnt = 0 ∧ (getBuf st j).held = false) ∧
  ChainsOk st ∧
  (∀ k, k < NBUCKETS → ∀ j ∈ chainWalk st k, (getBuf st j).blockno % NBUCKETS = k →
    ∀ i, i < NBUCKETS → j ∉ lruWalk st i) ∧
  (∀ k, k < NBUCKETS → ∀ x ∈ chainWalk st k, ∀ y ∈ chainWalk st k,
    (getBuf st x).blockno % NBUCKETS = k → (getBuf st x).blockno = (getBuf st y).blockno →
    (getBuf st x).dev = (getBuf st y).dev → x = y)

instance (st : St) : Decidable (Inv st) :=
  inferInstanceAs (Decidable (_ ∧ _ ∧ _ ∧ _ ∧ _ ∧ _ ∧ _))

/-- The usage contract of `bpin`/`bunpin`: callers only pin or unpin a buffer
    they hold a live reference to (as the log layer does).  All other
    operations carry their own guards (`brelse`/`bwrite` panic on their own). -/
def okOp (st : St) : Op → Bool
  | .pin j => decide (1 ≤ (getBuf st j).refcnt)
  | .unpin j => decide (1 ≤ (getBuf st j).refcnt)
  | _ => true

/-- One operation under the usage contract. -/
def execOpD (st : St) (op : Op) : Option St :=
  if okOp st op then execOp st op else none

def execSeqD : St → List Op → Option St
  | st, [] => some st
  | st, op :: l =>
    match execOpD st op with
    | none => none
    | some st' => execSeqD st' l

/-- Run a contract-respecting operation sequence from a fresh cache. -/
def runD (n : Nat) (l : List Op) : Option St := execSeqD (binit n) l

/-- The cache state after `bget (1, 0)` from a fresh 16-buffer cache. -/
def stC5 : St := (runD 16 [.get 1 0]).getD (binit 0)

/-- The result of the subsequent `bget (1, 13)` (same shard, distinct block). -/
def stC5r : St × Nat × GetPath := (bget stC5 1 13).getD (binit 0, 0, .hit)

end BufCache

namespace SockNet

/-- The socket state as observed at one evaluation of `sockread`'s
    while-condition: the process's `killed` flag and the receive queue
    (packet lengths). -/
structure SockObs where
  killed : Bool
  rxq : List Nat
deriving Repr, DecidableEq

/-- Result of `sockread`: an explicit return value, still blocked in `sleep`
    (no further wakeup delivered), or a kernel `panic`. -/
inductive SockRes where
  | ret (v : Int)
  | blocked
  | fatal
deriving Repr, DecidableEq

/-- `sockread` from `kernel/sysnet.c`, driven by the list of socket states
    observed at successive evaluations of the while-condition (the first on
    entry, one more after each wakeup from `sleep`).  `n` is the user buffer
    size and `copyOk` the outcome of `copyout`.  While the queue is empty:
    if the process has been killed, release the lock and return `-1`;
    otherwise sleep and re-check on the next observation.  With a non-empty
    queue, pop the head packet: `panic("smallbuf")` if it exceeds `n`,
    return `-1` if `copyout` fails, else return the length. -/
def sockread : List SockObs → Nat → Bool → SockRes
  | [], _, _ => .blocked
  | o :: rest, n, copyOk =>
    match o.rxq with
    | [] => if o.killed then .ret (-1) else sockread rest n copyOk
    | m :: _ => if n < m then .fatal else if copyOk then .ret (Int.ofNat m) else .ret (-1)

end SockNet

namespace LockOrder

/-- A thread's spinlock state: the shard locks it holds and the lock it is
    blocked acquiring, if any. -/
structure TState where
  held : List Nat
  waiting : Option Nat
deriving Repr, DecidableEq

/-- The descending-order discipline: a thread only ever blocks on a lock
    whose index is smaller than every lock it holds. -/
def disciplinedB (t : TState) : Bool :=
  match t.waiting with
  | none => true
  | some l => t.held.all (fun h => l < h)

/-- A deadlocked configuration: a non-empty set of threads, each blocked on a
    lock held by some thread of the set. -/
def Deadlocked (S : List TState) : Prop :=
  S ≠ [] ∧ ∀ t ∈ S, ∃ l, t.waiting = some l ∧ ∃ u ∈ S, l ∈ u.held

/-- The (held-locks, acquired-lock) pair at every blocking shard-lock
    acquisition `bget` can perform, read off the source: the initial
    `acquire(lk)` holding nothing; in the stealing loop, for `i < idx`
    `acquire(&bcache.locks[i])` while holding `idx`; for `i > idx`, after
    releasing `idx`, `acquire(&bcache.locks[i])` holding nothing and then
    re-`acquire(lk)` holding `i`. -/
def bgetAcquisitions (idx : Nat) : List (List Nat × Nat) :=
  ([], idx) :: (((List.range BufCache.NBUCKETS).filter (fun i => i ≠ idx)).flatMap
    (fun i => if i < idx then [([idx], i)] else [([], i), ([i], idx)]))

end LockOrder

namespace BufCache

/-! Basic facts about the state accessors. -/

theorem nbuf_setBuf (st : St) (j : Nat) (b : Buf) : (setBuf st j b).nbuf = st.nbuf := by
  simp [setBuf, St.nbuf]

theorem getBuf_setBuf_self (st : St) (j : Nat) (b : Buf) (h : j < st.nbuf) :
    getBuf (setBuf st j b) j = b := by
  simp [getBuf, setBuf, List.getD, List.getElem?_set_self', List.getElem?_eq_getElem, h,
    St.nbuf] at *
  simp [List.getElem?_eq_getElem, h]

theorem getBuf_setBuf_ne (st : St) (i j : Nat) (b : Buf) (h : j ≠ i) :
    getBuf (setBuf st j b) i = getBuf st i := by
  simp [getBuf, setBuf, List.getD, List.getElem?_set_ne h]

theorem getBuf_updBuf_self (st : St) (j : Nat) (f : Buf → Buf) (h : j < st.nbuf) :
    getBuf (updBuf st j f) j = f (getBuf st j) := by
  simp [updBuf, getBuf_setBuf_self _ _ _ h]

theorem getBuf_updBuf_ne (st : St) (i j : Nat) (f : Buf → Buf) (h : j ≠ i) :
    getBuf (updBuf st j f) i = getBuf st i := by
  simp [updBuf, getBuf_setBuf_ne _ _ _ _ h]

theorem getBuf_setBuf (st : St) (j : Nat) (b : Buf) (k : Nat) :
    getBuf (setBuf st j b) k = if k = j ∧ j < st.nbuf then b else getBuf st k := by
  by_cases hk : k = j
  · subst hk
    by_cases hj : k < st.nbuf
    · simp [hj, getBuf_setBuf_self _ _ _ hj]
    · have : st.bufs.set k b = st.bufs :=
        List.set_eq_of_length_le (by simp only [St.nbuf] at hj; omega)
      simp [getBuf, setBuf, this, hj]
  · simp [hk, getBuf_setBuf_ne _ _ _ _ (Ne.symm hk)]

theorem getBuf_updBuf (st : St) (j : Nat) (f : Buf → Buf) (k : Nat) :
    getBuf (updBuf st j f) k =
      if k = j ∧ j < st.nbuf then f (getBuf st j) else getBuf st k := by
  simp [updBuf, getBuf_setBuf]

/-! `FChain` surgery lemmas (pure pointer-list reasoning). -/

theorem fchain_congr (f f' : Nat → Nat) (a b : Nat) (M : List Nat)
    (h : FChain f a M b) (hs : ∀ x, x = a ∨ x ∈ M → f' x = f x) :
    FChain f' a M b := by
  induction M generalizing a with
  | nil => simpa [FChain, hs a (Or.inl rfl)] using h
  | cons x l ih =>
    obtain ⟨h1, h2⟩ := h
    exact ⟨by rw [hs a (Or.inl rfl)]; exact h1,
      ih x h2 (fun y hy => hs y (Or.inr (List.mem_cons.mpr hy)))⟩

theorem fchain_append_one (f : Nat → Nat) (a b v : Nat) (M : List Nat) :
    FChain f a (M ++ [v]) b ↔ FChain f a M v ∧ f v = b := by
  induction M generalizing a with
  | nil => simp [FChain]
  | cons x l ih => simp [FChain, ih, and_assoc]

theorem fchain_first (f : Nat → Nat) (a b : Nat) (M : List Nat) (h : FChain f a M b) :
    f a = M.headD b := by
  cases M with
  | nil => exact h
  | cons x l => exact h.1

theorem fchain_retarget (f f' : Nat → Nat) (a b c : Nat) (M : List Nat)
    (h : FChain f a M b) (ha : a ∉ M) (hnd : M.Nodup)
    (hlast : f' (M.getLastD a) = c)
    (hs : ∀ x, x = a ∨ x ∈ M → x ≠ M.getLastD a → f' x = f x) :
    FChain f' a M c := by
  induction M generalizing a with
  | nil => exact hlast
  | cons x l ih =>
    obtain ⟨h1, h2⟩ := h
    have hlast' : (x :: l).getLastD a = l.getLastD x := by cases l <;> rfl
    have hmem : l.getLastD x ∈ x :: l := List.getLastD_mem_cons l x
    refine ⟨?_, ?_⟩
    · rw [hs a (Or.inl rfl) ?_]
      · exact h1
      · rw [hlast']
        intro hEq
        exact ha (hEq ▸ hmem)
    · have hx : x ∉ l := (List.nodup_cons.mp hnd).1
      exact ih x h2 hx (List.nodup_cons.mp hnd).2 (by rwa [hlast'] at hlast)
        (fun y hy hne => hs y (Or.inr (List.mem_cons.mpr hy)) (by rwa [hlast']))

theorem fchain_rehead (f f' : Nat → Nat) (a b c : Nat) (M : List Nat)
    (h : FChain f a M b) (hc : f' c = f a) (hs : ∀ x ∈ M, f' x = f x) :
    FChain f' c M b := by
  cases M with
  | nil => rw [FChain, hc]; exact h
  | cons x l =>
    exact ⟨by rw [hc]; exact h.1,
      fchain_congr f f' x b l h.2 (fun y hy => hs y (List.mem_cons.mpr hy))⟩

theorem fchain_behead (f f' : Nat → Nat) (a b v : Nat) (M : List Nat)
    (h : FChain f a (v :: M) b) (ha : f' a = f v) (hs : ∀ x ∈ M, f' x = f x) :
    FChain f' a M b := by
  obtain ⟨_, h2⟩ := h
  cases M with
  | nil => rw [FChain, ha]; exact h2
  | cons x l =>
    exact ⟨by rw [ha]; exact h2.1,
      fchain_congr f f' x b l h2.2 (fun y hy => hs y (List.mem_cons.mpr hy))⟩


/-! Pointwise behavior of the primitive state writes. -/

theorem nbuf_updBuf (st : St) (j : Nat) (f : Buf → Buf) : (updBuf st j f).nbuf = st.nbuf :=
  nbuf_setBuf st j _

theorem nbuf_writeSlot (st : St) (p : Ptr) (v : Option Nat) :
    (writeSlot st p v).nbuf = st.nbuf := by
  cases p
  · rfl
  · exact nbuf_updBuf _ _ _

theorem nbuf_setN (st : St) (n v : Nat) : (setN st n v).nbuf = st.nbuf := by
  unfold setN; split
  · exact nbuf_updBuf _ _ _
  · rfl

theorem nbuf_setP (st : St) (n v : Nat) : (setP st n v).nbuf = st.nbuf := by
  unfold setP; split
  · exact nbuf_updBuf _ _ _
  · rfl

theorem nbuf_lru_add (st : St) (b h : Nat) : (lru_add st b h).nbuf = st.nbuf := by
  simp [lru_add, nbuf_setN, nbuf_setP]

theorem nbuf_lru_remove (st : St) (b : Nat) : (lru_remove st b).nbuf = st.nbuf := by
  simp [lru_remove, nbuf_setN, nbuf_setP]

theorem wf_updBuf (st : St) (j : Nat) (f : Buf → Buf) (h : WfSt st) : WfSt (updBuf st j f) := h

theorem wf_setN (st : St) (n v : Nat) (h : WfSt st) : WfSt (setN st n v) := by
  unfold setN; split
  · exact h
  · simpa [WfSt] using h

theorem wf_setP (st : St) (n v : Nat) (h : WfSt st) : WfSt (setP st n v) := by
  unfold setP; split
  · exact h
  · simpa [WfSt] using h

theorem wf_writeSlot (st : St) (p : Ptr) (v : Option Nat) (h : WfSt st) :
    WfSt (writeSlot st p v) := by
  cases p
  · simpa [writeSlot, WfSt] using h
  · exact h

theorem wf_lru_add (st : St) (b hd : Nat) (h : WfSt st) : WfSt (lru_add st b hd) :=
  wf_setP _ _ _ (wf_setN _ _ _ (wf_setP _ _ _ (wf_setN _ _ _ h)))

theorem wf_lru_remove (st : St) (b : Nat) (h : WfSt st) : WfSt (lru_remove st b) :=
  wf_setN _ _ _ (wf_setP _ _ _ h)

theorem getD_set_self {α : Type} (l : List α) (i : Nat) (a d : α) (h : i < l.length) :
    (l.set i a)[i]?.getD d = a := by
  simp [List.getElem?_set_self', h, List.getElem?_eq_getElem]

theorem getD_set_ne {α : Type} (l : List α) (i j : Nat) (a d : α) (h : i ≠ j) :
    (l.set i a)[j]?.getD d = l[j]?.getD d := by
  simp [List.getElem?_set_ne h]

theorem getN_setN (st : St) (n v m : Nat) (hn : n < st.nbuf + NBUCKETS) (hwf : WfSt st) :
    getN (setN st n v) m = if m = n then v else getN st m := by
  unfold setN
  by_cases hb : n < st.nbuf
  · rw [if_pos hb]
    unfold getN
    rw [nbuf_updBuf, getBuf_updBuf]
    have hsent : (updBuf st n fun b => { b with lnext := v }).sentNext = st.sentNext := rfl
    rw [hsent]
    by_cases hm : m < st.nbuf
    · by_cases hmn : m = n
      · simp [hm, hmn, hb]
      · simp [hm, hmn]
    · have hmn : m ≠ n := by omega
      simp [hm, hmn]
  · rw [if_neg hb]
    unfold getN
    have hb1 : ({ st with sentNext := st.sentNext.set (n - st.nbuf) v } : St).nbuf = st.nbuf := rfl
    rw [hb1]
    have hb2 : ({ st with sentNext := st.sentNext.set (n - st.nbuf) v } : St).sentNext
        = st.sentNext.set (n - st.nbuf) v := rfl
    have hb3 : ∀ k, getBuf { st with sentNext := st.sentNext.set (n - st.nbuf) v } k = getBuf st k :=
      fun k => rfl
    rw [hb2, hb3]
    by_cases hm : m < st.nbuf
    · have hmn : m ≠ n := by omega
      simp [hm, hmn]
    · by_cases hmn : m = n
      · subst hmn
        have hrange : m - st.nbuf < st.sentNext.length := by rw [hwf.1]; omega
        simp [hm, getD_set_self _ _ _ _ hrange]
      · have hsub : n - st.nbuf ≠ m - st.nbuf := by omega
        simp [hm, hmn, getD_set_ne _ _ _ _ _ hsub]

theorem getP_setP (st : St) (n v m : Nat) (hn : n < st.nbuf + NBUCKETS) (hwf : WfSt st) :
    getP (setP st n v) m = if m = n then v else getP st m := by
  unfold setP
  by_cases hb : n < st.nbuf
  · rw [if_pos hb]
    unfold getP
    rw [nbuf_updBuf, getBuf_updBuf]
    have hsent : (updBuf st n fun b => { b with lprev := v }).sentPrev = st.sentPrev := rfl
    rw [hsent]
    by_cases hm : m < st.nbuf
    · by_cases hmn : m = n
      · simp [hm, hmn, hb]
      · simp [hm, hmn]
    · have hmn : m ≠ n := by omega
      simp [hm, hmn]
  · rw [if_neg hb]
    unfold getP
    have hb1 : ({ st with sentPrev := st.sentPrev.set (n - st.nbuf) v } : St).nbuf = st.nbuf := rfl
    rw [hb1]
    have hb2 : ({ st with sentPrev := st.sentPrev.set (n - st.nbuf) v } : St).sentPrev
        = st.sentPrev.set (n - st.nbuf) v := rfl
    have hb3 : ∀ k, getBuf { st with sentPrev := st.sentPrev.set (n - st.nbuf) v } k = getBuf st k :=
      fun k => rfl
    rw [hb2, hb3]
    by_cases hm : m < st.nbuf
    · have hmn : m ≠ n := by omega
      simp [hm, hmn]
    · by_cases hmn : m = n
      · subst hmn
        have hrange : m - st.nbuf < st.sentPrev.length := by rw [hwf.2.1]; omega
        simp [hm, getD_set_self _ _ _ _ hrange]
      · have hsub : n - st.nbuf ≠ m - st.nbuf := by omega
        simp [hm, hmn, getD_set_ne _ _ _ _ _ hsub]

theorem getP_setN (st : St) (n v m : Nat) : getP (setN st n v) m = getP st m := by
  unfold setN
  by_cases hb : n < st.nbuf
  · rw [if_pos hb]
    unfold getP
    rw [nbuf_updBuf, getBuf_updBuf]
    have hsent : (updBuf st n fun b => { b with lnext := v }).sentPrev = st.sentPrev := rfl
    rw [hsent]
    by_cases hm : m < st.nbuf
    · by_cases hmn : m = n
      · subst hmn; simp [hm]
      · simp [hm, hmn]
    · simp [hm]
  · rw [if_neg hb]
    rfl

theorem getN_setP (st : St) (n v m : Nat) : getN (setP st n v) m = getN st m := by
  unfold setP
  by_cases hb : n < st.nbuf
  · rw [if_pos hb]
    unfold getN
    rw [nbuf_updBuf, getBuf_updBuf]
    have hsent : (updBuf st n fun b => { b with lprev := v }).sentNext = st.sentNext := rfl
    rw [hsent]
    by_cases hm : m < st.nbuf
    · by_cases hmn : m = n
      · subst hmn; simp [hm]
      · simp [hm, hmn]
    · simp [hm]
  · rw [if_neg hb]
    rfl

theorem getN_updBuf (st : St) (j : Nat) (f : Buf → Buf) (m : Nat)
    (h : ∀ b, (f b).lnext = b.lnext) : getN (updBuf st j f) m = getN st m := by
  unfold getN
  rw [nbuf_updBuf, getBuf_updBuf]
  have hsent : (updBuf st j f).sentNext = st.sentNext := rfl
  rw [hsent]
  by_cases hm : m < st.nbuf
  · by_cases hmj : m = j
    · subst hmj; simp [hm, h]
    · simp [hm, hmj]
  · simp [hm]

theorem getP_updBuf (st : St) (j : Nat) (f : Buf → Buf) (m : Nat)
    (h : ∀ b, (f b).lprev = b.lprev) : getP (updBuf st j f) m = getP st m := by
  unfold getP
  rw [nbuf_updBuf, getBuf_updBuf]
  have hsent : (updBuf st j f).sentPrev = st.sentPrev := rfl
  rw [hsent]
  by_cases hm : m < st.nbuf
  · by_cases hmj : m = j
    · subst hmj; simp [hm, h]
    · simp [hm, hmj]
  · simp [hm]

theorem getN_writeSlot (st : St) (p : Ptr) (v : Option Nat) (m : Nat) :
    getN (writeSlot st p v) m = getN st m := by
  cases p with
  | head i => rfl
  | link j => exact getN_updBuf st j _ m (fun b => rfl)

theorem getP_writeSlot (st : St) (p : Ptr) (v : Option Nat) (m : Nat) :
    getP (writeSlot st p v) m = getP st m := by
  cases p with
  | head i => rfl
  | link j => exact getP_updBuf st j _ m (fun b => rfl)

theorem readSlot_updBuf (st : St) (j : Nat) (f : Buf → Buf) (p : Ptr)
    (h : ∀ b, (f b).next_hash = b.next_hash) :
    readSlot (updBuf st j f) p = readSlot st p := by
  cases p with
  | head i => rfl
  | link k =>
    simp only [readSlot]
    rw [getBuf_updBuf]
    by_cases hkj : k = j
    · subst hkj
      split
      · simp [h]
      · rfl
    · simp [hkj]

theorem readSlot_setN (st : St) (n v : Nat) (p : Ptr) :
    readSlot (setN st n v) p = readSlot st p := by
  unfold setN; split
  · exact readSlot_updBuf _ _ _ _ (fun b => rfl)
  · cases p <;> simp [readSlot, getBuf]

theorem readSlot_setP (st : St) (n v : Nat) (p : Ptr) :
    readSlot (setP st n v) p = readSlot st p := by
  unfold setP; split
  · exact readSlot_updBuf _ _ _ _ (fun b => rfl)
  · cases p <;> simp [readSlot, getBuf]

theorem readSlot_writeSlot (st : St) (q : Ptr) (v : Option Nat) (p : Ptr)
    (hwf : WfSt st) (hq : PtrOk st q) :
    readSlot (writeSlot st q v) p = if p = q then v else readSlot st p := by
  cases q with
  | head i =>
    cases p with
    | head i' =>
      by_cases hE : i' = i
      · subst hE
        have : i' < st.elems.length := by rw [hwf.2.2]; exact hq
        simp [writeSlot, readSlot, getD_set_self _ _ _ _ this]
      · simp [writeSlot, readSlot, getD_set_ne _ _ _ _ _ (Ne.symm hE), hE]
    | link k => simp [writeSlot, readSlot, getBuf]
  | link j =>
    cases p with
    | head i' =>
      have : (updBuf st j fun b => { b with next_hash := v }).elems = st.elems := rfl
      simp [writeSlot, readSlot, this]
    | link k =>
      simp only [writeSlot, readSlot]
      rw [getBuf_updBuf]
      by_cases hE : k = j
      · subst hE
        have hk : k < st.nbuf := hq
        simp [hk]
      · simp [hE]


/-! Chain-walk lemmas. -/

theorem chainSeg_congr (st st' : St) (hr : ∀ p, readSlot st' p = readSlot st p) :
    ∀ (l : List Nat) (p : Ptr), ChainSeg st p l → ChainSeg st' p l := by
  intro l
  induction l with
  | nil => intro p h; exact (hr p).trans h
  | cons x l ih => intro p h; exact ⟨(hr p).trans h.1, ih _ h.2⟩

theorem segLinks_congr (st st' : St) (hr : ∀ p, readSlot st' p = readSlot st p) :
    ∀ (l : List Nat) (p : Ptr), SegLinks st p l → SegLinks st' p l := by
  intro l
  induction l with
  | nil => intro p _; trivial
  | cons x l ih => intro p h; exact ⟨(hr p).trans h.1, ih _ h.2⟩

theorem isMatch_congr (st st' : St)
    (hf : ∀ x, (getBuf st' x).blockno = (getBuf st x).blockno ∧
      (getBuf st' x).dev = (getBuf st x).dev) (dv bno j : Nat) :
    isMatch st' dv bno j ↔ isMatch st dv bno j := by
  unfold isMatch
  rw [(hf j).1, (hf j).2]

theorem chainSeg_stable (st : St) (q : Ptr) (v : Option Nat) (hwf : WfSt st) (hq : PtrOk st q) :
    ∀ (l : List Nat) (p : Ptr), ChainSeg st p l → q ≠ p → (∀ x ∈ l, q ≠ .link x) →
      ChainSeg (writeSlot st q v) p l := by
  intro l
  induction l with
  | nil =>
    intro p h hqp _
    rw [ChainSeg, readSlot_writeSlot st q v p hwf hq, if_neg (fun hE => hqp hE.symm)]
    exact h
  | cons x l ih =>
    intro p h hqp hl
    refine ⟨?_, ih _ h.2 (hl x (by simp)) (fun y hy => hl y (by simp [hy]))⟩
    rw [readSlot_writeSlot st q v p hwf hq, if_neg (fun hE => hqp hE.symm)]
    exact h.1

theorem chainSeg_append (st : St) :
    ∀ (A : List Nat) (p : Ptr) (B : List Nat),
      ChainSeg st p (A ++ B) ↔ SegLinks st p A ∧ ChainSeg st (slotAfter p A) B := by
  intro A
  induction A with
  | nil => intro p B; simp [SegLinks, slotAfter]
  | cons a A ih =>
    intro p B
    rw [List.cons_append, ChainSeg, SegLinks, slotAfter, ih (.link a) B, and_assoc]

theorem slotAfter_last : ∀ (A : List Nat) (a : Nat),
    slotAfter (.link a) A = .link (A.getLastD a) := by
  intro A
  induction A with
  | nil => intro a; rfl
  | cons x l ih =>
    intro a
    rw [slotAfter, ih x]
    congr 1
    cases l <;> rfl

theorem findPtrAux_none (st : St) (dv bno fuel : Nat) (p : Ptr)
    (h : readSlot st p = none) : findPtrAux st dv bno (fuel + 1) p = p := by
  rw [findPtrAux, h]

theorem findPtrAux_cons (st : St) (dv bno fuel : Nat) (p : Ptr) (a : Nat)
    (h : readSlot st p = some a) :
    findPtrAux st dv bno (fuel + 1) p =
      if (getBuf st a).blockno = bno ∧ (getBuf st a).dev = dv then p
      else findPtrAux st dv bno fuel (.link a) := by
  rw [findPtrAux, h]

theorem findPtrAux_stop (st : St) (dv bno : Nat) (fuel : Nat) (p : Ptr)
    (h : ∀ j, readSlot st p = some j → isMatch st dv bno j) :
    findPtrAux st dv bno (fuel + 1) p = p := by
  cases hr : readSlot st p with
  | none => exact findPtrAux_none st dv bno fuel p hr
  | some j =>
    obtain ⟨h1, h2⟩ := h j hr
    rw [findPtrAux_cons st dv bno fuel p j hr, if_pos ⟨h1, h2⟩]

theorem findPtrAux_skip (st : St) (dv bno : Nat) :
    ∀ (A : List Nat) (p : Ptr) (fuel : Nat), SegLinks st p A →
      (∀ x ∈ A, ¬ isMatch st dv bno x) → A.length ≤ fuel →
      findPtrAux st dv bno fuel p = findPtrAux st dv bno (fuel - A.length) (slotAfter p A) := by
  intro A
  induction A with
  | nil => intro p fuel _ _ _; rfl
  | cons a A ih =>
    intro p fuel hseg hnm hlen
    obtain ⟨fuel, rfl⟩ : ∃ f, fuel = f + 1 := ⟨fuel - 1, by simp at hlen; omega⟩
    have hna : ¬((getBuf st a).blockno = bno ∧ (getBuf st a).dev = dv) :=
      fun hE => hnm a (by simp) ⟨hE.1, hE.2⟩
    rw [findPtrAux_cons st dv bno fuel p a hseg.1, if_neg hna,
      ih (.link a) fuel hseg.2 (fun x hx => hnm x (by simp [hx])) (by simp at hlen; omega)]
    simp only [slotAfter, List.length_cons]
    congr 1
    omega

theorem find_ptr_found (st : St) (dv bno : Nat) (A : List Nat) (j : Nat) (B : List Nat)
    (hseg : ChainSeg st (.head (bno % NBUCKETS)) (A ++ j :: B))
    (hA : ∀ x ∈ A, ¬ isMatch st dv bno x) (hj : isMatch st dv bno j)
    (hlen : A.length ≤ st.nbuf) :
    find_ptr st dv bno = slotAfter (.head (bno % NBUCKETS)) A ∧
    btable_find st dv bno = some j := by
  obtain ⟨hlinks, hrest⟩ := (chainSeg_append st A _ (j :: B)).mp hseg
  have hread : readSlot st (slotAfter (.head (bno % NBUCKETS)) A) = some j := hrest.1
  have hfp : find_ptr st dv bno = slotAfter (.head (bno % NBUCKETS)) A := by
    unfold find_ptr
    rw [findPtrAux_skip st dv bno A _ _ hlinks hA (by omega)]
    obtain ⟨r, hr⟩ : ∃ r, st.nbuf + 1 - A.length = r + 1 := ⟨st.nbuf - A.length, by omega⟩
    rw [hr]
    exact findPtrAux_stop st dv bno r _ (fun k hk => by
      rw [hread] at hk
      cases hk
      exact hj)
  exact ⟨hfp, by rw [btable_find, hfp, hread]⟩

theorem btable_find_none_of (st : St) (dv bno : Nat) (L : List Nat)
    (hseg : ChainSeg st (.head (bno % NBUCKETS)) L)
    (hL : ∀ x ∈ L, ¬ isMatch st dv bno x) (hlen : L.length ≤ st.nbuf) :
    btable_find st dv bno = none := by
  obtain ⟨hlinks, hrest⟩ := (chainSeg_append st L _ []).mp (by simpa using hseg)
  have hread : readSlot st (slotAfter (.head (bno % NBUCKETS)) L) = none := hrest
  unfold btable_find find_ptr
  rw [findPtrAux_skip st dv bno L _ _ hlinks hL (by omega)]
  obtain ⟨r, hr⟩ : ∃ r, st.nbuf + 1 - L.length = r + 1 := ⟨st.nbuf - L.length, by omega⟩
  rw [hr]
  rw [findPtrAux_stop st dv bno r _ (fun k hk => by rw [hread] at hk; cases hk)]
  exact hread

theorem chainSeg_remove (st : St) (dv bno j : Nat) (B : List Nat)
    (hj : isMatch st dv bno j) (hwf : WfSt st) :
    ∀ (A : List Nat) (p : Ptr), ChainSeg st p (A ++ j :: B) → (A ++ j :: B).Nodup →
      (∀ x ∈ A ++ j :: B, x < st.nbuf) → PtrOk st p →
      (∀ y, p = .link y → y ∉ A ++ j :: B) →
      ChainSeg (writeSlot st (slotAfter p A) ((getBuf st j).next_hash)) p (A ++ B) := by
  intro A
  induction A with
  | nil =>
    intro p hseg hnd hrange hp hpy
    simp only [List.nil_append, slotAfter] at hseg hnd hrange hpy ⊢
    obtain ⟨hpj, hrest⟩ := hseg
    cases B with
    | nil =>
      have hnx : (getBuf st j).next_hash = none := hrest
      rw [ChainSeg, readSlot_writeSlot st p _ p hwf hp, if_pos rfl, hnx]
    | cons b B' =>
      have hnx : (getBuf st j).next_hash = some b := hrest.1
      refine ⟨?_, ?_⟩
      · rw [readSlot_writeSlot st p _ p hwf hp, if_pos rfl, hnx]
      · refine chainSeg_stable st p _ hwf hp B' (.link b) hrest.2 ?_ ?_
        · intro hE
          exact hpy b hE (by simp)
        · intro y hy hE
          exact hpy y hE (by simp [hy])
  | cons a A' ih =>
    intro p hseg hnd hrange hp hpy
    simp only [List.cons_append] at hseg hnd hrange ⊢
    obtain ⟨hpa, hrest⟩ := hseg
    have hq : slotAfter p (a :: A') = .link ((A').getLastD a) := by
      rw [slotAfter, slotAfter_last]
    have hlastMem : (A').getLastD a ∈ a :: A' := List.getLastD_mem_cons A' a
    have hlastRange : (A').getLastD a < st.nbuf := by
      rcases List.mem_cons.mp hlastMem with h | h
      · refine hrange _ ?_
        rw [h]
        exact List.mem_cons_self _ _
      · exact hrange _ (List.mem_cons_of_mem _ (List.mem_append_left _ h))
    have hqok : PtrOk st (slotAfter p (a :: A')) := by
      rw [hq]; exact hlastRange
    refine ⟨?_, ?_⟩
    · rw [show slotAfter p (a :: A') = slotAfter (.link a) A' from rfl] at hqok ⊢
      rw [readSlot_writeSlot st _ _ p hwf hqok, if_neg ?_]
      · exact hpa
      · intro hE
        rw [show slotAfter (.link a) A' = slotAfter p (a :: A') from rfl, hq] at hE
        refine hpy _ hE ?_
        rcases List.mem_cons.mp hlastMem with h | h
        · rw [h]
          exact List.mem_cons_self _ _
        · exact List.mem_cons_of_mem _ (List.mem_append_left _ h)
    · have hres := ih (.link a) hrest (List.nodup_cons.mp hnd).2
        (fun x hx => hrange x (by simp [hx]))
        (hrange a (by simp))
        (fun y hy => by
          cases hy
          exact (List.nodup_cons.mp hnd).1)
      rw [show slotAfter p (a :: A') = slotAfter (.link a) A' from rfl]
      exact hres


/-! LRU-list lemmas. -/

theorem headD_reverse {α : Type} (l : List α) (d : α) : l.reverse.headD d = l.getLastD d := by
  rw [List.headD_eq_head?, List.head?_reverse, List.getLastD_eq_getLast?]

theorem getLastD_reverse {α : Type} (l : List α) (d : α) :
    l.reverse.getLastD d = l.headD d := by
  have := headD_reverse l.reverse d
  rw [List.reverse_reverse] at this
  exact this.symm

theorem eqFields_refl (st : St) : EqFields st st := fun _ => ⟨rfl, rfl, rfl, rfl, rfl, rfl⟩

theorem eqFields_trans {a b c : St} (h1 : EqFields a b) (h2 : EqFields b c) : EqFields a c := by
  intro x
  obtain ⟨e1, e2, e3, e4, e5, e6⟩ := h1 x
  obtain ⟨f1, f2, f3, f4, f5, f6⟩ := h2 x
  exact ⟨f1.trans e1, f2.trans e2, f3.trans e3, f4.trans e4, f5.trans e5, f6.trans e6⟩

theorem eqFields_setN (st : St) (n v : Nat) : EqFields st (setN st n v) := by
  intro x
  unfold setN
  split
  · rw [getBuf_updBuf]
    split <;> simp_all
  · exact ⟨rfl, rfl, rfl, rfl, rfl, rfl⟩

theorem eqFields_setP (st : St) (n v : Nat) : EqFields st (setP st n v) := by
  intro x
  unfold setP
  split
  · rw [getBuf_updBuf]
    split <;> simp_all
  · exact ⟨rfl, rfl, rfl, rfl, rfl, rfl⟩

theorem eqFields_lru_add (st : St) (b hd : Nat) : EqFields st (lru_add st b hd) :=
  eqFields_trans (eqFields_trans (eqFields_trans (eqFields_setN st b hd)
    (eqFields_setP _ _ _)) (eqFields_setN _ _ _)) (eqFields_setP _ _ _)

theorem eqFields_lru_remove (st : St) (b : Nat) : EqFields st (lru_remove st b) :=
  eqFields_trans (eqFields_setP st _ _) (eqFields_setN _ _ _)

theorem readSlot_lru_add (st : St) (b hd : Nat) (p : Ptr) :
    readSlot (lru_add st b hd) p = readSlot st p := by
  unfold lru_add
  rw [readSlot_setP, readSlot_setN, readSlot_setP, readSlot_setN]

theorem readSlot_lru_remove (st : St) (b : Nat) (p : Ptr) :
    readSlot (lru_remove st b) p = readSlot st p := by
  unfold lru_remove
  rw [readSlot_setN, readSlot_setP]

theorem disk_setN (st : St) (n v : Nat) : (setN st n v).disk = st.disk := by
  unfold setN; split <;> rfl

theorem disk_setP (st : St) (n v : Nat) : (setP st n v).disk = st.disk := by
  unfold setP; split <;> rfl

theorem disk_lru_add (st : St) (b hd : Nat) : (lru_add st b hd).disk = st.disk := by
  unfold lru_add
  rw [disk_setP, disk_setN, disk_setP, disk_setN]

theorem disk_lru_remove (st : St) (b : Nat) : (lru_remove st b).disk = st.disk := by
  unfold lru_remove
  rw [disk_setN, disk_setP]

theorem nreads_setN (st : St) (n v : Nat) : (setN st n v).nreads = st.nreads := by
  unfold setN; split <;> rfl

theorem nreads_setP (st : St) (n v : Nat) : (setP st n v).nreads = st.nreads := by
  unfold setP; split <;> rfl

theorem nreads_lru_add (st : St) (b hd : Nat) : (lru_add st b hd).nreads = st.nreads := by
  unfold lru_add
  rw [nreads_setP, nreads_setN, nreads_setP, nreads_setN]

theorem nreads_lru_remove (st : St) (b : Nat) : (lru_remove st b).nreads = st.nreads := by
  unfold lru_remove
  rw [nreads_setN, nreads_setP]

theorem lru_add_view (st : St) (b hd : Nat) (hwf : WfSt st)
    (hb : b < st.nbuf) (hhd : hd < st.nbuf + NBUCKETS)
    (hol : getP st hd < st.nbuf + NBUCKETS)
    (hbhd : b ≠ hd) (holb : getP st hd ≠ b) :
    (∀ m, getN (lru_add st b hd) m =
      if m = getP st hd then b else if m = b then hd else getN st m) ∧
    (∀ m, getP (lru_add st b hd) m =
      if m = hd then b else if m = b then getP st hd else getP st m) := by
  have w1 : WfSt (setN st b hd) := wf_setN _ _ _ hwf
  have n1 : (setN st b hd).nbuf = st.nbuf := nbuf_setN _ _ _
  have h1N : ∀ m, getN (setN st b hd) m = if m = b then hd else getN st m :=
    fun m => getN_setN st b hd m (by omega) hwf
  have h1P : ∀ m, getP (setN st b hd) m = getP st m := fun m => getP_setN st b hd m
  set st1 := setN st b hd with hst1
  set st2 := setP st1 b (getP st1 hd) with hst2
  have w2 : WfSt st2 := wf_setP _ _ _ w1
  have n2 : st2.nbuf = st.nbuf := by rw [hst2, nbuf_setP, n1]
  have h2P : ∀ m, getP st2 m = if m = b then getP st hd else getP st m := by
    intro m
    rw [hst2, getP_setP st1 b _ m (by rw [n1]; omega) w1, h1P hd, h1P m]
  have h2N : ∀ m, getN st2 m = if m = b then hd else getN st m := by
    intro m
    rw [hst2, getN_setP, h1N m]
  set st3 := setN st2 (getP st2 b) b with hst3
  have hp2b : getP st2 b = getP st hd := by rw [h2P b, if_pos rfl]
  have w3 : WfSt st3 := wf_setN _ _ _ w2
  have n3 : st3.nbuf = st.nbuf := by rw [hst3, nbuf_setN, n2]
  have h3N : ∀ m, getN st3 m =
      if m = getP st hd then b else if m = b then hd else getN st m := by
    intro m
    rw [hst3, getN_setN st2 _ b m (by rw [n2, hp2b]; omega) w2, hp2b, h2N m]
  have h3P : ∀ m, getP st3 m = if m = b then getP st hd else getP st m := by
    intro m
    rw [hst3, getP_setN, h2P m]
  have hn3b : getN st3 b = hd := by
    rw [h3N b, if_neg (Ne.symm holb), if_pos rfl]
  constructor
  · intro m
    show getN (setP st3 (getN st3 b) b) m = _
    rw [getN_setP, h3N m]
  · intro m
    show getP (setP st3 (getN st3 b) b) m = _
    rw [getP_setP st3 _ b m (by rw [n3, hn3b]; omega) w3, hn3b, h3P m]

theorem lru_remove_view (st : St) (v : Nat) (hwf : WfSt st)
    (hnx : getN st v < st.nbuf + NBUCKETS) (hpv : getP st v < st.nbuf + NBUCKETS)
    (hnv : getN st v ≠ v) :
    (∀ m, getN (lru_remove st v) m = if m = getP st v then getN st v else getN st m) ∧
    (∀ m, getP (lru_remove st v) m = if m = getN st v then getP st v else getP st m) := by
  have w1 : WfSt (setP st (getN st v) (getP st v)) := wf_setP _ _ _ hwf
  have n1 : (setP st (getN st v) (getP st v)).nbuf = st.nbuf := nbuf_setP _ _ _
  set st1 := setP st (getN st v) (getP st v) with hst1
  have h1P : ∀ m, getP st1 m = if m = getN st v then getP st v else getP st m :=
    fun m => by rw [hst1, getP_setP st _ _ m (by omega) hwf]
  have h1N : ∀ m, getN st1 m = getN st m := fun m => by rw [hst1, getN_setP]
  have hp1v : getP st1 v = getP st v := by
    rw [h1P v, if_neg (Ne.symm hnv)]
  have hn1v : getN st1 v = getN st v := h1N v
  constructor
  · intro m
    show getN (setN st1 (getP st1 v) (getN st1 v)) m = _
    rw [getN_setN st1 _ _ m (by rw [n1, hp1v]; omega) w1, hp1v, hn1v, h1N m]
  · intro m
    show getP (setN st1 (getP st1 v) (getN st1 v)) m = _
    rw [getP_setN, h1P m]


theorem isLruList_congr (st st' : St) (hn : st'.nbuf = st.nbuf)
    (hN : ∀ m, getN st' m = getN st m) (hP : ∀ m, getP st' m = getP st m)
    (i : Nat) (L : List Nat) (h : IsLruList st i L) : IsLruList st' i L := by
  obtain ⟨h1, h2, h3, h4⟩ := h
  have hsent : sentinel st' i = sentinel st i := by simp [sentinel, hn]
  refine ⟨?_, ?_, ?_, h4⟩
  · rw [hsent]
    exact fchain_congr _ _ _ _ _ h1 (fun x _ => hN x)
  · rw [hsent]
    exact fchain_congr _ _ _ _ _ h2 (fun x _ => hP x)
  · intro x hx
    rw [hn]
    exact h3 x hx

theorem sentinel_not_memL (st : St) (i : Nat) (L : List Nat)
    (h : ∀ x ∈ L, x < st.nbuf) : sentinel st i ∉ L := by
  intro hmem
  have := h _ hmem
  simp only [sentinel] at this
  omega

theorem lru_add_lruList (st : St) (b i : Nat) (L : List Nat)
    (hwf : WfSt st) (hi : i < NBUCKETS) (hb : b < st.nbuf) (hbL : b ∉ L)
    (hlru : IsLruList st i L) :
    IsLruList (lru_add st b (sentinel st i)) i (L ++ [b]) := by
  obtain ⟨hN, hP, helem, hnd⟩ := hlru
  have hsent_nb : ¬ sentinel st i < st.nbuf := by simp [sentinel]
  have hbsent : b ≠ sentinel st i := by simp [sentinel]; omega
  have hsentL : sentinel st i ∉ L := sentinel_not_memL st i L helem
  -- the old last node (getP of the sentinel)
  have holchar : getP st (sentinel st i) = L.getLastD (sentinel st i) := by
    have := fchain_first _ _ _ _ hP
    rwa [headD_reverse] at this
  have holmem : getP st (sentinel st i) ∈ sentinel st i :: L := by
    rw [holchar]
    exact List.getLastD_mem_cons L _
  have holrange : getP st (sentinel st i) < st.nbuf + NBUCKETS := by
    rcases List.mem_cons.mp holmem with h | h
    · rw [h]; simp [sentinel]; omega
    · have := helem _ h; omega
  have holb : getP st (sentinel st i) ≠ b := by
    rcases List.mem_cons.mp holmem with h | h
    · rw [h]; exact Ne.symm hbsent
    · intro hE; exact hbL (by rwa [hE] at h)
  obtain ⟨vN, vP⟩ := lru_add_view st b (sentinel st i) hwf hb
    (by simp [sentinel]; omega) holrange hbsent holb
  have hnb' : (lru_add st b (sentinel st i)).nbuf = st.nbuf := nbuf_lru_add _ _ _
  have hsent' : sentinel (lru_add st b (sentinel st i)) i = sentinel st i := by
    simp only [sentinel]
    rw [nbuf_lru_add]
  refine ⟨?_, ?_, ?_, ?_⟩
  · rw [hsent', fchain_append_one]
    constructor
    · refine fchain_retarget (getN st) _ (sentinel st i) (sentinel st i) b L hN hsentL hnd ?_ ?_
      · rw [vN, ← holchar, if_pos rfl]
      · intro x hx hne
        rw [vN, if_neg (by rwa [holchar]), if_neg ?_]
        rcases hx with rfl | hx
        · exact Ne.symm hbsent
        · intro hE; exact hbL (by rwa [hE] at hx)
    · rw [vN, if_neg (Ne.symm holb), if_pos rfl]
  · rw [hsent']
    have hrev : (L ++ [b]).reverse = b :: L.reverse := by simp
    rw [hrev]
    refine ⟨?_, ?_⟩
    · rw [vP, if_pos rfl]
    · refine fchain_rehead (getP st) _ (sentinel st i) (sentinel st i) b L.reverse ?_ ?_ ?_
      · exact hP
      · rw [vP, if_neg hbsent, if_pos rfl]
      · intro x hx
        have hxL : x ∈ L := List.mem_reverse.mp hx
        rw [vP, if_neg ?_, if_neg ?_]
        · intro hE; exact hbL (by rwa [hE] at hxL)
        · intro hE; exact hsentL (by rwa [hE] at hxL)
  · intro x hx
    rw [hnb']
    rcases List.mem_append.mp hx with h | h
    · exact helem x h
    · simp at h; omega
  · rw [List.nodup_append]
    exact ⟨hnd, List.nodup_singleton b, by simpa using hbL⟩

theorem lru_remove_front (st : St) (v i : Nat) (L : List Nat)
    (hwf : WfSt st) (hi : i < NBUCKETS)
    (hlru : IsLruList st i (v :: L)) :
    getN st (sentinel st i) = v ∧ getP st v = sentinel st i ∧
    IsLruList (lru_remove st v) i L := by
  obtain ⟨hN, hP, helem, hnd⟩ := hlru
  have hv : v < st.nbuf := helem v (by simp)
  have hvsent : v ≠ sentinel st i := by simp [sentinel]; omega
  have hfront : getN st (sentinel st i) = v := hN.1
  have hPdecomp := (fchain_append_one (getP st) (sentinel st i) (sentinel st i) v L.reverse).mp
    (by simpa using hP)
  have hpv : getP st v = sentinel st i := hPdecomp.2
  have hnxchar : getN st v = L.headD (sentinel st i) := fchain_first _ _ _ _ hN.2
  have hnxmem : getN st v ∈ sentinel st i :: L := by
    rw [hnxchar]
    cases L with
    | nil => simp
    | cons y l => simp
  have hnxrange : getN st v < st.nbuf + NBUCKETS := by
    rcases List.mem_cons.mp hnxmem with h | h
    · rw [h]; simp [sentinel]; omega
    · have := helem _ (List.mem_cons_of_mem _ h); omega
  have hvL : v ∉ L := (List.nodup_cons.mp hnd).1
  have hnxv : getN st v ≠ v := by
    rcases List.mem_cons.mp hnxmem with h | h
    · rw [h]; exact Ne.symm hvsent
    · intro hE; exact hvL (by rwa [hE] at h)
  obtain ⟨vN, vP⟩ := lru_remove_view st v hwf hnxrange (by rw [hpv]; simp [sentinel]; omega) hnxv
  have hnb' : (lru_remove st v).nbuf = st.nbuf := nbuf_lru_remove _ _
  have hsent' : sentinel (lru_remove st v) i = sentinel st i := by
    simp only [sentinel]
    rw [nbuf_lru_remove]
  have hsentL : sentinel st i ∉ L :=
    fun h => sentinel_not_memL st i (v :: L) helem (List.mem_cons_of_mem _ h)
  refine ⟨hfront, hpv, ?_, ?_, ?_, (List.nodup_cons.mp hnd).2⟩
  · rw [hsent']
    refine fchain_behead (getN st) _ (sentinel st i) (sentinel st i) v L hN ?_ ?_
    · rw [vN, if_pos hpv.symm]
    · intro x hx
      rw [vN, hpv, if_neg ?_]
      intro hE; exact hsentL (by rwa [hE] at hx)
  · rw [hsent']
    refine fchain_retarget (getP st) _ (sentinel st i) v (sentinel st i) L.reverse hPdecomp.1
      (fun h => hsentL (List.mem_reverse.mp h)) (List.nodup_reverse.mpr (List.nodup_cons.mp hnd).2)
      ?_ ?_
    · rw [getLastD_reverse, ← hnxchar, vP, if_pos rfl]
      exact hpv
    · intro x hx hne
      rw [getLastD_reverse, ← hnxchar] at hne
      rw [vP, if_neg hne]
  · intro x hx
    rw [hnb']
    exact helem x (List.mem_cons_of_mem _ hx)


theorem eqFields_writeSlot (st : St) (p : Ptr) (v : Option Nat) :
    EqFields st (writeSlot st p v) := by
  intro x
  cases p with
  | head i => exact ⟨rfl, rfl, rfl, rfl, rfl, rfl⟩
  | link j =>
    show _ ∧ _
    rw [writeSlot]
    rw [getBuf_updBuf]
    split <;> simp_all

theorem disk_writeSlot (st : St) (p : Ptr) (v : Option Nat) :
    (writeSlot st p v).disk = st.disk := by
  cases p <;> rfl

theorem nreads_writeSlot (st : St) (p : Ptr) (v : Option Nat) :
    (writeSlot st p v).nreads = st.nreads := by
  cases p <;> rfl

/-- `brelse` on a held buffer with reference count 1, whose identity sits
    (uniquely, as entry `j` of chain decomposition `A ++ j :: B`) on its home
    shard's chain while shard `idx`'s LRU list is `L`: the release succeeds,
    removes exactly the buffer's chain entry, parks the buffer at the MRU end
    of the home LRU list with count 0, and touches no identity, validity,
    content, disk, or read-count state. -/
theorem brelse_spec (st : St) (j : Nat) (A B L : List Nat)
    (hwf : WfSt st) (hj : j < st.nbuf)
    (hheld : (getBuf st j).held = true)
    (href : (getBuf st j).refcnt = 1)
    (hseg : ChainSeg st (.head ((getBuf st j).blockno % NBUCKETS)) (A ++ j :: B))
    (hA : ∀ x ∈ A, ¬ isMatch st (getBuf st j).dev (getBuf st j).blockno x)
    (hnd : (A ++ j :: B).Nodup)
    (hrange : ∀ x ∈ A ++ j :: B, x < st.nbuf)
    (hlen : (A ++ j :: B).length ≤ st.nbuf)
    (hlru : IsLruList st ((getBuf st j).blockno % NBUCKETS) L)
    (hjL : j ∉ L) :
    ∃ st', brelse st j = some st' ∧
      st'.nbuf = st.nbuf ∧ WfSt st' ∧ st'.disk = st.disk ∧ st'.nreads = st.nreads ∧
      ChainSeg st' (.head ((getBuf st j).blockno % NBUCKETS)) (A ++ B) ∧
      (∀ x, (getBuf st' x).dev = (getBuf st x).dev ∧
        (getBuf st' x).blockno = (getBuf st x).blockno ∧
        (getBuf st' x).valid = (getBuf st x).valid ∧
        (getBuf st' x).data = (getBuf st x).data) ∧
      (getBuf st' j).refcnt = 0 ∧ (getBuf st' j).held = false ∧
      IsLruList st' ((getBuf st j).blockno % NBUCKETS) (L ++ [j]) := by
  have hNB : 0 < NBUCKETS := by norm_num [NBUCKETS]
  have hidxlt : (getBuf st j).blockno % NBUCKETS < NBUCKETS := Nat.mod_lt _ hNB
  set st1 := updBuf st j (fun b => { b with held := false }) with hst1
  set st2 := updBuf st1 j (fun b => { b with refcnt := b.refcnt - 1 }) with hst2
  have hn1 : st1.nbuf = st.nbuf := nbuf_updBuf _ _ _
  have hn2 : st2.nbuf = st.nbuf := by rw [hst2, nbuf_updBuf, hn1]
  have hj1 : j < st1.nbuf := by rw [hn1]; exact hj
  have hg1 : getBuf st1 j = { getBuf st j with held := false } :=
    getBuf_updBuf_self st j _ hj
  have hg1x : ∀ x, x ≠ j → getBuf st1 x = getBuf st x :=
    fun x hx => getBuf_updBuf_ne st x j _ (Ne.symm hx)
  have hg2 : getBuf st2 j =
      { getBuf st j with held := false, refcnt := (getBuf st j).refcnt - 1 } := by
    rw [hst2, getBuf_updBuf_self st1 j _ hj1, hg1]
  have hg2x : ∀ x, x ≠ j → getBuf st2 x = getBuf st x := fun x hx => by
    rw [hst2, getBuf_updBuf_ne st1 x j _ (Ne.symm hx), hg1x x hx]
  have h2ref : (getBuf st2 j).refcnt = 0 := by rw [hg2]; simp [href]
  have hbno1 : (getBuf st1 j).blockno = (getBuf st j).blockno := by rw [hg1]
  have hb : brelse st j = some (btable_remove (lru_add st2 j
      (sentinel st2 ((getBuf st1 j).blockno % NBUCKETS))) j) := by
    simp only [brelse, hheld]
    rw [← hst1, ← hst2, if_pos h2ref]
    simp
  rw [hbno1] at hb
  set st3 := lru_add st2 j (sentinel st2 ((getBuf st j).blockno % NBUCKETS)) with hst3
  set st4 := btable_remove st3 j with hst4
  have hreads2 : ∀ p, readSlot st2 p = readSlot st p := fun p => by
    rw [hst2, readSlot_updBuf st1 j (fun b => { b with refcnt := b.refcnt - 1 }) p (fun b => rfl),
      hst1, readSlot_updBuf st j (fun b => { b with held := false }) p (fun b => rfl)]
  have hgetN2 : ∀ m, getN st2 m = getN st m := fun m => by
    rw [hst2, getN_updBuf st1 j (fun b => { b with refcnt := b.refcnt - 1 }) m (fun b => rfl),
      hst1, getN_updBuf st j (fun b => { b with held := false }) m (fun b => rfl)]
  have hgetP2 : ∀ m, getP st2 m = getP st m := fun m => by
    rw [hst2, getP_updBuf st1 j (fun b => { b with refcnt := b.refcnt - 1 }) m (fun b => rfl),
      hst1, getP_updBuf st j (fun b => { b with held := false }) m (fun b => rfl)]
  have hwf2 : WfSt st2 := by rw [hst2, hst1]; exact hwf
  have hlru2 : IsLruList st2 ((getBuf st j).blockno % NBUCKETS) L :=
    isLruList_congr st st2 hn2 hgetN2 hgetP2 _ L hlru
  have hj2 : j < st2.nbuf := by rw [hn2]; exact hj
  have hlru3 : IsLruList st3 ((getBuf st j).blockno % NBUCKETS) (L ++ [j]) := by
    rw [hst3]
    exact lru_add_lruList st2 j _ L hwf2 hidxlt hj2 hjL hlru2
  have hreads3 : ∀ p, readSlot st3 p = readSlot st p := fun p => by
    rw [hst3, readSlot_lru_add, hreads2 p]
  have hn3 : st3.nbuf = st.nbuf := by rw [hst3, nbuf_lru_add, hn2]
  have hwf3 : WfSt st3 := by rw [hst3]; exact wf_lru_add _ _ _ hwf2
  have hf23 : EqFields st2 st3 := by rw [hst3]; exact eqFields_lru_add st2 j _
  have hfield3 : ∀ x, (getBuf st3 x).dev = (getBuf st x).dev ∧
      (getBuf st3 x).blockno = (getBuf st x).blockno ∧
      (getBuf st3 x).valid = (getBuf st x).valid ∧
      (getBuf st3 x).data = (getBuf st x).data := by
    intro x
    obtain ⟨e1, e2, e3, _, _, e6⟩ := hf23 x
    by_cases hx : x = j
    · subst hx
      rw [e1, e2, e3, e6, hg2]
      exact ⟨rfl, rfl, rfl, rfl⟩
    · rw [e1, e2, e3, e6, hg2x x hx]
      exact ⟨rfl, rfl, rfl, rfl⟩
  have hdev3 : (getBuf st3 j).dev = (getBuf st j).dev := (hfield3 j).1
  have hbno3 : (getBuf st3 j).blockno = (getBuf st j).blockno := (hfield3 j).2.1
  have href3 : (getBuf st3 j).refcnt = 0 := by
    rw [(hf23 j).2.2.2.1, h2ref]
  have hheld3 : (getBuf st3 j).held = false := by
    rw [(hf23 j).2.2.2.2.1, hg2]
  have hseg3 : ChainSeg st3 (.head ((getBuf st j).blockno % NBUCKETS)) (A ++ j :: B) :=
    chainSeg_congr st st3 hreads3 _ _ hseg
  have hmatch3 : ∀ x, isMatch st3 (getBuf st j).dev (getBuf st j).blockno x ↔
      isMatch st (getBuf st j).dev (getBuf st j).blockno x :=
    isMatch_congr st st3 (fun x => ⟨(hfield3 x).2.1, (hfield3 x).1⟩) _ _
  have hA3 : ∀ x ∈ A, ¬ isMatch st3 (getBuf st j).dev (getBuf st j).blockno x :=
    fun x hx hm => hA x hx ((hmatch3 x).mp hm)
  have hjm3 : isMatch st3 (getBuf st j).dev (getBuf st j).blockno j :=
    (hmatch3 j).mpr ⟨rfl, rfl⟩
  have hrange3 : ∀ x ∈ A ++ j :: B, x < st3.nbuf := by
    intro x hx; rw [hn3]; exact hrange x hx
  have hAlen : A.length ≤ st3.nbuf := by
    rw [hn3]
    have : A.length ≤ (A ++ j :: B).length := by simp
    omega
  obtain ⟨hfp, hfind⟩ := find_ptr_found st3 (getBuf st j).dev (getBuf st j).blockno A j B
    hseg3 hA3 hjm3 hAlen
  have hread : readSlot st3 (slotAfter (.head ((getBuf st j).blockno % NBUCKETS)) A) = some j := by
    rw [← hfp]
    exact hfind
  have hremove : st4 = writeSlot st3
      (slotAfter (.head ((getBuf st j).blockno % NBUCKETS)) A) ((getBuf st3 j).next_hash) := by
    rw [hst4]
    simp only [btable_remove]
    rw [hdev3, hbno3, hfp, hread]
  have hnd3 : (A ++ j :: B).Nodup := hnd
  have hseg4 : ChainSeg st4 (.head ((getBuf st j).blockno % NBUCKETS)) (A ++ B) := by
    rw [hremove]
    exact chainSeg_remove st3 _ _ j B hjm3 hwf3 A _ hseg3 hnd3 hrange3 hidxlt
      (fun y hy => Ptr.noConfusion hy)
  have hn4 : st4.nbuf = st.nbuf := by rw [hremove, nbuf_writeSlot, hn3]
  have hwf4 : WfSt st4 := by rw [hremove]; exact wf_writeSlot _ _ _ hwf3
  have hf34 : EqFields st3 st4 := by rw [hremove]; exact eqFields_writeSlot st3 _ _
  have hlru4 : IsLruList st4 ((getBuf st j).blockno % NBUCKETS) (L ++ [j]) := by
    refine isLruList_congr st3 st4 ?_ ?_ ?_ _ _ hlru3
    · rw [hremove, nbuf_writeSlot]
    · intro m; rw [hremove, getN_writeSlot]
    · intro m; rw [hremove, getP_writeSlot]
  have hdisk4 : st4.disk = st.disk := by
    rw [hremove, disk_writeSlot, hst3, disk_lru_add, hst2, hst1]
    rfl
  have hnreads4 : st4.nreads = st.nreads := by
    rw [hremove, nreads_writeSlot, hst3, nreads_lru_add, hst2, hst1]
    rfl
  refine ⟨st4, hb, hn4, hwf4, hdisk4, hnreads4, hseg4, ?_, ?_, ?_, hlru4⟩
  · intro x
    obtain ⟨e1, e2, e3, _, _, e6⟩ := hf34 x
    obtain ⟨f1, f2, f3, f4⟩ := hfield3 x
    exact ⟨e1.trans f1, e2.trans f2, e3.trans f3, e6.trans f4⟩
  · rw [(hf34 j).2.2.2.1, href3]
  · rw [(hf34 j).2.2.2.2.1, hheld3]


/-- `bget` when the lookup misses and the home shard's LRU front is `v`:
    the local-victim path fires, returning `v` locked, invalidated, and
    reassigned to the requested identity, with no device interaction. -/
theorem bget_local_spec (st : St) (dv bno v : Nat) (L : List Nat)
    (hfind : btable_find st dv bno = none)
    (hlru : IsLruList st (bno % NBUCKETS) (v :: L)) :
    ∃ st', bget st dv bno = some (st', v, .localVictim) ∧
      (getBuf st' v).valid = false ∧ (getBuf st' v).dev = dv ∧
      (getBuf st' v).blockno = bno ∧ (getBuf st' v).refcnt = 1 ∧
      (getBuf st' v).held = true ∧
      st'.disk = st.disk ∧ st'.nreads = st.nreads ∧ st'.nbuf = st.nbuf := by
  have hv : v < st.nbuf := hlru.2.2.1 v (List.mem_cons_self _ _)
  have hfront : getN st (sentinel st (bno % NBUCKETS)) = sentinel st (bno % NBUCKETS) → False := by
    intro hE
    have h1 : getN st (sentinel st (bno % NBUCKETS)) = v := hlru.1.1
    rw [h1] at hE
    simp only [sentinel] at hE
    omega
  set st1 := updBuf st v (fun x => { x with refcnt := 1, blockno := bno, dev := dv, valid := false })
    with hst1
  set st2 := btable_insert st1 v with hst2
  set st3 := lru_remove st2 v with hst3
  set st4 := updBuf st3 v (fun x => { x with held := true }) with hst4
  have hfront' : getN st (sentinel st (bno % NBUCKETS)) = v := hlru.1.1
  have hb : bget st dv bno = some (st4, v, .localVictim) := by
    simp only [bget, hfind]
    rw [if_neg hfront, hfront', ← hst1, ← hst2, ← hst3, ← hst4]
  have hn1 : st1.nbuf = st.nbuf := nbuf_updBuf _ _ _
  have hv1 : v < st1.nbuf := by rw [hn1]; exact hv
  have hg1 : getBuf st1 v =
      { getBuf st v with refcnt := 1, blockno := bno, dev := dv, valid := false } :=
    getBuf_updBuf_self st v _ hv
  have hins : st2 = writeSlot (writeSlot st1
      (find_ptr st1 (getBuf st1 v).dev (getBuf st1 v).blockno) (some v)) (.link v) none := by
    rw [hst2]
    rfl
  have hf12 : EqFields st1 st2 := by
    rw [hins]
    exact eqFields_trans (eqFields_writeSlot st1 _ _) (eqFields_writeSlot _ _ _)
  have hf13 : EqFields st1 st3 := by
    rw [hst3]
    exact eqFields_trans hf12 (eqFields_lru_remove st2 v)
  have hn3 : st3.nbuf = st.nbuf := by
    rw [hst3, nbuf_lru_remove, hins, nbuf_writeSlot, nbuf_writeSlot, hn1]
  have hv3 : v < st3.nbuf := by rw [hn3]; exact hv
  have hg4 : getBuf st4 v = { getBuf st3 v with held := true } :=
    getBuf_updBuf_self st3 v _ hv3
  have hdisk : st4.disk = st.disk := by
    have e4 : st4.disk = st3.disk := rfl
    rw [e4, hst3, disk_lru_remove, hins, disk_writeSlot, disk_writeSlot, hst1]
    rfl
  have hnreads : st4.nreads = st.nreads := by
    have e4 : st4.nreads = st3.nreads := rfl
    rw [e4, hst3, nreads_lru_remove, hins, nreads_writeSlot, nreads_writeSlot, hst1]
    rfl
  obtain ⟨e1, e2, e3, e4, _, _⟩ := hf13 v
  have hn4 : st4.nbuf = st.nbuf := by rw [hst4, nbuf_updBuf, hn3]
  refine ⟨st4, hb, ?_, ?_, ?_, ?_, ?_, hdisk, hnreads, hn4⟩
  · rw [hg4]
    show (getBuf st3 v).valid = false
    rw [e3, hg1]
  · rw [hg4]
    show (getBuf st3 v).dev = dv
    rw [e1, hg1]
  · rw [hg4]
    show (getBuf st3 v).blockno = bno
    rw [e2, hg1]
  · rw [hg4]
    show (getBuf st3 v).refcnt = 1
    rw [e4, hg1]
  · rw [hg4]

/-- `bget` on a chain hit. -/
theorem bget_hit_spec (st : St) (dv bno j : Nat)
    (hfind : btable_find st dv bno = some j) :
    bget st dv bno =
      some (updBuf st j (fun x => { x with refcnt := x.refcnt + 1, held := true }), j, .hit) := by
  simp only [bget, hfind]

/-- `bread` after a `bget` that returned an invalid buffer: one device read. -/
theorem bread_fill (st : St) (dv bno : Nat) (st' : St) (v : Nat) (path : GetPath)
    (h : bget st dv bno = some (st', v, path)) (hv : (getBuf st' v).valid = false)
    (hvn : v < st'.nbuf) :
    ∃ st'', bread st dv bno = some (st'', v, path, true) ∧
      st''.nreads = st'.nreads + 1 ∧
      (getBuf st'' v).data = diskRead st' (getBuf st' v).dev (getBuf st' v).blockno ∧
      (getBuf st'' v).dev = (getBuf st' v).dev ∧
      (getBuf st'' v).blockno = (getBuf st' v).blockno := by
  have hg : getBuf (updBuf st' v
      (fun x => { x with data := diskRead st' x.dev x.blockno, valid := true })) v =
      { getBuf st' v with
        data := diskRead st' (getBuf st' v).dev (getBuf st' v).blockno
        valid := true } := getBuf_updBuf_self st' v _ hvn
  set stF := updBuf st' v
    (fun x => { x with data := diskRead st' x.dev x.blockno, valid := true }) with hstF
  refine ⟨{ stF with nreads := stF.nreads + 1 }, ?_, rfl, ?_, ?_, ?_⟩
  · simp only [bread, h]
    rw [if_pos hv, ← hstF]
  · show (getBuf stF v).data = _
    rw [hstF, hg]
  · show (getBuf stF v).dev = _
    rw [hstF, hg]
  · show (getBuf stF v).blockno = _
    rw [hstF, hg]

/-- `bread` after a `bget` that returned a valid buffer: no device read. -/
theorem bread_hit (st : St) (dv bno : Nat) (st' : St) (v : Nat) (path : GetPath)
    (h : bget st dv bno = some (st', v, path)) (hv : (getBuf st' v).valid = true) :
    bread st dv bno = some (st', v, path, false) := by
  simp only [bread, h]
  rw [if_neg (by rw [hv]; simp)]

/-- The steal loop finds nothing when the lookup misses and every shard's LRU
    is empty. -/
theorem bgetSteal_none (st : St) (dv bno idx : Nat)
    (hfind : btable_find st dv bno = none)
    (hlrus : ∀ i, i < NBUCKETS → getN st (sentinel st i) = sentinel st i) :
    ∀ fuel i, bgetSteal dv bno idx fuel i st = none := by
  intro fuel
  induction fuel with
  | zero => intro i; rfl
  | succ f ih =>
    intro i
    rw [bgetSteal]
    by_cases h13 : NBUCKETS ≤ i
    · rw [if_pos h13]
    · rw [if_neg h13]
      by_cases hii : i = idx
      · rw [if_pos hii]
        exact ih (i + 1)
      · rw [if_neg hii]
        simp only [hfind]
        rw [if_pos (hlrus i (by omega))]
        exact ih (i + 1)

theorem diskRead_cons_self (st : St) (dv bno v : Nat) (d : List ((Nat × Nat) × Nat)) :
    diskRead { st with disk := ((dv, bno), v) :: d } dv bno = v := by
  simp [diskRead]

theorem diskRead_head (st : St) (dv bno v : Nat) (d : List ((Nat × Nat) × Nat))
    (h : st.disk = ((dv, bno), v) :: d) : diskRead st dv bno = v := by
  unfold diskRead
  rw [h]
  simp

theorem getN_setDisk (st : St) (d : List ((Nat × Nat) × Nat)) (m : Nat) :
    getN { st with disk := d } m = getN st m := rfl

theorem getP_setDisk (st : St) (d : List ((Nat × Nat) × Nat)) (m : Nat) :
    getP { st with disk := d } m = getP st m := rfl

theorem readSlot_setDisk (st : St) (d : List ((Nat × Nat) × Nat)) (p : Ptr) :
    readSlot { st with disk := d } p = readSlot st p := by
  cases p <;> rfl

theorem getBuf_setDisk (st : St) (d : List ((Nat × Nat) × Nat)) (x : Nat) :
    getBuf { st with disk := d } x = getBuf st x := rfl

theorem nbuf_setDisk (st : St) (d : List ((Nat × Nat) × Nat)) :
    ({ st with disk := d } : St).nbuf = st.nbuf := rfl

theorem nreads_setDisk (st : St) (d : List ((Nat × Nat) × Nat)) :
    ({ st with disk := d } : St).nreads = st.nreads := rfl


/-! Determinism and congruence of the computed walks. -/

theorem chainSeg_det (st : St) :
    ∀ (A B : List Nat) (p : Ptr), ChainSeg st p A → ChainSeg st p B → A = B := by
  intro A
  induction A with
  | nil =>
    intro B p hA hB
    cases B with
    | nil => rfl
    | cons b B =>
      rw [ChainSeg] at hA
      obtain ⟨h1, _⟩ := hB
      rw [hA] at h1
      exact Option.noConfusion h1
  | cons a A ih =>
    intro B p hA hB
    cases B with
    | nil =>
      rw [ChainSeg] at hB
      obtain ⟨h1, _⟩ := hA
      rw [hB] at h1
      exact Option.noConfusion h1
    | cons b B =>
      have h1 : a = b := by
        have h2 := hA.1
        rw [hB.1] at h2
        exact (Option.some.inj h2).symm
      subst h1
      rw [ih B (.link a) hA.2 hB.2]

theorem nodup_bounded_length (L : List Nat) (n : Nat) (hnd : L.Nodup)
    (hb : ∀ x ∈ L, x < n) : L.length ≤ n := by
  have hsub : L ⊆ List.range n := fun x hx => List.mem_range.mpr (hb x hx)
  have := (hnd.subperm hsub).length_le
  simpa using this

theorem chainWalkAux_eq (st : St) :
    ∀ (W : List Nat) (fuel : Nat) (p : Ptr), ChainSeg st p W → W.length ≤ fuel →
      chainWalkAux st fuel (readSlot st p) = W := by
  intro W
  induction W with
  | nil =>
    intro fuel p h _
    rw [ChainSeg] at h
    rw [h]
    cases fuel <;> rfl
  | cons x l ih =>
    intro fuel p h hlen
    obtain ⟨f, rfl⟩ : ∃ f, fuel = f + 1 := ⟨fuel - 1, by simp at hlen; omega⟩
    rw [h.1]
    show x :: chainWalkAux st f (getBuf st x).next_hash = x :: l
    have h2 : chainWalkAux st f (readSlot st (.link x)) = l :=
      ih f (.link x) h.2 (by simp at hlen; omega)
    rw [show (getBuf st x).next_hash = readSlot st (.link x) from rfl, h2]

theorem chainWalk_eq (st : St) (k : Nat) (W : List Nat)
    (h : ChainSeg st (.head k) W) (hlen : W.length ≤ st.nbuf) : chainWalk st k = W := by
  unfold chainWalk
  rw [show st.elems.getD k none = readSlot st (.head k) from rfl]
  exact chainWalkAux_eq st W (st.nbuf + 1) (.head k) h (by omega)

theorem lruWalkAux_eq (st : St) (i : Nat) :
    ∀ (L : List Nat) (fuel : Nat) (a : Nat), FChain (getN st) a L (sentinel st i) →
      (∀ x ∈ L, x < st.nbuf) → L.length ≤ fuel →
      lruWalkAux st i fuel (getN st a) = L := by
  intro L
  induction L with
  | nil =>
    intro fuel a h _ _
    rw [show FChain (getN st) a [] (sentinel st i) = (getN st a = sentinel st i) from rfl] at h
    rw [h]
    cases fuel with
    | zero => rfl
    | succ f => simp [lruWalkAux]
  | cons x l ih =>
    intro fuel a h hb hlen
    obtain ⟨f, rfl⟩ : ∃ f, fuel = f + 1 := ⟨fuel - 1, by simp at hlen; omega⟩
    rw [h.1]
    have hxs : x ≠ sentinel st i := by
      have := hb x (by simp)
      simp only [sentinel]
      omega
    show (if x = sentinel st i then [] else x :: lruWalkAux st i f (getN st x)) = x :: l
    rw [if_neg hxs, ih f x h.2 (fun y hy => hb y (by simp [hy])) (by simp at hlen; omega)]

theorem lruWalk_eq (st : St) (i : Nat) (L : List Nat) (h : IsLruList st i L) :
    lruWalk st i = L := by
  obtain ⟨hN, _, hb, hnd⟩ := h
  unfold lruWalk
  exact lruWalkAux_eq st i L (st.nbuf + 1) (sentinel st i) hN hb
    (by have := nodup_bounded_length L st.nbuf hnd hb; omega)

theorem lruWalkAux_congr (st st' : St) (i : Nat) (hn : st'.nbuf = st.nbuf)
    (hN : ∀ m, getN st' m = getN st m) :
    ∀ fuel a, lruWalkAux st' i fuel a = lruWalkAux st i fuel a := by
  have hs : sentinel st' i = sentinel st i := by simp [sentinel, hn]
  intro fuel
  induction fuel with
  | zero => intro a; rfl
  | succ f ih =>
    intro a
    show (if a = sentinel st' i then [] else a :: lruWalkAux st' i f (getN st' a)) =
      (if a = sentinel st i then [] else a :: lruWalkAux st i f (getN st a))
    rw [hs, hN]
    split
    · rfl
    · rw [ih]

theorem lruWalk_congr (st st' : St) (i : Nat) (hn : st'.nbuf = st.nbuf)
    (hN : ∀ m, getN st' m = getN st m) : lruWalk st' i = lruWalk st i := by
  unfold lruWalk
  have hs : sentinel st' i = sentinel st i := by simp [sentinel, hn]
  rw [hn, hs, hN, lruWalkAux_congr st st' i hn hN]

theorem chainWalkAux_congr (st st' : St)
    (hr : ∀ j, (getBuf st' j).next_hash = (getBuf st j).next_hash) :
    ∀ fuel o, chainWalkAux st' fuel o = chainWalkAux st fuel o := by
  intro fuel
  induction fuel with
  | zero => intro o; rfl
  | succ f ih =>
    intro o
    cases o with
    | none => rfl
    | some j =>
      show j :: chainWalkAux st' f (getBuf st' j).next_hash =
        j :: chainWalkAux st f (getBuf st j).next_hash
      rw [hr, ih]

theorem chainWalk_congr (st st' : St) (k : Nat) (hn : st'.nbuf = st.nbuf)
    (hr : ∀ p, readSlot st' p = readSlot st p) : chainWalk st' k = chainWalk st k := by
  unfold chainWalk
  rw [hn, show st'.elems.getD k none = readSlot st' (.head k) from rfl,
    show st.elems.getD k none = readSlot st (.head k) from rfl, hr]
  exact chainWalkAux_congr st st' (fun j => hr (.link j)) _ _

/-! The first-match decomposition and `find_ptr` characterizations. -/

theorem first_match_decomp (P : Nat → Prop) [DecidablePred P] :
    ∀ (W : List Nat), (∃ x ∈ W, P x) →
      ∃ A r B, W = A ++ r :: B ∧ (∀ x ∈ A, ¬ P x) ∧ P r := by
  intro W
  induction W with
  | nil =>
    intro h
    obtain ⟨x, hx, _⟩ := h
    cases hx
  | cons w W ih =>
    intro h
    by_cases hw : P w
    · exact ⟨[], w, W, rfl, by simp, hw⟩
    · obtain ⟨x, hx, hP⟩ := h
      have hxW : x ∈ W := by
        rcases List.mem_cons.mp hx with rfl | h2
        · exact absurd hP hw
        · exact h2
      obtain ⟨A, r, B, hWeq, hA, hr⟩ := ih ⟨x, hxW, hP⟩
      refine ⟨w :: A, r, B, by rw [List.cons_append, hWeq], ?_, hr⟩
      intro y hy
      rcases List.mem_cons.mp hy with rfl | h2
      · exact hw
      · exact hA y h2

theorem find_ptr_no_match (st : St) (dv bno : Nat) (W : List Nat)
    (hseg : ChainSeg st (.head (bno % NBUCKETS)) W)
    (hW : ∀ x ∈ W, ¬ isMatch st dv bno x) (hlen : W.length ≤ st.nbuf) :
    find_ptr st dv bno = slotAfter (.head (bno % NBUCKETS)) W ∧
      readSlot st (slotAfter (.head (bno % NBUCKETS)) W) = none := by
  obtain ⟨hlinks, hrest⟩ := (chainSeg_append st W _ []).mp (by simpa using hseg)
  have hread : readSlot st (slotAfter (.head (bno % NBUCKETS)) W) = none := hrest
  refine ⟨?_, hread⟩
  unfold find_ptr
  rw [findPtrAux_skip st dv bno W _ _ hlinks hW (by omega)]
  obtain ⟨r, hr⟩ : ∃ r, st.nbuf + 1 - W.length = r + 1 := ⟨st.nbuf - W.length, by omega⟩
  rw [hr]
  exact findPtrAux_stop st dv bno r _ (fun k hk => by rw [hread] at hk; cases hk)

theorem btable_find_char (st : St) (dv bno : Nat) (W : List Nat)
    (hseg : ChainSeg st (.head (bno % NBUCKETS)) W) (hlen : W.length ≤ st.nbuf) (b : Nat)
    (h : btable_find st dv bno = some b) : b ∈ W ∧ isMatch st dv bno b := by
  by_cases hm : ∃ x ∈ W, isMatch st dv bno x
  · obtain ⟨A, r, B, hWE, hA, hr⟩ := first_match_decomp (isMatch st dv bno) W hm
    have hfound := (find_ptr_found st dv bno A r B (by rw [← hWE]; exact hseg) hA hr
      (by rw [hWE] at hlen; simp only [List.length_append, List.length_cons] at hlen; omega)).2
    rw [h] at hfound
    obtain rfl : b = r := Option.some.inj hfound
    exact ⟨by rw [hWE]; exact List.mem_append.mpr (Or.inr (by simp)), hr⟩
  · push_neg at hm
    have := btable_find_none_of st dv bno W hseg hm hlen
    rw [h] at this
    cases this

theorem slotAfter_link_cases (y : Nat) :
    ∀ (A : List Nat) (p : Ptr), slotAfter p A = .link y → p = .link y ∨ y ∈ A := by
  intro A
  induction A with
  | nil => intro p h; exact Or.inl h
  | cons a A ih =>
    intro p h
    rcases ih (.link a) h with h2 | h2
    · have : a = y := by injection h2
      exact Or.inr (by simp [this])
    · exact Or.inr (by simp [h2])

theorem slotAfter_ok (st : St) (k : Nat) (hk : k < NBUCKETS) (A : List Nat)
    (hA : ∀ x ∈ A, x < st.nbuf) : PtrOk st (slotAfter (.head k) A) := by
  cases hE : slotAfter (.head k) A with
  | head i =>
    have : ∀ (A : List Nat) (p : Ptr) (i : Nat), slotAfter p A = .head i → p = .head i := by
      intro A
      induction A with
      | nil => intro p i h; exact h
      | cons a A ih => intro p i h; exact absurd (ih (.link a) i h) (by simp)
    have h2 := this A (.head k) i hE
    have h3 : i = k := by injection h2 with h3; exact h3.symm
    subst h3
    exact hk
  | link y =>
    rcases slotAfter_link_cases y A (.head k) hE with h2 | h2
    · cases h2
    · exact hA y h2

theorem find_ptr_ne_link (st : St) (dv bno j : Nat) (W : List Nat)
    (hseg : ChainSeg st (.head (bno % NBUCKETS)) W) (hlen : W.length ≤ st.nbuf)
    (hjm : isMatch st dv bno j) :
    find_ptr st dv bno ≠ .link j := by
  intro hE
  by_cases hm : ∃ x ∈ W, isMatch st dv bno x
  · obtain ⟨A, r, B, hWE, hA, hr⟩ := first_match_decomp (isMatch st dv bno) W hm
    have hfp := (find_ptr_found st dv bno A r B (by rw [← hWE]; exact hseg) hA hr
      (by rw [hWE] at hlen; simp only [List.length_append, List.length_cons] at hlen; omega)).1
    rw [hE] at hfp
    rcases slotAfter_link_cases j A _ hfp.symm with h2 | h2
    · cases h2
    · exact hA j h2 hjm
  · push_neg at hm
    have hfp := (find_ptr_no_match st dv bno W hseg hm hlen).1
    rw [hE] at hfp
    rcases slotAfter_link_cases j W _ hfp.symm with h2 | h2
    · cases h2
    · exact hm j h2 hjm

theorem find_ptr_ok (st : St) (dv bno : Nat) (W : List Nat)
    (hseg : ChainSeg st (.head (bno % NBUCKETS)) W) (hlen : W.length ≤ st.nbuf)
    (hbd : ∀ x ∈ W, x < st.nbuf) :
    PtrOk st (find_ptr st dv bno) := by
  have hk : bno % NBUCKETS < NBUCKETS := Nat.mod_lt _ (by norm_num [NBUCKETS])
  by_cases hm : ∃ x ∈ W, isMatch st dv bno x
  · obtain ⟨A, r, B, hWE, hA, hr⟩ := first_match_decomp (isMatch st dv bno) W hm
    have hfp := (find_ptr_found st dv bno A r B (by rw [← hWE]; exact hseg) hA hr
      (by rw [hWE] at hlen; simp only [List.length_append, List.length_cons] at hlen; omega)).1
    rw [hfp]
    exact slotAfter_ok st _ hk A (fun x hx => hbd x (by rw [hWE]; exact List.mem_append.mpr (Or.inl hx)))
  · push_neg at hm
    have hfp := (find_ptr_no_match st dv bno W hseg hm hlen).1
    rw [hfp]
    exact slotAfter_ok st _ hk W hbd


/-! Chain surgery: the effect of `btable_insert` and `btable_remove` on every
    shard's chain. -/

theorem insWalk_subset (p : Ptr) (j : Nat) :
    ∀ (W : List Nat) (q : Ptr) (x : Nat), x ∈ insWalk p j q W → x ∈ W ∨ x = j := by
  intro W
  induction W with
  | nil =>
    intro q x hx
    rw [insWalk] at hx
    split at hx
    · exact Or.inr (by simpa using hx)
    · cases hx
  | cons w l ih =>
    intro q x hx
    rw [insWalk] at hx
    split at hx
    · exact Or.inr (by simpa using hx)
    · split at hx
      · exact Or.inr (by simpa using hx)
      · rcases List.mem_cons.mp hx with rfl | h2
        · exact Or.inl (by simp)
        · rcases ih (.link w) x h2 with h3 | h3
          · exact Or.inl (by simp [h3])
          · exact Or.inr h3

theorem insWalk_nodup (p : Ptr) (j : Nat) :
    ∀ (W : List Nat) (q : Ptr), W.Nodup → (insWalk p j q W).Nodup := by
  intro W
  induction W with
  | nil =>
    intro q _
    rw [insWalk]
    split
    · simp
    · simp
  | cons w l ih =>
    intro q hnd
    rw [insWalk]
    split
    · simp
    · split
      · simp
      · rename_i hwj
        refine List.nodup_cons.mpr ⟨?_, ih (.link w) (List.nodup_cons.mp hnd).2⟩
        intro hmem
        rcases insWalk_subset p j l (.link w) w hmem with h2 | h2
        · exact (List.nodup_cons.mp hnd).1 h2
        · exact hwj h2

theorem insWalk_chainSeg (st : St) (p : Ptr) (j : Nat) (hwf : WfSt st) (hp : PtrOk st p)
    (hj : j < st.nbuf) (hpj : p ≠ .link j) :
    ∀ (W : List Nat) (q : Ptr), ChainSeg st q W → q ≠ .link j →
      ChainSeg (writeSlot (writeSlot st p (some j)) (.link j) none) q (insWalk p j q W) := by
  set T1 := writeSlot st p (some j) with hT1d
  have hT1 : ∀ r, readSlot T1 r = if r = p then some j else readSlot st r :=
    fun r => readSlot_writeSlot st p (some j) r hwf hp
  have wf1 : WfSt T1 := wf_writeSlot st p _ hwf
  have hjo1 : PtrOk T1 (.link j) := by
    show j < T1.nbuf
    rw [hT1d, nbuf_writeSlot]
    exact hj
  have hT2 : ∀ r, readSlot (writeSlot T1 (.link j) none) r =
      if r = .link j then none else readSlot T1 r :=
    fun r => readSlot_writeSlot T1 (.link j) none r wf1 hjo1
  intro W
  induction W with
  | nil =>
    intro q hq hqj
    rw [insWalk]
    split
    · rename_i hqp
      refine ⟨?_, ?_⟩
      · rw [hqp]
        rw [hT2, if_neg (fun hE => hpj hE), hT1, if_pos rfl]
      · show readSlot (writeSlot T1 (.link j) none) (.link j) = none
        rw [hT2, if_pos rfl]
    · rename_i hqp
      show readSlot (writeSlot T1 (.link j) none) q = none
      rw [hT2, if_neg hqj, hT1, if_neg hqp]
      exact hq
  | cons x l ih =>
    intro q hq hqj
    rw [insWalk]
    split
    · rename_i hqp
      refine ⟨?_, ?_⟩
      · rw [hqp]
        rw [hT2, if_neg (fun hE => hpj hE), hT1, if_pos rfl]
      · show readSlot (writeSlot T1 (.link j) none) (.link j) = none
        rw [hT2, if_pos rfl]
    · rename_i hqp
      split
      · rename_i hxj
        refine ⟨?_, ?_⟩
        · rw [hT2, if_neg hqj, hT1, if_neg hqp, hq.1, hxj]
        · show readSlot (writeSlot T1 (.link j) none) (.link j) = none
          rw [hT2, if_pos rfl]
      · rename_i hxj
        refine ⟨?_, ?_⟩
        · rw [hT2, if_neg hqj, hT1, if_neg hqp]
          exact hq.1
        · exact ih (.link x) hq.2 (fun hE => hxj (by injection hE))

theorem btable_insert_eq (st : St) (j : Nat) :
    btable_insert st j =
      writeSlot (writeSlot st (find_ptr st (getBuf st j).dev (getBuf st j).blockno) (some j))
        (.link j) none := rfl

theorem chainSeg_excise (st : St) (p : Ptr) (r : Nat) (S : List Nat)
    (hwf : WfSt st) (hp : PtrOk st p)
    (hpr : readSlot st p = some r)
    (hS : ChainSeg st (.link r) S)
    (hpS : ∀ y, p = .link y → y ∉ S ∧ y ≠ r) :
    ∀ (W : List Nat) (q : Ptr), ChainSeg st q W →
      ∃ W', ChainSeg (writeSlot st p (readSlot st (.link r))) q W' ∧
        (W' = W ∨ ∃ X, W = X ++ r :: S ∧ W' = X ++ S) := by
  set v := readSlot st (.link r) with hv
  set st' := writeSlot st p v with hst'
  have hrw : ∀ u, readSlot st' u = if u = p then v else readSlot st u :=
    fun u => readSlot_writeSlot st p v u hwf hp
  have hS' : ChainSeg st' (.link r) S := by
    rw [hst']
    refine chainSeg_stable st p v hwf hp S (.link r) hS (fun hE => (hpS r hE).2 rfl) ?_
    intro x hx hE
    exact (hpS x hE).1 hx
  intro W
  induction W with
  | nil =>
    intro q hq
    refine ⟨[], ?_, Or.inl rfl⟩
    have hqp : q ≠ p := by
      intro hE
      rw [ChainSeg] at hq
      rw [hE, hpr] at hq
      exact Option.noConfusion hq
    show readSlot st' q = none
    rw [hrw, if_neg hqp]
    exact hq
  | cons x l ih =>
    intro q hq
    by_cases hqp : q = p
    · have h1 := hq.1
      rw [hqp, hpr] at h1
      have hxr : x = r := (Option.some.inj h1).symm
      have hls : l = S := by
        have h2 := hq.2
        rw [hxr] at h2
        exact chainSeg_det st l S (.link r) h2 hS
      refine ⟨S, ?_, Or.inr ⟨[], by rw [hxr, hls]; rfl, rfl⟩⟩
      rw [hqp]
      cases hSc : S with
      | nil =>
        show readSlot st' p = none
        rw [hrw, if_pos rfl, hv]
        rw [hSc] at hS
        exact hS
      | cons s t =>
        refine ⟨?_, ?_⟩
        · show readSlot st' p = some s
          rw [hrw, if_pos rfl, hv]
          rw [hSc] at hS
          exact hS.1
        · rw [hSc] at hS'
          exact hS'.2
    · obtain ⟨W', hW', hshape⟩ := ih (.link x) hq.2
      refine ⟨x :: W', ⟨?_, hW'⟩, ?_⟩
      · show readSlot st' q = some x
        rw [hrw, if_neg hqp]
        exact hq.1
      · rcases hshape with h2 | ⟨X, hXeq, hXw⟩
        · exact Or.inl (by rw [h2])
        · refine Or.inr ⟨x :: X, ?_, ?_⟩
          · rw [List.cons_append, hXeq]
          · rw [List.cons_append, hXw]

theorem btable_remove_eq_none (st : St) (j : Nat)
    (h : readSlot st (find_ptr st (getBuf st j).dev (getBuf st j).blockno) = none) :
    btable_remove st j = st := by
  simp only [btable_remove, h]

theorem btable_remove_eq_some (st : St) (j r : Nat)
    (h : readSlot st (find_ptr st (getBuf st j).dev (getBuf st j).blockno) = some r) :
    btable_remove st j =
      writeSlot st (find_ptr st (getBuf st j).dev (getBuf st j).blockno)
        (readSlot st (.link r)) := by
  simp only [btable_remove, h]
  rfl


/-! LRU-list stability for untouched shards. -/

theorem isLruList_untouched (st st' : St) (i' : Nat) (hn : st'.nbuf = st.nbuf)
    (L : List Nat) (hlru : IsLruList st i' L)
    (hN : ∀ m, m = sentinel st i' ∨ m ∈ L → getN st' m = getN st m)
    (hP : ∀ m, m = sentinel st i' ∨ m ∈ L → getP st' m = getP st m) :
    IsLruList st' i' L := by
  obtain ⟨h1, h2, h3, h4⟩ := hlru
  have hs : sentinel st' i' = sentinel st i' := by simp [sentinel, hn]
  refine ⟨?_, ?_, ?_, h4⟩
  · rw [hs]
    exact fchain_congr _ _ _ _ _ h1 hN
  · rw [hs]
    refine fchain_congr _ _ _ _ _ h2 ?_
    intro x hx
    refine hP x ?_
    rcases hx with h | h
    · exact Or.inl h
    · exact Or.inr (by simpa using h)
  · intro x hx
    rw [hn]
    exact h3 x hx

theorem lru_add_isLruList_other (st : St) (b i i' : Nat) (L Li' : List Nat)
    (hwf : WfSt st) (hi : i < NBUCKETS) (hi' : i' < NBUCKETS) (hne : i' ≠ i)
    (hb : b < st.nbuf) (hbL : b ∉ L)
    (hLi : IsLruList st i L) (hLi' : IsLruList st i' Li')
    (hdisj : ∀ x ∈ L, x ∉ Li') (hbL' : b ∉ Li') :
    IsLruList (lru_add st b (sentinel st i)) i' Li' := by
  have hmemL := hLi.2.2.1
  have holchar : getP st (sentinel st i) = L.getLastD (sentinel st i) := by
    have := fchain_first _ _ _ _ hLi.2.1
    rwa [headD_reverse] at this
  have holmem : getP st (sentinel st i) ∈ sentinel st i :: L := by
    rw [holchar]
    cases hL : L with
    | nil => simp
    | cons a l =>
      have : (a :: l).getLastD (sentinel st i) ∈ a :: l := by
        rw [List.getLastD_eq_getLast?, List.getLast?_eq_getLast (a :: l) (by simp)]
        simp [List.getLast_mem]
      rw [← hL] at this ⊢
      exact List.mem_cons.mpr (Or.inr this)
  have hol : getP st (sentinel st i) < st.nbuf + NBUCKETS := by
    rcases List.mem_cons.mp holmem with h | h
    · rw [h]
      simp only [sentinel]
      omega
    · have := hmemL _ h
      omega
  have holb : getP st (sentinel st i) ≠ b := by
    rcases List.mem_cons.mp holmem with h | h
    · rw [h]
      have := hb
      simp only [sentinel]
      omega
    · intro hE
      rw [hE] at h
      exact hbL h
  have hview := lru_add_view st b (sentinel st i) hwf hb
    (by simp only [sentinel]; omega) hol (by simp only [sentinel]; omega) holb
  have hLimem := hLi'.2.2.1
  have hside : ∀ m, m = sentinel st i' ∨ m ∈ Li' →
      m ≠ getP st (sentinel st i) ∧ m ≠ b ∧ m ≠ sentinel st i := by
    intro m hm
    rcases hm with hm | hm
    · subst hm
      refine ⟨?_, ?_, ?_⟩
      · rcases List.mem_cons.mp holmem with h | h
        · rw [h]
          simp only [sentinel]
          omega
        · intro hE
          have h2 := hmemL _ h
          rw [← hE] at h2
          simp only [sentinel] at h2
          omega
      · intro hE
        rw [← hE] at hb
        simp only [sentinel] at hb
        omega
      · intro hE
        simp only [sentinel] at hE
        omega
    · have hmlt := hLimem _ hm
      refine ⟨?_, ?_, ?_⟩
      · rcases List.mem_cons.mp holmem with h | h
        · rw [h]
          simp only [sentinel]
          omega
        · intro hE
          rw [hE] at hm
          exact hdisj _ h hm
      · intro hE
        rw [hE] at hm
        exact hbL' hm
      · intro hE
        rw [hE] at hmlt
        simp only [sentinel] at hmlt
        omega
  refine isLruList_untouched st _ i' (nbuf_lru_add _ _ _) Li' hLi' ?_ ?_
  · intro m hm
    obtain ⟨e1, e2, _⟩ := hside m hm
    rw [hview.1 m, if_neg e1, if_neg e2]
  · intro m hm
    obtain ⟨_, e2, e3⟩ := hside m hm
    rw [hview.2 m, if_neg e3, if_neg e2]

theorem lru_remove_isLruList_other (st : St) (v i i' : Nat) (L2 Li' : List Nat)
    (hwf : WfSt st) (hi : i < NBUCKETS) (hi' : i' < NBUCKETS) (hne : i' ≠ i)
    (hLi : IsLruList st i (v :: L2)) (hLi' : IsLruList st i' Li')
    (hdisj : ∀ x, x ∈ v :: L2 → x ∉ Li') :
    IsLruList (lru_remove st v) i' Li' := by
  obtain ⟨hfront, hpv, _⟩ := lru_remove_front st v i L2 hwf hi hLi
  have hmemL := hLi.2.2.1
  have hv : v < st.nbuf := hmemL v (by simp)
  have hnxchar : getN st v = L2.headD (sentinel st i) := fchain_first _ _ _ _ hLi.1.2
  have hnxmem : getN st v ∈ sentinel st i :: L2 := by
    rw [hnxchar]
    cases hL : L2 with
    | nil => simp
    | cons a l => simp
  have hnx : getN st v < st.nbuf + NBUCKETS := by
    rcases List.mem_cons.mp hnxmem with h | h
    · rw [h]
      simp only [sentinel]
      omega
    · have := hmemL _ (List.mem_cons.mpr (Or.inr h))
      omega
  have hnv : getN st v ≠ v := by
    rcases List.mem_cons.mp hnxmem with h | h
    · rw [h]
      simp only [sentinel]
      omega
    · intro hE
      rw [hE] at h
      exact (List.nodup_cons.mp hLi.2.2.2).1 h
  have hview := lru_remove_view st v hwf hnx (by rw [hpv]; simp only [sentinel]; omega) hnv
  have hLimem := hLi'.2.2.1
  refine isLruList_untouched st _ i' (nbuf_lru_remove _ _) Li' hLi' ?_ ?_
  · intro m hm
    rw [hview.1 m, if_neg ?_]
    rw [hpv]
    rcases hm with hm | hm
    · subst hm
      simp only [sentinel]
      omega
    · intro hE
      rw [hE] at hm
      have := hLimem _ hm
      simp only [sentinel] at this
      omega
  · intro m hm
    rw [hview.2 m, if_neg ?_]
    rcases hm with hm | hm
    · subst hm
      rcases List.mem_cons.mp hnxmem with h | h
      · rw [h]
        simp only [sentinel]
        omega
      · intro hE
        have h2 := hmemL _ (List.mem_cons.mpr (Or.inr h))
        rw [← hE] at h2
        simp only [sentinel] at h2
        omega
    · intro hE
      rw [hE] at hm
      rcases List.mem_cons.mp hnxmem with h | h
      · rw [h] at hm
        have := hLimem _ hm
        simp only [sentinel] at this
        omega
      · exact hdisj _ (List.mem_cons.mpr (Or.inr h)) hm


/-! Transport of the invariant across state updates that do not touch the
    list structure. -/

theorem inv_transport (st st' : St) (hwf' : WfSt st')
    (hn : st'.nbuf = st.nbuf)
    (hN : ∀ m, getN st' m = getN st m) (hP : ∀ m, getP st' m = getP st m)
    (hr : ∀ p, readSlot st' p = readSlot st p)
    (hf : ∀ x, (getBuf st' x).blockno = (getBuf st x).blockno ∧
      (getBuf st' x).dev = (getBuf st x).dev ∧
      (getBuf st' x).refcnt = (getBuf st x).refcnt ∧
      (getBuf st' x).held = (getBuf st x).held)
    (h : Inv st) : Inv st' := by
  obtain ⟨hW, hL, hD, hZ, hC, hA, hU⟩ := h
  have hlw : ∀ i, lruWalk st' i = lruWalk st i := fun i => lruWalk_congr st st' i hn hN
  have hcw : ∀ k, chainWalk st' k = chainWalk st k := fun k => chainWalk_congr st st' k hn hr
  refine ⟨hwf', ?_, ?_, ?_, ?_, ?_, ?_⟩
  · intro i hi
    rw [hlw]
    exact isLruList_congr st st' hn hN hP i _ (hL i hi)
  · intro i hi i' hi' j h1 h2
    rw [hlw] at h1 h2
    exact hD i hi i' hi' j h1 h2
  · intro i hi j hj
    rw [hlw] at hj
    obtain ⟨z1, z2⟩ := hZ i hi j hj
    exact ⟨by rw [(hf j).2.2.1, z1], by rw [(hf j).2.2.2, z2]⟩
  · intro k hk
    rw [hcw]
    obtain ⟨c1, c2, c3⟩ := hC k hk
    exact ⟨chainSeg_congr st st' hr _ _ c1, c2, fun x hx => by rw [hn]; exact c3 x hx⟩
  · intro k hk j hj hh i hi
    rw [hcw] at hj
    rw [(hf j).1] at hh
    rw [hlw]
    exact hA k hk j hj hh i hi
  · intro k hk x hx y hy hh h1 h2
    rw [hcw] at hx hy
    rw [(hf x).1] at hh
    rw [(hf x).1, (hf y).1] at h1
    rw [(hf x).2.1, (hf y).2.1] at h2
    exact hU k hk x hx y hy hh h1 h2

theorem inv_updBuf_offlru (st : St) (j : Nat) (f : Buf → Buf)
    (hfp : ∀ b, (f b).blockno = b.blockno ∧ (f b).dev = b.dev ∧
      (f b).lnext = b.lnext ∧ (f b).lprev = b.lprev ∧ (f b).next_hash = b.next_hash)
    (hoff : ∀ i, i < NBUCKETS → j ∉ lruWalk st i)
    (h : Inv st) : Inv (updBuf st j f) := by
  obtain ⟨hW, hL, hD, hZ, hC, hA, hU⟩ := h
  set st' := updBuf st j f with hst'
  have hn : st'.nbuf = st.nbuf := nbuf_updBuf _ _ _
  have hN : ∀ m, getN st' m = getN st m := fun m => getN_updBuf st j f m (fun b => (hfp b).2.2.1)
  have hP : ∀ m, getP st' m = getP st m :=
    fun m => getP_updBuf st j f m (fun b => (hfp b).2.2.2.1)
  have hr : ∀ p, readSlot st' p = readSlot st p :=
    fun p => readSlot_updBuf st j f p (fun b => (hfp b).2.2.2.2)
  have hbd : ∀ x, (getBuf st' x).blockno = (getBuf st x).blockno ∧
      (getBuf st' x).dev = (getBuf st x).dev := by
    intro x
    rw [hst', getBuf_updBuf]
    split
    · rename_i hx
      obtain ⟨rfl, _⟩ := hx
      exact ⟨(hfp _).1, (hfp _).2.1⟩
    · exact ⟨rfl, rfl⟩
  have hfh : ∀ x, x ≠ j → getBuf st' x = getBuf st x := by
    intro x hx
    rw [hst']
    exact getBuf_updBuf_ne st x j f (Ne.symm hx)
  have hlw : ∀ i, lruWalk st' i = lruWalk st i := fun i => lruWalk_congr st st' i hn hN
  have hcw : ∀ k, chainWalk st' k = chainWalk st k := fun k => chainWalk_congr st st' k hn hr
  refine ⟨hW, ?_, ?_, ?_, ?_, ?_, ?_⟩
  · intro i hi
    rw [hlw]
    exact isLruList_congr st st' hn hN hP i _ (hL i hi)
  · intro i hi i' hi' x h1 h2
    rw [hlw] at h1 h2
    exact hD i hi i' hi' x h1 h2
  · intro i hi x hx
    rw [hlw] at hx
    have hxj : x ≠ j := by
      intro hE
      rw [hE] at hx
      exact hoff i hi hx
    rw [hfh x hxj]
    exact hZ i hi x hx
  · intro k hk
    rw [hcw]
    obtain ⟨c1, c2, c3⟩ := hC k hk
    exact ⟨chainSeg_congr st st' hr _ _ c1, c2, fun x hx => by rw [hn]; exact c3 x hx⟩
  · intro k hk x hx hh i hi
    rw [hcw] at hx
    rw [(hbd x).1] at hh
    rw [hlw]
    exact hA k hk x hx hh i hi
  · intro k hk x hx y hy hh h1 h2
    rw [hcw] at hx hy
    rw [(hbd x).1] at hh
    rw [(hbd x).1, (hbd y).1] at h1
    rw [(hbd x).2, (hbd y).2] at h2
    exact hU k hk x hx y hy hh h1 h2

theorem inv_updBuf_neutral (st : St) (j : Nat) (f : Buf → Buf)
    (hfp : ∀ b, (f b).blockno = b.blockno ∧ (f b).dev = b.dev ∧
      (f b).refcnt = b.refcnt ∧ (f b).held = b.held ∧
      (f b).lnext = b.lnext ∧ (f b).lprev = b.lprev ∧ (f b).next_hash = b.next_hash)
    (h : Inv st) : Inv (updBuf st j f) := by
  refine inv_transport st _ h.1 (nbuf_updBuf _ _ _)
    (fun m => getN_updBuf st j f m (fun b => (hfp b).2.2.2.2.1))
    (fun m => getP_updBuf st j f m (fun b => (hfp b).2.2.2.2.2.1))
    (fun p => readSlot_updBuf st j f p (fun b => (hfp b).2.2.2.2.2.2)) ?_ h
  intro x
  rw [getBuf_updBuf]
  split
  · rename_i hx
    obtain ⟨rfl, _⟩ := hx
    exact ⟨(hfp _).1, (hfp _).2.1, (hfp _).2.2.1, (hfp _).2.2.2.1⟩
  · exact ⟨rfl, rfl, rfl, rfl⟩

theorem inv_setDisk (st : St) (d : List ((Nat × Nat) × Nat)) (h : Inv st) :
    Inv { st with disk := d } := by
  refine inv_transport st _ h.1 rfl (fun m => rfl) (fun m => rfl)
    (fun p => readSlot_setDisk st d p) (fun x => ⟨rfl, rfl, rfl, rfl⟩) h

theorem inv_setNreads (st : St) (n : Nat) (h : Inv st) :
    Inv { st with nreads := n } := by
  refine inv_transport st _ h.1 rfl (fun m => rfl) (fun m => rfl)
    (fun p => by cases p <;> rfl) (fun x => ⟨rfl, rfl, rfl, rfl⟩) h


/-! Invariant preservation, operation by operation. -/

theorem find_off_lru (st : St) (dv bno b : Nat) (hInv : Inv st)
    (h : btable_find st dv bno = some b) :
    (∀ i, i < NBUCKETS → b ∉ lruWalk st i) ∧ b < st.nbuf := by
  obtain ⟨hW, hL, hD, hZ, hC, hA, hU⟩ := hInv
  have hk : bno % NBUCKETS < NBUCKETS := Nat.mod_lt _ (by norm_num [NBUCKETS])
  obtain ⟨c1, c2, c3⟩ := hC _ hk
  have hlen : (chainWalk st (bno % NBUCKETS)).length ≤ st.nbuf :=
    nodup_bounded_length _ _ c2 c3
  obtain ⟨hmem, hmatch⟩ := btable_find_char st dv bno _ c1 hlen b h
  have hhome : (getBuf st b).blockno % NBUCKETS = bno % NBUCKETS := by rw [hmatch.1]
  exact ⟨fun i hi => hA _ hk b hmem hhome i hi, c3 b hmem⟩

theorem inv_hit (st : St) (dv bno b : Nat) (hInv : Inv st)
    (h : btable_find st dv bno = some b) :
    Inv (updBuf st b (fun x => { x with refcnt := x.refcnt + 1, held := true })) :=
  inv_updBuf_offlru st b _ (fun x => ⟨rfl, rfl, rfl, rfl, rfl⟩)
    (find_off_lru st dv bno b hInv h).1 hInv

theorem refpos_off_lru (st : St) (j : Nat) (hInv : Inv st)
    (h : 1 ≤ (getBuf st j).refcnt) : ∀ i, i < NBUCKETS → j ∉ lruWalk st i := by
  intro i hi hmem
  have := (hInv.2.2.2.1 i hi j hmem).1
  rw [this] at h
  omega

theorem held_off_lru (st : St) (j : Nat) (hInv : Inv st)
    (h : (getBuf st j).held = true) : ∀ i, i < NBUCKETS → j ∉ lruWalk st i := by
  intro i hi hmem
  have h2 := (hInv.2.2.2.1 i hi j hmem).2
  rw [h] at h2
  exact Bool.noConfusion h2

theorem inv_bpin (st : St) (j : Nat) (hInv : Inv st)
    (h : 1 ≤ (getBuf st j).refcnt) : Inv (bpin st j) :=
  inv_updBuf_offlru st j _ (fun x => ⟨rfl, rfl, rfl, rfl, rfl⟩)
    (refpos_off_lru st j hInv h) hInv

theorem inv_bunpin (st : St) (j : Nat) (hInv : Inv st)
    (h : 1 ≤ (getBuf st j).refcnt) : Inv (bunpin st j) :=
  inv_updBuf_offlru st j _ (fun x => ⟨rfl, rfl, rfl, rfl, rfl⟩)
    (refpos_off_lru st j hInv h) hInv

theorem inv_setData (st : St) (j v : Nat) (hInv : Inv st) : Inv (setData st j v) :=
  inv_updBuf_neutral st j _ (fun x => ⟨rfl, rfl, rfl, rfl, rfl, rfl, rfl⟩) hInv

theorem inv_bwrite (st st' : St) (j : Nat) (hInv : Inv st)
    (h : bwrite st j = some st') : Inv st' := by
  unfold bwrite at h
  split at h
  · exact Option.noConfusion h
  · obtain rfl := Option.some.inj h
    exact inv_setDisk st _ hInv


theorem inv_brelse (st st' : St) (j : Nat) (hInv : Inv st)
    (h : brelse st j = some st') : Inv st' := by
  by_cases hheld : (getBuf st j).held = false
  · unfold brelse at h
    rw [if_pos hheld] at h
    exact Option.noConfusion h
  · have hheld' : (getBuf st j).held = true := by
      cases hE : (getBuf st j).held
      · exact absurd hE hheld
      · rfl
    have hj : j < st.nbuf := by
      by_contra hjc
      push_neg at hjc
      have hdef : getBuf st j = defaultBuf := by
        unfold getBuf
        exact List.getD_eq_default _ _ (by simpa [St.nbuf] using hjc)
      rw [hdef] at hheld'
      simp [defaultBuf] at hheld'
    set st1 := updBuf st j (fun b => { b with held := false }) with hst1
    set st2 := updBuf st1 j (fun b => { b with refcnt := b.refcnt - 1 }) with hst2
    have hoff : ∀ i, i < NBUCKETS → j ∉ lruWalk st i := held_off_lru st j hInv hheld'
    have hInv1 : Inv st1 :=
      inv_updBuf_offlru st j _ (fun b => ⟨rfl, rfl, rfl, rfl, rfl⟩) hoff hInv
    have hn1 : st1.nbuf = st.nbuf := nbuf_updBuf _ _ _
    have hlw1 : ∀ i, lruWalk st1 i = lruWalk st i :=
      fun i => lruWalk_congr st st1 i hn1 (fun m => getN_updBuf st j _ m (fun b => rfl))
    have hoff1 : ∀ i, i < NBUCKETS → j ∉ lruWalk st1 i := by
      intro i hi
      rw [hlw1]
      exact hoff i hi
    have hInv2 : Inv st2 :=
      inv_updBuf_offlru st1 j _ (fun b => ⟨rfl, rfl, rfl, rfl, rfl⟩) hoff1 hInv1
    have hn2 : st2.nbuf = st.nbuf := by rw [hst2, nbuf_updBuf, hn1]
    have hj1 : j < st1.nbuf := by rw [hn1]; exact hj
    have hj2 : j < st2.nbuf := by rw [hn2]; exact hj
    have hg1 : getBuf st1 j = { getBuf st j with held := false } := by
      rw [hst1]
      exact getBuf_updBuf_self st j _ hj
    have hg2 : getBuf st2 j = { getBuf st1 j with refcnt := (getBuf st1 j).refcnt - 1 } := by
      rw [hst2]
      exact getBuf_updBuf_self st1 j _ hj1
    have hbno1 : (getBuf st1 j).blockno = (getBuf st j).blockno := by rw [hg1]
    have hbno2 : (getBuf st2 j).blockno = (getBuf st j).blockno := by rw [hg2, hg1]
    have hdev2 : (getBuf st2 j).dev = (getBuf st j).dev := by rw [hg2, hg1]
    have hheld2 : (getBuf st2 j).held = false := by rw [hg2, hg1]
    have hlw2 : ∀ i, lruWalk st2 i = lruWalk st i := by
      intro i
      have e1 : lruWalk st2 i = lruWalk st1 i :=
        lruWalk_congr st1 st2 i (by rw [hst2]; exact nbuf_updBuf _ _ _)
          (fun m => by
            rw [hst2]
            exact getN_updBuf st1 j (fun b => { b with refcnt := b.refcnt - 1 }) m
              (fun b => rfl))
      rw [e1, hlw1 i]
    simp only [brelse] at h
    rw [if_neg (by rw [hheld']; simp), ← hst1, ← hst2] at h
    by_cases hz : (getBuf st2 j).refcnt = 0
    case neg =>
      rw [if_neg hz] at h
      obtain rfl := Option.some.inj h
      exact hInv2
    case pos =>
      rw [if_pos hz, hbno1] at h
      have hk0 : (getBuf st j).blockno % NBUCKETS < NBUCKETS :=
        Nat.mod_lt _ (by norm_num [NBUCKETS])
      set st3 := lru_add st2 j (sentinel st2 ((getBuf st j).blockno % NBUCKETS)) with hst3
      obtain rfl : st' = btable_remove st3 j := (Option.some.inj h).symm
      have hLh2 : IsLruList st2 ((getBuf st j).blockno % NBUCKETS)
          (lruWalk st ((getBuf st j).blockno % NBUCKETS)) := by
        have h2 := hInv2.2.1 _ hk0
        rw [hlw2] at h2
        exact h2
      have hjLh : j ∉ lruWalk st ((getBuf st j).blockno % NBUCKETS) := hoff _ hk0
      have hLh3 : IsLruList st3 ((getBuf st j).blockno % NBUCKETS)
          (lruWalk st ((getBuf st j).blockno % NBUCKETS) ++ [j]) := by
        rw [hst3]
        exact lru_add_lruList st2 j _ _ hInv2.1 hk0 hj2 hjLh hLh2
      have hother3 : ∀ i', i' < NBUCKETS → i' ≠ (getBuf st j).blockno % NBUCKETS →
          IsLruList st3 i' (lruWalk st i') := by
        intro i' hi' hne
        have hLi'2 : IsLruList st2 i' (lruWalk st i') := by
          have h2 := hInv2.2.1 i' hi'
          rw [hlw2] at h2
          exact h2
        rw [hst3]
        refine lru_add_isLruList_other st2 j _ i' _ (lruWalk st i') hInv2.1 hk0 hi' hne
          hj2 hjLh hLh2 hLi'2 ?_ (hoff i' hi')
        intro x hx hx'
        exact hne ((hInv.2.2.1 _ hk0 i' hi' x hx hx').symm)
      have hn3 : st3.nbuf = st.nbuf := by rw [hst3, nbuf_lru_add, hn2]
      have hwf3 : WfSt st3 := by
        rw [hst3]
        exact wf_lru_add _ _ _ hInv2.1
      have hrs3 : ∀ p, readSlot st3 p = readSlot st p := by
        intro p
        rw [hst3, readSlot_lru_add, hst2,
          readSlot_updBuf st1 j (fun b => { b with refcnt := b.refcnt - 1 }) p (fun b => rfl),
          hst1,
          readSlot_updBuf st j (fun b => { b with held := false }) p (fun b => rfl)]
      have hfe3 : EqFields st2 st3 := by
        rw [hst3]
        exact eqFields_lru_add st2 j _
      have hbd3 : ∀ x, (getBuf st3 x).blockno = (getBuf st x).blockno ∧
          (getBuf st3 x).dev = (getBuf st x).dev ∧
          (x ≠ j → (getBuf st3 x).refcnt = (getBuf st x).refcnt ∧
            (getBuf st3 x).held = (getBuf st x).held) := by
        intro x
        obtain ⟨edev, ebno, _, eref, eheld, _⟩ := hfe3 x
        by_cases hxj : x = j
        · subst hxj
          exact ⟨by rw [ebno, hbno2], by rw [edev, hdev2], fun hc => absurd rfl hc⟩
        · have e2 : getBuf st2 x = getBuf st x := by
            rw [hst2, getBuf_updBuf_ne st1 x j _ (Ne.symm hxj), hst1,
              getBuf_updBuf_ne st x j _ (Ne.symm hxj)]
          exact ⟨by rw [ebno, e2], by rw [edev, e2],
            fun hc => ⟨by rw [eref, e2], by rw [eheld, e2]⟩⟩
      have hrefj3 : (getBuf st3 j).refcnt = 0 := by
        rw [(hfe3 j).2.2.2.1]
        exact hz
      have hheldj3 : (getBuf st3 j).held = false := by
        rw [(hfe3 j).2.2.2.2.1]
        exact hheld2
      have hbnoj3 : (getBuf st3 j).blockno = (getBuf st j).blockno := (hbd3 j).1
      have hdevj3 : (getBuf st3 j).dev = (getBuf st j).dev := (hbd3 j).2.1
      have hCh : ∀ k, k < NBUCKETS → ChainSeg st3 (.head k) (chainWalk st k) ∧
          (chainWalk st k).Nodup ∧ ∀ x ∈ chainWalk st k, x < st.nbuf := by
        intro k hk
        obtain ⟨c1, c2, c3⟩ := hInv.2.2.2.2.1 k hk
        exact ⟨chainSeg_congr st st3 hrs3 _ _ c1, c2, c3⟩
      obtain ⟨cW1, cW2, cW3⟩ := hCh _ hk0
      have hlenW : (chainWalk st ((getBuf st j).blockno % NBUCKETS)).length ≤ st.nbuf :=
        nodup_bounded_length _ _ cW2 cW3
      have hlenW3 : (chainWalk st ((getBuf st j).blockno % NBUCKETS)).length ≤ st3.nbuf := by
        rw [hn3]
        exact hlenW
      have hjm3 : isMatch st3 (getBuf st j).dev (getBuf st j).blockno j := ⟨hbnoj3, hdevj3⟩
      by_cases hm : ∃ x ∈ chainWalk st ((getBuf st j).blockno % NBUCKETS),
          isMatch st3 (getBuf st j).dev (getBuf st j).blockno x
      · obtain ⟨P, r, S, hWE, hPm, hrm⟩ :=
          first_match_decomp (isMatch st3 (getBuf st j).dev (getBuf st j).blockno) _ hm
        have hfound := find_ptr_found st3 (getBuf st j).dev (getBuf st j).blockno P r S
          (by rw [← hWE]; exact cW1) hPm hrm
          (by rw [hWE] at hlenW3
              simp only [List.length_append, List.length_cons] at hlenW3
              omega)
        have hreadp : readSlot st3
            (slotAfter (.head ((getBuf st j).blockno % NBUCKETS)) P) = some r := by
          have h2 := hfound.2
          rw [show btable_find st3 (getBuf st j).dev (getBuf st j).blockno =
            readSlot st3 (find_ptr st3 (getBuf st j).dev (getBuf st j).blockno) from rfl,
            hfound.1] at h2
          exact h2
        have hrem : btable_remove st3 j = writeSlot st3
            (slotAfter (.head ((getBuf st j).blockno % NBUCKETS)) P)
            (readSlot st3 (.link r)) := by
          rw [btable_remove_eq_some st3 j r
            (by rw [hdevj3, hbnoj3, hfound.1]; exact hreadp)]
          rw [hdevj3, hbnoj3, hfound.1]
        rw [hrem]
        set stR := writeSlot st3
          (slotAfter (.head ((getBuf st j).blockno % NBUCKETS)) P)
          (readSlot st3 (.link r)) with hstR
        have hWnd : (P ++ r :: S).Nodup := by rw [← hWE]; exact cW2
        have hWbd : ∀ x ∈ P ++ r :: S, x < st.nbuf := by rw [← hWE]; exact cW3
        have hsplit := (chainSeg_append st3 P (.head ((getBuf st j).blockno % NBUCKETS))
          (r :: S)).mp (by rw [← hWE]; exact cW1)
        have hpok : PtrOk st3 (slotAfter (.head ((getBuf st j).blockno % NBUCKETS)) P) :=
          slotAfter_ok st3 _ hk0 P
            (fun x hx => by rw [hn3]; exact hWbd x (List.mem_append.mpr (Or.inl hx)))
        have hpS : ∀ y, slotAfter (.head ((getBuf st j).blockno % NBUCKETS)) P = .link y →
            y ∉ S ∧ y ≠ r := by
          intro y hy
          rcases slotAfter_link_cases y P _ hy with h2 | h2
          · cases h2
          · have hd := List.disjoint_of_nodup_append hWnd
            have h3 := hd h2
            exact ⟨fun hyS => h3 (List.mem_cons.mpr (Or.inr hyS)),
              fun hyr => h3 (List.mem_cons.mpr (Or.inl hyr))⟩
        have hexc := chainSeg_excise st3 _ r S hwf3 hpok hsplit.2.1 hsplit.2.2 hpS
        have hchR : ∀ k, k < NBUCKETS →
            ChainSeg stR (.head k) (chainWalk stR k) ∧
            (chainWalk stR k = chainWalk st k ∨
              (∃ X, chainWalk st k = X ++ r :: S ∧ chainWalk stR k = X ++ S)) := by
          intro k hk
          obtain ⟨c1, c2, c3⟩ := hCh k hk
          obtain ⟨W', hW', hshape⟩ := hexc (chainWalk st k) (.head k) c1
          rcases hshape with rfl | ⟨X, hXeq, rfl⟩
          · have hcw := chainWalk_eq stR k _ hW'
              (by rw [nbuf_writeSlot, hn3]; exact nodup_bounded_length _ _ c2 c3)
            exact ⟨by rw [hcw]; exact hW', Or.inl hcw⟩
          · have hsub : List.Sublist (X ++ S) (chainWalk st k) := by
              rw [hXeq]
              exact List.Sublist.append_left (List.sublist_cons_self r S) X
            have hcw := chainWalk_eq stR k _ hW'
              (by rw [nbuf_writeSlot, hn3]
                  exact le_trans hsub.length_le (nodup_bounded_length _ _ c2 c3))
            exact ⟨by rw [hcw]; exact hW', Or.inr ⟨X, hXeq, hcw⟩⟩
        have hchRsub : ∀ k, k < NBUCKETS → ∀ x ∈ chainWalk stR k, x ∈ chainWalk st k := by
          intro k hk x hx
          rcases (hchR k hk).2 with hE | ⟨X, hXeq, hE⟩
          · rw [hE] at hx
            exact hx
          · rw [hE] at hx
            rw [hXeq]
            rcases List.mem_append.mp hx with h2 | h2
            · exact List.mem_append.mpr (Or.inl h2)
            · exact List.mem_append.mpr (Or.inr (List.mem_cons.mpr (Or.inr h2)))
        have hjhome : j ∉ chainWalk stR ((getBuf st j).blockno % NBUCKETS) := by
          by_cases hjW : j ∈ chainWalk st ((getBuf st j).blockno % NBUCKETS)
          · have hrW : r ∈ chainWalk st ((getBuf st j).blockno % NBUCKETS) := by
              rw [hWE]
              exact List.mem_append.mpr (Or.inr (by simp))
            have hjr : j = r := by
              refine hInv.2.2.2.2.2.2 _ hk0 j hjW r hrW rfl ?_ ?_
              · rw [← (hbd3 r).1, hrm.1]
              · rw [← (hbd3 r).2.1, hrm.2]
            subst hjr
            have hseg2 := chainSeg_remove st3 (getBuf st j).dev (getBuf st j).blockno j S
              hjm3 hwf3 P (.head ((getBuf st j).blockno % NBUCKETS))
              (by rw [← hWE]; exact cW1) hWnd
              (fun x hx => by rw [hn3]; exact hWbd x hx)
              hk0 (fun y hy => by cases hy)
            have hcweq : chainWalk stR ((getBuf st j).blockno % NBUCKETS) = P ++ S := by
              refine chainWalk_eq stR _ _ hseg2 ?_
              rw [nbuf_writeSlot, hn3]
              refine le_trans ?_ hlenW
              rw [hWE]
              simp only [List.length_append, List.length_cons]
              omega
            rw [hcweq]
            intro hmem
            rw [List.nodup_append] at hWnd
            rcases List.mem_append.mp hmem with h2 | h2
            · exact (hWnd.2.2 h2) (by simp)
            · exact (List.nodup_cons.mp hWnd.2.1).1 h2
          · intro hmem
            exact hjW (hchRsub _ hk0 j hmem)
        have hgNR : ∀ m, getN stR m = getN st3 m := fun m => getN_writeSlot st3 _ _ m
        have hgPR : ∀ m, getP stR m = getP st3 m := fun m => getP_writeSlot st3 _ _ m
        have hnR : stR.nbuf = st.nbuf := by rw [hstR, nbuf_writeSlot, hn3]
        have hn3R : stR.nbuf = st3.nbuf := by rw [hstR, nbuf_writeSlot]
        have hLR : ∀ i, i < NBUCKETS → IsLruList stR i
            (if i = (getBuf st j).blockno % NBUCKETS then
              lruWalk st ((getBuf st j).blockno % NBUCKETS) ++ [j] else lruWalk st i) := by
          intro i hi
          split
          · rename_i hE
            rw [hE]
            exact isLruList_congr st3 stR hn3R hgNR hgPR _ _ hLh3
          · rename_i hE
            exact isLruList_congr st3 stR hn3R hgNR hgPR _ _ (hother3 i hi hE)
        have hlwR : ∀ i, i < NBUCKETS → lruWalk stR i =
            (if i = (getBuf st j).blockno % NBUCKETS then
              lruWalk st ((getBuf st j).blockno % NBUCKETS) ++ [j] else lruWalk st i) :=
          fun i hi => lruWalk_eq _ _ _ (hLR i hi)
        have hfeR : EqFields st3 stR := by
          rw [hstR]
          exact eqFields_writeSlot st3 _ _
        have hbdR : ∀ x, (getBuf stR x).blockno = (getBuf st x).blockno ∧
            (getBuf stR x).dev = (getBuf st x).dev ∧
            (x ≠ j → (getBuf stR x).refcnt = (getBuf st x).refcnt ∧
              (getBuf stR x).held = (getBuf st x).held) := by
          intro x
          obtain ⟨edev, ebno, _, eref, eheld, _⟩ := hfeR x
          obtain ⟨f1, f2, f3⟩ := hbd3 x
          exact ⟨by rw [ebno, f1], by rw [edev, f2],
            fun hc => ⟨by rw [eref, (f3 hc).1], by rw [eheld, (f3 hc).2]⟩⟩
        have hrefjR : (getBuf stR j).refcnt = 0 := by
          rw [(hfeR j).2.2.2.1]
          exact hrefj3
        have hheldjR : (getBuf stR j).held = false := by
          rw [(hfeR j).2.2.2.2.1]
          exact hheldj3
        have hCR : ChainsOk stR := by
          intro k hk
          obtain ⟨c1, c2, c3⟩ := hInv.2.2.2.2.1 k hk
          refine ⟨(hchR k hk).1, ?_, ?_⟩
          · rcases (hchR k hk).2 with hE | ⟨X, hXeq, hE⟩
            · rw [hE]
              exact c2
            · rw [hE]
              have hsub : List.Sublist (X ++ S) (chainWalk st k) := by
                rw [hXeq]
                exact List.Sublist.append_left (List.sublist_cons_self r S) X
              exact List.Nodup.sublist hsub c2
          · intro x hx
            rw [hnR]
            exact c3 x (hchRsub k hk x hx)
        refine ⟨wf_writeSlot st3 _ _ hwf3, ?_, ?_, ?_, hCR, ?_, ?_⟩
        · intro i hi
          rw [hlwR i hi]
          exact hLR i hi
        · intro i hi i' hi' x h1 h2
          rw [hlwR i hi] at h1
          rw [hlwR i' hi'] at h2
          by_cases e1 : i = (getBuf st j).blockno % NBUCKETS <;>
            by_cases e2 : i' = (getBuf st j).blockno % NBUCKETS
          · rw [e1, e2]
          · rw [if_pos e1] at h1
            rw [if_neg e2] at h2
            rcases List.mem_append.mp h1 with h3 | h3
            · rw [e1]
              exact hInv.2.2.1 _ hk0 i' hi' x h3 h2
            · rw [List.mem_singleton] at h3
              subst h3
              exact absurd h2 (hoff i' hi')
          · rw [if_neg e1] at h1
            rw [if_pos e2] at h2
            rcases List.mem_append.mp h2 with h3 | h3
            · rw [e2]
              exact hInv.2.2.1 i hi _ hk0 x h1 h3
            · rw [List.mem_singleton] at h3
              subst h3
              exact absurd h1 (hoff i hi)
          · rw [if_neg e1] at h1
            rw [if_neg e2] at h2
            exact hInv.2.2.1 i hi i' hi' x h1 h2
        · intro i hi x hx
          rw [hlwR i hi] at hx
          by_cases e1 : i = (getBuf st j).blockno % NBUCKETS
          · rw [if_pos e1] at hx
            rcases List.mem_append.mp hx with h3 | h3
            · have hxj : x ≠ j := fun hE => hjLh (hE ▸ h3)
              obtain ⟨z1, z2⟩ := hInv.2.2.2.1 _ hk0 x h3
              obtain ⟨r1, r2⟩ := (hbdR x).2.2 hxj
              exact ⟨by rw [r1]; exact z1, by rw [r2]; exact z2⟩
            · rw [List.mem_singleton] at h3
              subst h3
              exact ⟨hrefjR, hheldjR⟩
          · rw [if_neg e1] at hx
            have hxj : x ≠ j := fun hE => hoff i hi (hE ▸ hx)
            obtain ⟨z1, z2⟩ := hInv.2.2.2.1 i hi x hx
            obtain ⟨r1, r2⟩ := (hbdR x).2.2 hxj
            exact ⟨by rw [r1]; exact z1, by rw [r2]; exact z2⟩
        · intro k hk x hx hh i hi
          have hxst : x ∈ chainWalk st k := hchRsub k hk x hx
          have hhst : (getBuf st x).blockno % NBUCKETS = k := by
            rw [← (hbdR x).1]
            exact hh
          have hApre := hInv.2.2.2.2.2.1 k hk x hxst hhst
          rw [hlwR i hi]
          by_cases e1 : i = (getBuf st j).blockno % NBUCKETS
          · rw [if_pos e1]
            intro hmem
            rcases List.mem_append.mp hmem with h3 | h3
            · exact hApre _ hk0 h3
            · rw [List.mem_singleton] at h3
              subst h3
              have hkh : k = (getBuf st x).blockno % NBUCKETS := hhst.symm
              rw [hkh] at hx
              exact hjhome hx
          · rw [if_neg e1]
            exact hApre i hi
        · intro k hk x hx y hy hh h1 h2
          refine hInv.2.2.2.2.2.2 k hk x (hchRsub k hk x hx) y (hchRsub k hk y hy) ?_ ?_ ?_
          · rw [← (hbdR x).1]
            exact hh
          · rw [← (hbdR x).1, ← (hbdR y).1]
            exact h1
          · rw [← (hbdR x).2.1, ← (hbdR y).2.1]
            exact h2
      · -- no matching entry: btable_remove is a no-op
        push_neg at hm
        have hnm := find_ptr_no_match st3 (getBuf st j).dev (getBuf st j).blockno _ cW1 hm
          hlenW3
        have hrem : btable_remove st3 j = st3 :=
          btable_remove_eq_none st3 j (by rw [hdevj3, hbnoj3, hnm.1]; exact hnm.2)
        rw [hrem]
        have hjW : j ∉ chainWalk st ((getBuf st j).blockno % NBUCKETS) :=
          fun hjm => hm j hjm hjm3
        have hlw3 : ∀ i, i < NBUCKETS → lruWalk st3 i =
            (if i = (getBuf st j).blockno % NBUCKETS then
              lruWalk st ((getBuf st j).blockno % NBUCKETS) ++ [j] else lruWalk st i) := by
          intro i hi
          refine lruWalk_eq _ _ _ ?_
          split
          · rename_i hE
            rw [hE]
            exact hLh3
          · rename_i hE
            exact hother3 i hi hE
        have hcw3 : ∀ k, chainWalk st3 k = chainWalk st k :=
          fun k => chainWalk_congr st st3 k hn3 hrs3
        refine ⟨hwf3, ?_, ?_, ?_, ?_, ?_, ?_⟩
        · intro i hi
          rw [hlw3 i hi]
          split
          · rename_i hE
            rw [hE]
            exact hLh3
          · rename_i hE
            exact hother3 i hi hE
        · intro i hi i' hi' x h1 h2
          rw [hlw3 i hi] at h1
          rw [hlw3 i' hi'] at h2
          by_cases e1 : i = (getBuf st j).blockno % NBUCKETS <;>
            by_cases e2 : i' = (getBuf st j).blockno % NBUCKETS
          · rw [e1, e2]
          · rw [if_pos e1] at h1
            rw [if_neg e2] at h2
            rcases List.mem_append.mp h1 with h3 | h3
            · rw [e1]
              exact hInv.2.2.1 _ hk0 i' hi' x h3 h2
            · rw [List.mem_singleton] at h3
              subst h3
              exact absurd h2 (hoff i' hi')
          · rw [if_neg e1] at h1
            rw [if_pos e2] at h2
            rcases List.mem_append.mp h2 with h3 | h3
            · rw [e2]
              exact hInv.2.2.1 i hi _ hk0 x h1 h3
            · rw [List.mem_singleton] at h3
              subst h3
              exact absurd h1 (hoff i hi)
          · rw [if_neg e1] at h1
            rw [if_neg e2] at h2
            exact hInv.2.2.1 i hi i' hi' x h1 h2
        · intro i hi x hx
          rw [hlw3 i hi] at hx
          by_cases e1 : i = (getBuf st j).blockno % NBUCKETS
          · rw [if_pos e1] at hx
            rcases List.mem_append.mp hx with h3 | h3
            · have hxj : x ≠ j := fun hE => hjLh (hE ▸ h3)
              obtain ⟨z1, z2⟩ := hInv.2.2.2.1 _ hk0 x h3
              obtain ⟨r1, r2⟩ := (hbd3 x).2.2 hxj
              exact ⟨by rw [r1]; exact z1, by rw [r2]; exact z2⟩
            · rw [List.mem_singleton] at h3
              subst h3
              exact ⟨hrefj3, hheldj3⟩
          · rw [if_neg e1] at hx
            have hxj : x ≠ j := fun hE => hoff i hi (hE ▸ hx)
            obtain ⟨z1, z2⟩ := hInv.2.2.2.1 i hi x hx
            obtain ⟨r1, r2⟩ := (hbd3 x).2.2 hxj
            exact ⟨by rw [r1]; exact z1, by rw [r2]; exact z2⟩
        · intro k hk
          obtain ⟨c1, c2, c3⟩ := hInv.2.2.2.2.1 k hk
          rw [hcw3]
          exact ⟨chainSeg_congr st st3 hrs3 _ _ c1, c2, fun x hx => by rw [hn3]; exact c3 x hx⟩
        · intro k hk x hx hh i hi
          rw [hcw3] at hx
          have hhst : (getBuf st x).blockno % NBUCKETS = k := by
            rw [← (hbd3 x).1]
            exact hh
          have hApre := hInv.2.2.2.2.2.1 k hk x hx hhst
          rw [hlw3 i hi]
          by_cases e1 : i = (getBuf st j).blockno % NBUCKETS
          · rw [if_pos e1]
            intro hmem
            rcases List.mem_append.mp hmem with h3 | h3
            · exact hApre _ hk0 h3
            · rw [List.mem_singleton] at h3
              subst h3
              have hkh : k = (getBuf st x).blockno % NBUCKETS := hhst.symm
              rw [hkh] at hx
              exact hjW hx
          · rw [if_neg e1]
            exact hApre i hi
        · intro k hk x hx y hy hh h1 h2
          rw [hcw3] at hx hy
          refine hInv.2.2.2.2.2.2 k hk x hx y hy ?_ ?_ ?_
          · rw [← (hbd3 x).1]
            exact hh
          · rw [← (hbd3 x).1, ← (hbd3 y).1]
            exact h1
          · rw [← (hbd3 x).2.1, ← (hbd3 y).2.1]
            exact h2


theorem btable_find_none_no_match (st : St) (dv bno : Nat) (W : List Nat)
    (hseg : ChainSeg st (.head (bno % NBUCKETS)) W) (hlen : W.length ≤ st.nbuf)
    (hfind : btable_find st dv bno = none) :
    ∀ x ∈ W, ¬ isMatch st dv bno x := by
  intro x hx hmx
  obtain ⟨A, r, B, hWE, hA, hr⟩ := first_match_decomp (isMatch st dv bno) W ⟨x, hx, hmx⟩
  have h2 := (find_ptr_found st dv bno A r B (by rw [← hWE]; exact hseg) hA hr
    (by rw [hWE] at hlen
        simp only [List.length_append, List.length_cons] at hlen
        omega)).2
  rw [hfind] at h2
  exact Option.noConfusion h2

theorem chains_after_insert (st stA : St) (v : Nat)
    (hwfA : WfSt stA) (hnA : stA.nbuf = st.nbuf)
    (hrsA : ∀ p, readSlot stA p = readSlot st p)
    (hv : v < st.nbuf) (hC : ChainsOk st) :
    ∀ k, k < NBUCKETS →
      ChainSeg (btable_insert stA v) (.head k) (chainWalk (btable_insert stA v) k) ∧
      (chainWalk (btable_insert stA v) k).Nodup ∧
      (∀ x ∈ chainWalk (btable_insert stA v) k, x ∈ chainWalk st k ∨ x = v) := by
  have hk0 : (getBuf stA v).blockno % NBUCKETS < NBUCKETS :=
    Nat.mod_lt _ (by norm_num [NBUCKETS])
  have hsegA : ∀ k, k < NBUCKETS → ChainSeg stA (.head k) (chainWalk st k) :=
    fun k hk => chainSeg_congr st stA hrsA _ _ (hC k hk).1
  have hlen0 : (chainWalk st ((getBuf stA v).blockno % NBUCKETS)).length ≤ stA.nbuf := by
    rw [hnA]
    exact nodup_bounded_length _ _ (hC _ hk0).2.1 (hC _ hk0).2.2
  have hpj := find_ptr_ne_link stA (getBuf stA v).dev (getBuf stA v).blockno v
    (chainWalk st ((getBuf stA v).blockno % NBUCKETS)) (hsegA _ hk0) hlen0 ⟨rfl, rfl⟩
  have hpok := find_ptr_ok stA (getBuf stA v).dev (getBuf stA v).blockno
    (chainWalk st ((getBuf stA v).blockno % NBUCKETS)) (hsegA _ hk0) hlen0
    (fun x hx => by rw [hnA]; exact (hC _ hk0).2.2 x hx)
  have hnb2 : (btable_insert stA v).nbuf = st.nbuf := by
    rw [btable_insert_eq, nbuf_writeSlot, nbuf_writeSlot, hnA]
  intro k hk
  have hseg2 := insWalk_chainSeg stA
    (find_ptr stA (getBuf stA v).dev (getBuf stA v).blockno) v hwfA hpok
    (by rw [hnA]; exact hv) hpj (chainWalk st k) (.head k) (hsegA k hk)
    (fun hE => Ptr.noConfusion hE)
  rw [← btable_insert_eq] at hseg2
  have hnd := insWalk_nodup (find_ptr stA (getBuf stA v).dev (getBuf stA v).blockno) v
    (chainWalk st k) (.head k) (hC k hk).2.1
  have hbounds : ∀ x ∈ insWalk (find_ptr stA (getBuf stA v).dev (getBuf stA v).blockno) v
      (.head k) (chainWalk st k), x < st.nbuf := by
    intro x hx
    rcases insWalk_subset _ _ _ _ x hx with h2 | h2
    · exact (hC k hk).2.2 x h2
    · rw [h2]
      exact hv
  have hcw : chainWalk (btable_insert stA v) k =
      insWalk (find_ptr stA (getBuf stA v).dev (getBuf stA v).blockno) v (.head k)
        (chainWalk st k) := by
    refine chainWalk_eq _ k _ hseg2 ?_
    rw [hnb2]
    exact nodup_bounded_length _ _ hnd hbounds
  refine ⟨by rw [hcw]; exact hseg2, by rw [hcw]; exact hnd, ?_⟩
  intro x hx
  rw [hcw] at hx
  exact insWalk_subset _ _ _ _ x hx


theorem inv_local (st : St) (dv bno : Nat) (hInv : Inv st)
    (hfind : btable_find st dv bno = none)
    (hne : ¬ getN st (sentinel st (bno % NBUCKETS)) = sentinel st (bno % NBUCKETS)) :
    ∃ st' v, bget st dv bno = some (st', v, .localVictim) ∧ Inv st' ∧
      (getBuf st v).refcnt = 0 := by
  have hk : bno % NBUCKETS < NBUCKETS := Nat.mod_lt _ (by norm_num [NBUCKETS])
  have hL := hInv.2.1 _ hk
  cases hwalk : lruWalk st (bno % NBUCKETS) with
  | nil =>
    exfalso
    rw [hwalk] at hL
    exact hne hL.1
  | cons v L2 =>
    rw [hwalk] at hL
    have hvmem : v ∈ lruWalk st (bno % NBUCKETS) := by rw [hwalk]; simp
    have hvlt : v < st.nbuf := hL.2.2.1 v (by simp)
    have hvnd : v ∉ L2 := (List.nodup_cons.mp hL.2.2.2).1
    have hfront : getN st (sentinel st (bno % NBUCKETS)) = v := hL.1.1
    obtain ⟨hrefv0, hheldv0⟩ := hInv.2.2.2.1 _ hk v hvmem
    have hvonly : ∀ i, i < NBUCKETS → i ≠ bno % NBUCKETS → v ∉ lruWalk st i :=
      fun i hi hne2 hmem => hne2 (hInv.2.2.1 i hi _ hk v hmem hvmem)
    have hnomatch : ∀ x ∈ chainWalk st (bno % NBUCKETS), ¬ isMatch st dv bno x :=
      btable_find_none_no_match st dv bno _ (hInv.2.2.2.2.1 _ hk).1
        (nodup_bounded_length _ _ (hInv.2.2.2.2.1 _ hk).2.1 (hInv.2.2.2.2.1 _ hk).2.2) hfind
    set st1 := updBuf st v
      (fun x => { x with refcnt := 1, blockno := bno, dev := dv, valid := false }) with hst1
    set st2 := btable_insert st1 v with hst2
    set st3 := lru_remove st2 v with hst3
    set st4 := updBuf st3 v (fun x => { x with held := true }) with hst4
    have hb : bget st dv bno = some (st4, v, .localVictim) := by
      simp only [bget, hfind]
      rw [if_neg hne, hfront, ← hst1, ← hst2, ← hst3, ← hst4]
    -- st1 facts
    have hn1 : st1.nbuf = st.nbuf := nbuf_updBuf _ _ _
    have hwf1 : WfSt st1 := wf_updBuf _ _ _ hInv.1
    have hrs1 : ∀ p, readSlot st1 p = readSlot st p := by
      intro p
      rw [hst1]
      exact readSlot_updBuf st v _ p (fun b => rfl)
    have hgN1 : ∀ m, getN st1 m = getN st m := by
      intro m
      rw [hst1]
      exact getN_updBuf st v _ m (fun b => rfl)
    have hgP1 : ∀ m, getP st1 m = getP st m := by
      intro m
      rw [hst1]
      exact getP_updBuf st v _ m (fun b => rfl)
    have hg1v : getBuf st1 v =
        { getBuf st v with refcnt := 1, blockno := bno, dev := dv, valid := false } := by
      rw [hst1]
      exact getBuf_updBuf_self st v _ hvlt
    have hbd1 : ∀ x, x ≠ v → getBuf st1 x = getBuf st x := by
      intro x hx
      rw [hst1]
      exact getBuf_updBuf_ne st x v _ (Ne.symm hx)
    -- chains of st2
    have hCins := chains_after_insert st st1 v hwf1 hn1 hrs1 hvlt hInv.2.2.2.2.1
    have hn2 : st2.nbuf = st.nbuf := by
      rw [hst2, btable_insert_eq, nbuf_writeSlot, nbuf_writeSlot, hn1]
    have hwf2 : WfSt st2 := by
      rw [hst2, btable_insert_eq]
      exact wf_writeSlot _ _ _ (wf_writeSlot _ _ _ hwf1)
    have hgN2 : ∀ m, getN st2 m = getN st m := by
      intro m
      rw [hst2, btable_insert_eq, getN_writeSlot, getN_writeSlot]
      exact hgN1 m
    have hgP2 : ∀ m, getP st2 m = getP st m := by
      intro m
      rw [hst2, btable_insert_eq, getP_writeSlot, getP_writeSlot]
      exact hgP1 m
    have hfe2 : EqFields st1 st2 := by
      rw [hst2, btable_insert_eq]
      exact eqFields_trans (eqFields_writeSlot _ _ _) (eqFields_writeSlot _ _ _)
    -- st3 facts
    have hL2' : IsLruList st2 (bno % NBUCKETS) (v :: L2) :=
      isLruList_congr st st2 hn2 hgN2 hgP2 _ _ hL
    obtain ⟨_, _, hL3⟩ := lru_remove_front st2 v _ L2 hwf2 hk hL2'
    have hother3 : ∀ i', i' < NBUCKETS → i' ≠ bno % NBUCKETS →
        IsLruList st3 i' (lruWalk st i') := by
      intro i' hi' hne2
      rw [hst3]
      refine lru_remove_isLruList_other st2 v _ i' L2 (lruWalk st i') hwf2 hk hi' hne2 hL2'
        (isLruList_congr st st2 hn2 hgN2 hgP2 i' _ (hInv.2.1 i' hi')) ?_
      intro x hx hx'
      exact hne2 (hInv.2.2.1 i' hi' _ hk x hx' (by rw [hwalk]; exact hx))
    have hn3 : st3.nbuf = st.nbuf := by rw [hst3, nbuf_lru_remove, hn2]
    have hwf3 : WfSt st3 := by
      rw [hst3]
      exact wf_lru_remove _ _ hwf2
    have hrs3 : ∀ p, readSlot st3 p = readSlot st2 p := by
      intro p
      rw [hst3]
      exact readSlot_lru_remove st2 v p
    have hfe3 : EqFields st2 st3 := by
      rw [hst3]
      exact eqFields_lru_remove st2 v
    have hcw3 : ∀ k, chainWalk st3 k = chainWalk st2 k :=
      fun k => chainWalk_congr st2 st3 k (by rw [hst3, nbuf_lru_remove]) hrs3
    -- st4 facts
    have hn4 : st4.nbuf = st.nbuf := by rw [hst4, nbuf_updBuf, hn3]
    have hwf4 : WfSt st4 := by
      rw [hst4]
      exact wf_updBuf _ _ _ hwf3
    have hv3 : v < st3.nbuf := by rw [hn3]; exact hvlt
    have hg4v : getBuf st4 v = { getBuf st3 v with held := true } := by
      rw [hst4]
      exact getBuf_updBuf_self st3 v _ hv3
    have hbd4 : ∀ x, x ≠ v → getBuf st4 x = getBuf st3 x := by
      intro x hx
      rw [hst4]
      exact getBuf_updBuf_ne st3 x v _ (Ne.symm hx)
    have hgN4 : ∀ m, getN st4 m = getN st3 m := by
      intro m
      rw [hst4]
      exact getN_updBuf st3 v _ m (fun b => rfl)
    have hgP4 : ∀ m, getP st4 m = getP st3 m := by
      intro m
      rw [hst4]
      exact getP_updBuf st3 v _ m (fun b => rfl)
    have hrs4 : ∀ p, readSlot st4 p = readSlot st2 p := by
      intro p
      rw [hst4, readSlot_updBuf st3 v (fun x => { x with held := true }) p (fun b => rfl)]
      exact hrs3 p
    have hcw4 : ∀ k, chainWalk st4 k = chainWalk st2 k := by
      intro k
      rw [chainWalk_congr st3 st4 k (by rw [hst4, nbuf_updBuf])
        (fun p => by rw [hst4]; exact readSlot_updBuf st3 v _ p (fun b => rfl))]
      exact hcw3 k
    -- fields at st4
    have hfield4 : ∀ x, x ≠ v →
        (getBuf st4 x).blockno = (getBuf st x).blockno ∧
        (getBuf st4 x).dev = (getBuf st x).dev ∧
        (getBuf st4 x).refcnt = (getBuf st x).refcnt ∧
        (getBuf st4 x).held = (getBuf st x).held := by
      intro x hx
      obtain ⟨e1, e2, _, e4, e5, _⟩ := hfe2 x
      obtain ⟨f1, f2, _, f4, f5, _⟩ := hfe3 x
      exact ⟨by rw [hbd4 x hx, f2, e2, hbd1 x hx], by rw [hbd4 x hx, f1, e1, hbd1 x hx],
        by rw [hbd4 x hx, f4, e4, hbd1 x hx], by rw [hbd4 x hx, f5, e5, hbd1 x hx]⟩
    have hg3v : (getBuf st3 v).blockno = bno ∧ (getBuf st3 v).dev = dv ∧
        (getBuf st3 v).refcnt = 1 := by
      obtain ⟨e1, e2, _, e4, _, _⟩ := hfe2 v
      obtain ⟨f1, f2, _, f4, _, _⟩ := hfe3 v
      refine ⟨?_, ?_, ?_⟩
      · rw [f2, e2, hg1v]
      · rw [f1, e1, hg1v]
      · rw [f4, e4, hg1v]
    have hbnov : (getBuf st4 v).blockno = bno := by rw [hg4v]; exact hg3v.1
    have hdevv : (getBuf st4 v).dev = dv := by rw [hg4v]; exact hg3v.2.1
    have hrefv : (getBuf st4 v).refcnt = 1 := by rw [hg4v]; exact hg3v.2.2
    have hheldv : (getBuf st4 v).held = true := by rw [hg4v]
    -- LRU walks of st4
    have hlw4 : ∀ i, i < NBUCKETS → lruWalk st4 i =
        (if i = bno % NBUCKETS then L2 else lruWalk st i) := by
      intro i hi
      refine lruWalk_eq _ _ _ ?_
      split
      · rename_i hE
        rw [hE]
        exact isLruList_congr st3 st4 (by rw [hst4, nbuf_updBuf]) hgN4 hgP4 _ _ hL3
      · rename_i hE
        exact isLruList_congr st3 st4 (by rw [hst4, nbuf_updBuf]) hgN4 hgP4 _ _
          (hother3 i hi hE)
    have hvoff4 : ∀ i, i < NBUCKETS → v ∉ lruWalk st4 i := by
      intro i hi
      rw [hlw4 i hi]
      split
      · exact hvnd
      · rename_i hE
        exact hvonly i hi hE
    -- chain facts at st4
    have hch4 : ∀ k, k < NBUCKETS → ChainSeg st4 (.head k) (chainWalk st4 k) ∧
        (chainWalk st4 k).Nodup ∧
        (∀ x ∈ chainWalk st4 k, x ∈ chainWalk st k ∨ x = v) := by
      intro k hk2
      obtain ⟨c1, c2, c3⟩ := hCins k hk2
      rw [← hst2] at c1 c2 c3
      refine ⟨?_, by rw [hcw4]; exact c2, ?_⟩
      · rw [hcw4]
        refine chainSeg_congr st2 st4 (fun p => hrs4 p) _ _ c1
      · intro x hx
        rw [hcw4] at hx
        exact c3 x hx
    refine ⟨st4, v, hb, ⟨hwf4, ?_, ?_, ?_, ?_, ?_, ?_⟩, hrefv0⟩
    · intro i hi
      rw [hlw4 i hi]
      split
      · rename_i hE
        rw [hE]
        exact isLruList_congr st3 st4 (by rw [hst4, nbuf_updBuf]) hgN4 hgP4 _ _ hL3
      · rename_i hE
        exact isLruList_congr st3 st4 (by rw [hst4, nbuf_updBuf]) hgN4 hgP4 _ _
          (hother3 i hi hE)
    · intro i hi i' hi' x h1 h2
      rw [hlw4 i hi] at h1
      rw [hlw4 i' hi'] at h2
      by_cases e1 : i = bno % NBUCKETS <;> by_cases e2 : i' = bno % NBUCKETS
      · rw [e1, e2]
      · rw [if_pos e1] at h1
        rw [if_neg e2] at h2
        rw [e1]
        exact hInv.2.2.1 _ hk i' hi' x (by rw [hwalk]; exact List.mem_cons.mpr (Or.inr h1)) h2
      · rw [if_neg e1] at h1
        rw [if_pos e2] at h2
        rw [e2]
        exact hInv.2.2.1 i hi _ hk x h1 (by rw [hwalk]; exact List.mem_cons.mpr (Or.inr h2))
      · rw [if_neg e1] at h1
        rw [if_neg e2] at h2
        exact hInv.2.2.1 i hi i' hi' x h1 h2
    · intro i hi x hx
      rw [hlw4 i hi] at hx
      have hxmem : x ∈ lruWalk st i ∧ x ≠ v := by
        by_cases e1 : i = bno % NBUCKETS
        · rw [if_pos e1] at hx
          exact ⟨by rw [e1, hwalk]; exact List.mem_cons.mpr (Or.inr hx),
            fun hE => hvnd (hE ▸ hx)⟩
        · rw [if_neg e1] at hx
          exact ⟨hx, fun hE => hvonly i hi e1 (hE ▸ hx)⟩
      obtain ⟨z1, z2⟩ := hInv.2.2.2.1 i hi x hxmem.1
      obtain ⟨g1, g2, g3, g4⟩ := hfield4 x hxmem.2
      exact ⟨by rw [g3]; exact z1, by rw [g4]; exact z2⟩
    · intro k hk2
      obtain ⟨c1, c2, c3⟩ := hch4 k hk2
      refine ⟨c1, c2, ?_⟩
      intro x hx
      rw [hn4]
      rcases c3 x hx with h2 | h2
      · exact (hInv.2.2.2.2.1 k hk2).2.2 x h2
      · rw [h2]
        exact hvlt
    · intro k hk2 x hx hh i hi
      by_cases hxv : x = v
      · rw [hxv]
        exact hvoff4 i hi
      · have hxst : x ∈ chainWalk st k := by
          rcases (hch4 k hk2).2.2 x hx with h2 | h2
          · exact h2
          · exact absurd h2 hxv
        have hhst : (getBuf st x).blockno % NBUCKETS = k := by
          rw [← (hfield4 x hxv).1]
          exact hh
        have hApre := hInv.2.2.2.2.2.1 k hk2 x hxst hhst i hi
        rw [hlw4 i hi]
        split
        · rename_i hE
          intro hmem
          exact hApre (by rw [hE, hwalk]; exact List.mem_cons.mpr (Or.inr hmem))
        · exact hApre
    · intro k hk2 x hx y hy hh h1 h2
      by_cases hxv : x = v <;> by_cases hyv : y = v
      · rw [hxv, hyv]
      · exfalso
        have hyst : y ∈ chainWalk st k := by
          rcases (hch4 k hk2).2.2 y hy with h3 | h3
          · exact h3
          · exact absurd h3 hyv
        have hkidx : k = bno % NBUCKETS := by
          rw [hxv] at hh
          rw [hbnov] at hh
          exact hh.symm
        refine hnomatch y (by rw [← hkidx]; exact hyst) ?_
        rw [hxv] at h1 h2
        rw [hbnov] at h1
        rw [hdevv] at h2
        exact ⟨by rw [← (hfield4 y hyv).1]; exact h1.symm,
          by rw [← (hfield4 y hyv).2.1]; exact h2.symm⟩
      · exfalso
        have hxst : x ∈ chainWalk st k := by
          rcases (hch4 k hk2).2.2 x hx with h3 | h3
          · exact h3
          · exact absurd h3 hxv
        have hxb : (getBuf st x).blockno = bno := by
          rw [← (hfield4 x hxv).1, h1, hyv, hbnov]
        have hxd : (getBuf st x).dev = dv := by
          rw [← (hfield4 x hxv).2.1, h2, hyv, hdevv]
        have hkidx : k = bno % NBUCKETS := by
          have := hh
          rw [(hfield4 x hxv).1] at this
          rw [hxb] at this
          exact this.symm
        exact hnomatch x (by rw [← hkidx]; exact hxst) ⟨hxb, hxd⟩
      · have hxst : x ∈ chainWalk st k := by
          rcases (hch4 k hk2).2.2 x hx with h3 | h3
          · exact h3
          · exact absurd h3 hxv
        have hyst : y ∈ chainWalk st k := by
          rcases (hch4 k hk2).2.2 y hy with h3 | h3
          · exact h3
          · exact absurd h3 hyv
        refine hInv.2.2.2.2.2.2 k hk2 x hxst y hyst ?_ ?_ ?_
        · rw [← (hfield4 x hxv).1]
          exact hh
        · rw [← (hfield4 x hxv).1, ← (hfield4 y hyv).1]
          exact h1
        · rw [← (hfield4 x hxv).2.1, ← (hfield4 y hyv).2.1]
          exact h2


theorem inv_steal (st : St) (dv bno i v : Nat) (L2 : List Nat) (hInv : Inv st)
    (hfind : btable_find st dv bno = none)
    (hi : i < NBUCKETS)
    (hwalk : lruWalk st i = v :: L2) :
    Inv (updBuf (btable_insert (lru_remove st v) v) v
      (fun x => { x with
        refcnt := 1
        blockno := bno
        dev := dv
        valid := false
        held := true })) ∧
    (getBuf st v).refcnt = 0 := by
  have hkb : bno % NBUCKETS < NBUCKETS := Nat.mod_lt _ (by norm_num [NBUCKETS])
  have hL := hInv.2.1 i hi
  rw [hwalk] at hL
  have hvmem : v ∈ lruWalk st i := by rw [hwalk]; simp
  have hvlt : v < st.nbuf := hL.2.2.1 v (by simp)
  have hvnd : v ∉ L2 := (List.nodup_cons.mp hL.2.2.2).1
  obtain ⟨hrefv0, hheldv0⟩ := hInv.2.2.2.1 i hi v hvmem
  have hvonly : ∀ i', i' < NBUCKETS → i' ≠ i → v ∉ lruWalk st i' :=
    fun i' hi' hne2 hmem => hne2 (hInv.2.2.1 i' hi' i hi v hmem hvmem)
  have hnomatch : ∀ x ∈ chainWalk st (bno % NBUCKETS), ¬ isMatch st dv bno x :=
    btable_find_none_no_match st dv bno _ (hInv.2.2.2.2.1 _ hkb).1
      (nodup_bounded_length _ _ (hInv.2.2.2.2.1 _ hkb).2.1 (hInv.2.2.2.2.1 _ hkb).2.2) hfind
  set st1 := lru_remove st v with hst1
  set st2 := btable_insert st1 v with hst2
  set st3 := updBuf st2 v
    (fun x => { x with
      refcnt := 1
      blockno := bno
      dev := dv
      valid := false
      held := true }) with hst3
  -- st1 facts
  have hn1 : st1.nbuf = st.nbuf := by rw [hst1, nbuf_lru_remove]
  have hwf1 : WfSt st1 := by
    rw [hst1]
    exact wf_lru_remove _ _ hInv.1
  have hrs1 : ∀ p, readSlot st1 p = readSlot st p := by
    intro p
    rw [hst1]
    exact readSlot_lru_remove st v p
  have hfe1 : EqFields st st1 := by
    rw [hst1]
    exact eqFields_lru_remove st v
  obtain ⟨_, _, hL1⟩ := lru_remove_front st v i L2 hInv.1 hi hL
  have hother1 : ∀ i', i' < NBUCKETS → i' ≠ i → IsLruList st1 i' (lruWalk st i') := by
    intro i' hi' hne2
    rw [hst1]
    refine lru_remove_isLruList_other st v i i' L2 (lruWalk st i') hInv.1 hi hi' hne2 hL
      (hInv.2.1 i' hi') ?_
    intro x hx hx'
    exact hne2 (hInv.2.2.1 i' hi' i hi x hx' (by rw [hwalk]; exact hx))
  -- st2 facts
  have hCins := chains_after_insert st st1 v hwf1 hn1 hrs1 hvlt hInv.2.2.2.2.1
  have hn2 : st2.nbuf = st.nbuf := by
    rw [hst2, btable_insert_eq, nbuf_writeSlot, nbuf_writeSlot, hn1]
  have hwf2 : WfSt st2 := by
    rw [hst2, btable_insert_eq]
    exact wf_writeSlot _ _ _ (wf_writeSlot _ _ _ hwf1)
  have hgN2 : ∀ m, getN st2 m = getN st1 m := by
    intro m
    rw [hst2, btable_insert_eq, getN_writeSlot, getN_writeSlot]
  have hgP2 : ∀ m, getP st2 m = getP st1 m := by
    intro m
    rw [hst2, btable_insert_eq, getP_writeSlot, getP_writeSlot]
  have hfe2 : EqFields st1 st2 := by
    rw [hst2, btable_insert_eq]
    exact eqFields_trans (eqFields_writeSlot _ _ _) (eqFields_writeSlot _ _ _)
  have hn21 : st2.nbuf = st1.nbuf := by rw [hn2, hn1]
  have hL2i : IsLruList st2 i L2 := isLruList_congr st1 st2 hn21 hgN2 hgP2 i _ hL1
  have hother2 : ∀ i', i' < NBUCKETS → i' ≠ i → IsLruList st2 i' (lruWalk st i') :=
    fun i' hi' hne2 =>
      isLruList_congr st1 st2 hn21 hgN2 hgP2 i' _ (hother1 i' hi' hne2)
  -- st3 facts
  have hv2 : v < st2.nbuf := by rw [hn2]; exact hvlt
  have hn3 : st3.nbuf = st.nbuf := by rw [hst3, nbuf_updBuf, hn2]
  have hwf3 : WfSt st3 := by
    rw [hst3]
    exact wf_updBuf _ _ _ hwf2
  have hgN3 : ∀ m, getN st3 m = getN st2 m := by
    intro m
    rw [hst3]
    exact getN_updBuf st2 v _ m (fun b => rfl)
  have hgP3 : ∀ m, getP st3 m = getP st2 m := by
    intro m
    rw [hst3]
    exact getP_updBuf st2 v _ m (fun b => rfl)
  have hrs3 : ∀ p, readSlot st3 p = readSlot st2 p := by
    intro p
    rw [hst3]
    exact readSlot_updBuf st2 v
      (fun x => { x with
        refcnt := 1
        blockno := bno
        dev := dv
        valid := false
        held := true }) p (fun b => rfl)
  have hg3v : getBuf st3 v = { getBuf st2 v with
      refcnt := 1
      blockno := bno
      dev := dv
      valid := false
      held := true } := by
    rw [hst3]
    exact getBuf_updBuf_self st2 v _ hv2
  have hbd3 : ∀ x, x ≠ v → getBuf st3 x = getBuf st2 x := by
    intro x hx
    rw [hst3]
    exact getBuf_updBuf_ne st2 x v _ (Ne.symm hx)
  have hcw3 : ∀ k, chainWalk st3 k = chainWalk st2 k :=
    fun k => chainWalk_congr st2 st3 k (by rw [hst3, nbuf_updBuf]) hrs3
  have hfield3 : ∀ x, x ≠ v →
      (getBuf st3 x).blockno = (getBuf st x).blockno ∧
      (getBuf st3 x).dev = (getBuf st x).dev ∧
      (getBuf st3 x).refcnt = (getBuf st x).refcnt ∧
      (getBuf st3 x).held = (getBuf st x).held := by
    intro x hx
    obtain ⟨e1, e2, _, e4, e5, _⟩ := hfe1 x
    obtain ⟨f1, f2, _, f4, f5, _⟩ := hfe2 x
    exact ⟨by rw [hbd3 x hx, f2, e2], by rw [hbd3 x hx, f1, e1],
      by rw [hbd3 x hx, f4, e4], by rw [hbd3 x hx, f5, e5]⟩
  have hbnov : (getBuf st3 v).blockno = bno := by rw [hg3v]
  have hdevv : (getBuf st3 v).dev = dv := by rw [hg3v]
  have hrefv : (getBuf st3 v).refcnt = 1 := by rw [hg3v]
  have hheldv : (getBuf st3 v).held = true := by rw [hg3v]
  have hlw3 : ∀ i'', i'' < NBUCKETS → lruWalk st3 i'' =
      (if i'' = i then L2 else lruWalk st i'') := by
    intro i'' hi''
    refine lruWalk_eq _ _ _ ?_
    split
    · rename_i hE
      rw [hE]
      exact isLruList_congr st2 st3 (by rw [hst3, nbuf_updBuf]) hgN3 hgP3 _ _ hL2i
    · rename_i hE
      exact isLruList_congr st2 st3 (by rw [hst3, nbuf_updBuf]) hgN3 hgP3 _ _
        (hother2 i'' hi'' hE)
  have hvoff3 : ∀ i'', i'' < NBUCKETS → v ∉ lruWalk st3 i'' := by
    intro i'' hi''
    rw [hlw3 i'' hi'']
    split
    · exact hvnd
    · rename_i hE
      exact hvonly i'' hi'' hE
  have hch3 : ∀ k, k < NBUCKETS → ChainSeg st3 (.head k) (chainWalk st3 k) ∧
      (chainWalk st3 k).Nodup ∧
      (∀ x ∈ chainWalk st3 k, x ∈ chainWalk st k ∨ x = v) := by
    intro k hk2
    obtain ⟨c1, c2, c3⟩ := hCins k hk2
    rw [← hst2] at c1 c2 c3
    refine ⟨?_, by rw [hcw3]; exact c2, ?_⟩
    · rw [hcw3]
      exact chainSeg_congr st2 st3 hrs3 _ _ c1
    · intro x hx
      rw [hcw3] at hx
      exact c3 x hx
  refine ⟨⟨hwf3, ?_, ?_, ?_, ?_, ?_, ?_⟩, hrefv0⟩
  · intro i'' hi''
    rw [hlw3 i'' hi'']
    split
    · rename_i hE
      rw [hE]
      exact isLruList_congr st2 st3 (by rw [hst3, nbuf_updBuf]) hgN3 hgP3 _ _ hL2i
    · rename_i hE
      exact isLruList_congr st2 st3 (by rw [hst3, nbuf_updBuf]) hgN3 hgP3 _ _
        (hother2 i'' hi'' hE)
  · intro ia hia ib hib x h1 h2
    rw [hlw3 ia hia] at h1
    rw [hlw3 ib hib] at h2
    by_cases e1 : ia = i <;> by_cases e2 : ib = i
    · rw [e1, e2]
    · rw [if_pos e1] at h1
      rw [if_neg e2] at h2
      rw [e1]
      exact hInv.2.2.1 i hi ib hib x (by rw [hwalk]; exact List.mem_cons.mpr (Or.inr h1)) h2
    · rw [if_neg e1] at h1
      rw [if_pos e2] at h2
      rw [e2]
      exact hInv.2.2.1 ia hia i hi x h1 (by rw [hwalk]; exact List.mem_cons.mpr (Or.inr h2))
    · rw [if_neg e1] at h1
      rw [if_neg e2] at h2
      exact hInv.2.2.1 ia hia ib hib x h1 h2
  · intro i'' hi'' x hx
    rw [hlw3 i'' hi''] at hx
    have hxmem : x ∈ lruWalk st i'' ∧ x ≠ v := by
      by_cases e1 : i'' = i
      · rw [if_pos e1] at hx
        exact ⟨by rw [e1, hwalk]; exact List.mem_cons.mpr (Or.inr hx),
          fun hE => hvnd (hE ▸ hx)⟩
      · rw [if_neg e1] at hx
        exact ⟨hx, fun hE => hvonly i'' hi'' e1 (hE ▸ hx)⟩
    obtain ⟨z1, z2⟩ := hInv.2.2.2.1 i'' hi'' x hxmem.1
    obtain ⟨g1, g2, g3, g4⟩ := hfield3 x hxmem.2
    exact ⟨by rw [g3]; exact z1, by rw [g4]; exact z2⟩
  · intro k hk2
    obtain ⟨c1, c2, c3⟩ := hch3 k hk2
    refine ⟨c1, c2, ?_⟩
    intro x hx
    rw [hn3]
    rcases c3 x hx with h2 | h2
    · exact (hInv.2.2.2.2.1 k hk2).2.2 x h2
    · rw [h2]
      exact hvlt
  · intro k hk2 x hx hh ia hia
    by_cases hxv : x = v
    · rw [hxv]
      exact hvoff3 ia hia
    · have hxst : x ∈ chainWalk st k := by
        rcases (hch3 k hk2).2.2 x hx with h2 | h2
        · exact h2
        · exact absurd h2 hxv
      have hhst : (getBuf st x).blockno % NBUCKETS = k := by
        rw [← (hfield3 x hxv).1]
        exact hh
      have hApre := hInv.2.2.2.2.2.1 k hk2 x hxst hhst ia hia
      rw [hlw3 ia hia]
      split
      · rename_i hE
        intro hmem
        exact hApre (by rw [hE, hwalk]; exact List.mem_cons.mpr (Or.inr hmem))
      · exact hApre
  · intro k hk2 x hx y hy hh h1 h2
    by_cases hxv : x = v <;> by_cases hyv : y = v
    · rw [hxv, hyv]
    · exfalso
      have hyst : y ∈ chainWalk st k := by
        rcases (hch3 k hk2).2.2 y hy with h3 | h3
        · exact h3
        · exact absurd h3 hyv
      have hkidx : k = bno % NBUCKETS := by
        rw [hxv, hbnov] at hh
        exact hh.symm
      refine hnomatch y (by rw [← hkidx]; exact hyst) ?_
      rw [hxv, hbnov] at h1
      rw [hxv, hdevv] at h2
      exact ⟨by rw [← (hfield3 y hyv).1]; exact h1.symm,
        by rw [← (hfield3 y hyv).2.1]; exact h2.symm⟩
    · exfalso
      have hxst : x ∈ chainWalk st k := by
        rcases (hch3 k hk2).2.2 x hx with h3 | h3
        · exact h3
        · exact absurd h3 hxv
      have hxb : (getBuf st x).blockno = bno := by
        rw [← (hfield3 x hxv).1, h1, hyv, hbnov]
      have hxd : (getBuf st x).dev = dv := by
        rw [← (hfield3 x hxv).2.1, h2, hyv, hdevv]
      have hkidx : k = bno % NBUCKETS := by
        have h4 := hh
        rw [(hfield3 x hxv).1, hxb] at h4
        exact h4.symm
      exact hnomatch x (by rw [← hkidx]; exact hxst) ⟨hxb, hxd⟩
    · have hxst : x ∈ chainWalk st k := by
        rcases (hch3 k hk2).2.2 x hx with h3 | h3
        · exact h3
        · exact absurd h3 hxv
      have hyst : y ∈ chainWalk st k := by
        rcases (hch3 k hk2).2.2 y hy with h3 | h3
        · exact h3
        · exact absurd h3 hyv
      refine hInv.2.2.2.2.2.2 k hk2 x hxst y hyst ?_ ?_ ?_
      · rw [← (hfield3 x hxv).1]
        exact hh
      · rw [← (hfield3 x hxv).1, ← (hfield3 y hyv).1]
        exact h1
      · rw [← (hfield3 x hxv).2.1, ← (hfield3 y hyv).2.1]
        exact h2


theorem bgetSteal_inv (st : St) (dv bno idx : Nat) (hInv : Inv st)
    (hfind : btable_find st dv bno = none) :
    ∀ fuel i r, bgetSteal dv bno idx fuel i st = some r →
      Inv r.1 ∧ (getBuf st r.2.1).refcnt = 0 ∧ ∃ i', r.2.2 = .steal i' := by
  intro fuel
  induction fuel with
  | zero =>
    intro i r h
    exact Option.noConfusion h
  | succ f ih =>
    intro i r h
    rw [bgetSteal] at h
    by_cases h13 : NBUCKETS ≤ i
    · rw [if_pos h13] at h
      exact Option.noConfusion h
    · rw [if_neg h13] at h
      by_cases hii : i = idx
      · rw [if_pos hii] at h
        exact ih (i + 1) r h
      · rw [if_neg hii] at h
        simp only [hfind] at h
        by_cases hmt : getN st (sentinel st i) = sentinel st i
        · rw [if_pos hmt] at h
          exact ih (i + 1) r h
        · rw [if_neg hmt] at h
          obtain rfl : r = _ := (Option.some.inj h).symm
          have hi' : i < NBUCKETS := by omega
          have hL := hInv.2.1 i hi'
          cases hwalk : lruWalk st i with
          | nil =>
            exfalso
            rw [hwalk] at hL
            exact hmt hL.1
          | cons v L2 =>
            have hfront : getN st (sentinel st i) = v := by
              rw [hwalk] at hL
              exact hL.1.1
            rw [hfront]
            obtain ⟨hinv', href⟩ := inv_steal st dv bno i v L2 hInv hfind hi' hwalk
            exact ⟨hinv', href, i, rfl⟩

theorem inv_bget (st : St) (dv bno : Nat) (hInv : Inv st) :
    ∀ st' b path, bget st dv bno = some (st', b, path) →
      Inv st' ∧ ((path = .localVictim ∨ ∃ i, path = .steal i) →
        (getBuf st b).refcnt = 0) := by
  intro st' b path h
  cases hf : btable_find st dv bno with
  | some x =>
    simp only [bget, hf] at h
    have h2 := Option.some.inj h
    rw [Prod.ext_iff] at h2
    obtain ⟨h3, h4⟩ := h2
    rw [Prod.ext_iff] at h4
    obtain ⟨h5, h6⟩ := h4
    obtain rfl := h3
    obtain rfl := h5
    obtain rfl := h6
    refine ⟨inv_hit st dv bno x hInv hf, ?_⟩
    intro hpath
    rcases hpath with h7 | ⟨i, h7⟩ <;> exact GetPath.noConfusion h7
  | none =>
    have hful : bget st dv bno = some (st', b, path) := h
    simp only [bget, hf] at h
    by_cases hmt : getN st (sentinel st (bno % NBUCKETS)) = sentinel st (bno % NBUCKETS)
    · rw [if_pos hmt] at h
      have hres := bgetSteal_inv st dv bno (bno % NBUCKETS) hInv hf _ _ _ h
      obtain ⟨hinv', href, i', hpath'⟩ := hres
      exact ⟨hinv', fun _ => href⟩
    · obtain ⟨stx, vx, hbx, hinvx, hrefx⟩ := inv_local st dv bno hInv hf hmt
      rw [hful] at hbx
      have h2 := Option.some.inj hbx
      rw [Prod.ext_iff] at h2
      obtain ⟨h3, h4⟩ := h2
      rw [Prod.ext_iff] at h4
      obtain ⟨h5, _⟩ := h4
      obtain rfl := h3.symm
      obtain rfl := h5.symm
      exact ⟨hinvx, fun _ => hrefx⟩

theorem inv_bread (st : St) (dv bno : Nat) (hInv : Inv st) :
    ∀ st' b path r, bread st dv bno = some (st', b, path, r) → Inv st' := by
  intro st' b path r h
  cases hb : bget st dv bno with
  | none =>
    simp only [bread, hb] at h
    exact Option.noConfusion h
  | some t =>
    obtain ⟨st1, b1, p1⟩ := t
    simp only [bread, hb] at h
    have hInv1 := (inv_bget st dv bno hInv st1 b1 p1 hb).1
    split at h
    · obtain ⟨h3, -⟩ := Prod.mk.inj (Option.some.inj h)
      rw [← h3]
      exact inv_setNreads _ _
        (inv_updBuf_neutral st1 b1 _ (fun x => ⟨rfl, rfl, rfl, rfl, rfl, rfl, rfl⟩) hInv1)
    · obtain ⟨h3, -⟩ := Prod.mk.inj (Option.some.inj h)
      rw [← h3]
      exact hInv1

theorem inv_execOpD (st st' : St) (op : Op) (hInv : Inv st)
    (h : execOpD st op = some st') : Inv st' := by
  unfold execOpD at h
  split at h
  · rename_i hok
    cases op with
    | get dv bno =>
      simp only [execOp] at h
      cases hb : bget st dv bno with
      | none =>
        rw [hb] at h
        exact Option.noConfusion h
      | some t =>
        obtain ⟨st1, b1, p1⟩ := t
        rw [hb] at h
        have hInv1 := (inv_bget st dv bno hInv st1 b1 p1 hb).1
        obtain rfl := Option.some.inj h
        exact hInv1
    | read dv bno =>
      simp only [execOp] at h
      cases hb : bread st dv bno with
      | none =>
        rw [hb] at h
        exact Option.noConfusion h
      | some t =>
        obtain ⟨st1, b1, p1, r1⟩ := t
        rw [hb] at h
        have hInv1 := inv_bread st dv bno hInv st1 b1 p1 r1 hb
        obtain rfl := Option.some.inj h
        exact hInv1
    | rel j =>
      simp only [execOp] at h
      exact inv_brelse st st' j hInv h
    | pin j =>
      simp only [okOp] at hok
      simp only [execOp] at h
      obtain rfl := Option.some.inj h
      exact inv_bpin st j hInv (of_decide_eq_true hok)
    | unpin j =>
      simp only [okOp] at hok
      simp only [execOp] at h
      obtain rfl := Option.some.inj h
      exact inv_bunpin st j hInv (of_decide_eq_true hok)
    | write j =>
      simp only [execOp] at h
      exact inv_bwrite st st' j hInv h
    | put j v =>
      simp only [execOp] at h
      obtain rfl := Option.some.inj h
      exact inv_setData st j v hInv
  · exact Option.noConfusion h

theorem inv_execSeqD (l : List Op) :
    ∀ st st', Inv st → execSeqD st l = some st' → Inv st' := by
  induction l with
  | nil =>
    intro st st' hInv h
    obtain rfl := Option.some.inj h
    exact hInv
  | cons op l ih =>
    intro st st' hInv h
    rw [execSeqD] at h
    cases hx : execOpD st op with
    | none =>
      rw [hx] at h
      exact Option.noConfusion h
    | some st1 =>
      rw [hx] at h
      exact ih st1 st' (inv_execOpD st st1 op hInv hx) h

end BufCache

namespace LockOrder

theorem no_deadlock_aux :
    ∀ n (S : List TState), (∀ t ∈ S, disciplinedB t = true) →
      (∀ t ∈ S, ∃ l, t.waiting = some l ∧ ∃ u ∈ S, l ∈ u.held) →
      ∀ t ∈ S, ∀ l, t.waiting = some l → l < n → False := by
  intro n
  induction n with
  | zero => intro S _ _ t _ l _ hl; omega
  | succ n ih =>
    intro S hdisc hdl t ht l hw hl
    obtain ⟨l', hw', u, hu, hheld⟩ := hdl t ht
    rw [hw] at hw'
    obtain rfl : l = l' := Option.some.inj hw'
    obtain ⟨l2, hw2, _⟩ := hdl u hu
    have hd := hdisc u hu
    simp only [disciplinedB, hw2, List.all_eq_true, decide_eq_true_eq] at hd
    have hlt : l2 < l := hd l hheld
    exact ih S hdisc hdl u hu l2 hw2 (by omega)

end LockOrder

namespace Claims

set_option maxRecDepth 40000

open BufCache LockOrder SockNet

/-- C10: the stealing path's lock order is disciplined (every blocking
    acquisition targets a lock index smaller than every lock held at that
    moment), and any system of threads each obeying that discipline cannot
    reach a deadlocked configuration, even with steals forced in both index
    directions. -/
theorem c10_theorem :
    (∀ idx : Nat, ∀ p ∈ bgetAcquisitions idx, ∀ h ∈ p.1, p.2 < h) ∧
    (∀ S : List TState, (∀ t ∈ S, disciplinedB t = true) → ¬ Deadlocked S) := by
  constructor
  · intro idx p hp h hh
    simp only [bgetAcquisitions, List.mem_cons, List.mem_flatMap, List.mem_filter,
      List.mem_range] at hp
    rcases hp with rfl | ⟨i, ⟨hi13, hne⟩, hpi⟩
    · simp at hh
    · by_cases hlt : i < idx
      · simp [hlt] at hpi
        subst hpi
        simp at hh
        omega
      · simp [hlt] at hpi
        have hgt : idx < i := by
          simp at hne
          omega
        rcases hpi with rfl | rfl
        · simp at hh
        · simp at hh
          omega
  · rintro S hdisc ⟨hne, hdl⟩
    obtain ⟨t, ht⟩ := List.exists_mem_of_ne_nil S hne
    obtain ⟨l, hw, _⟩ := hdl t ht
    exact no_deadlock_aux (l + 1) S hdisc hdl t ht l hw (Nat.lt_succ_self l)

/-- Witness for C10 at a concrete two-thread configuration in which both
    threads hold a shard lock and wait for a smaller-index one. -/
theorem c10_witness :
    (∀ t ∈ [(⟨[5], some 1⟩ : TState), ⟨[3], some 2⟩], disciplinedB t = true) ∧
    ¬ Deadlocked [(⟨[5], some 1⟩ : TState), ⟨[3], some 2⟩] :=
  ⟨by decide, c10_theorem.2 _ (by decide)⟩

/-- C9: a thread woken in `sockread`'s sleep loop with the kill flag set and
    the receive queue still empty returns the explicit failure `-1` instead
    of sleeping again. -/
theorem c9_theorem (o : SockObs) (rest : List SockObs) (n : Nat) (copyOk : Bool)
    (hk : o.killed = true) (hq : o.rxq = []) :
    sockread (o :: rest) n copyOk = .ret (-1) := by
  obtain ⟨k, q⟩ := o
  simp only at hk hq
  subst hk hq
  simp [sockread]

/-- Witness for C9: a single killed wakeup with an empty queue. -/
theorem c9_witness : sockread [⟨true, []⟩] 0 true = .ret (-1) :=
  c9_theorem ⟨true, []⟩ [] 0 true rfl rfl

/-- C6 is refuted as stated: `bunpin` on a freshly initialized cache — a
    release with no matching prior acquire — is silently accepted and leaves
    buffer 0's reference count at `-1`. -/
theorem c6_counterexample :
    (getBuf (bunpin (binit 16) 0) 0).refcnt = -1 := by decide

/-- C6 amended: `brelse` does reject (panics on) a release whose content lock
    is not held; but `bunpin` performs no check at all — it decrements
    unconditionally, so an unmatched `bunpin` is silently accepted and drives
    the count negative (to `-1` from a fresh cache). -/
theorem c6_theorem :
    (∀ st j, (getBuf st j).held = false → brelse st j = none) ∧
    (∀ st j, j < st.nbuf →
      (getBuf (bunpin st j) j).refcnt = (getBuf st j).refcnt - 1) ∧
    (getBuf (bunpin (binit 16) 0) 0).refcnt = -1 := by
  refine ⟨?_, ?_, by decide⟩
  · intro st j h
    simp [brelse, h]
  · intro st j h
    simp [bunpin, getBuf_updBuf_self _ _ _ h]

/-- Witness for C6 at concrete inputs: a fresh cache's buffer 0 is not held,
    so `brelse` panics; and `bunpin` decrements it unchecked. -/
theorem c6_witness :
    brelse (binit 16) 0 = none ∧
    (getBuf (bunpin (binit 16) 0) 0).refcnt = (getBuf (binit 16) 0).refcnt - 1 :=
  ⟨c6_theorem.1 _ _ (by decide), c6_theorem.2.1 _ _ (by decide)⟩

/-- C4 fails on the code: after `bread(1,0); bpin; brelse; bunpin` — the
    pin/unpin protocol the spec sanctions for keeping a buffer resident
    across acquire/release cycles — buffer 0 has reference count 0 yet sits
    on no shard's LRU list (`bunpin` never re-inserts), violating the
    two-state invariant. -/
theorem c4_theorem :
    (run 16 [.read 1 0, .pin 0, .rel 0, .unpin 0]).map
      (fun st => ((getBuf st 0).refcnt, onLru st 0, lruCount st 0, (getBuf st 0).held)) =
      some (0, false, 0, false) := by decide

/-- C3 fails on the code: the stealing path inserts the victim into the hash
    table BEFORE assigning the new identity, so after
    `bget(1,1); brelse; bget(1,14); bget(1,0); bget(1,13); bget(1,26)` the
    stolen buffer 1 carries identity (1,26) but lives on shard 1's chain;
    a second `bget(1,26)` misses shard 0's chain and installs buffer 2 for
    the same identity: two distinct resident buffers, both (dev 1, block 26),
    both with positive reference counts. -/
theorem c3_theorem :
    ((run 16 [.get 1 1, .rel 1, .get 1 14, .get 1 0, .get 1 13, .get 1 26]).bind
        (fun st => (bget st 1 26).map (fun r => (r.1, r.2.1, r.2.2)))).map
      (fun r => ((r.2.1, r.2.2),
        [1, 2].map (fun j => ((getBuf r.1 j).dev, (getBuf r.1 j).blockno)),
        [1, 2].map (fun j => ((getBuf r.1 j).refcnt, inSomeChain r.1 j)))) =
      some ((2, GetPath.steal 2), [(1, 26), (1, 26)], [(1, true), (1, true)]) := by decide

/-- C7 is refuted as stated: with N=16 and K=13, shard 0's LRU initially
    holds two buffers (0 and 13), so the SECOND request (block 13) is
    satisfied from shard 0's own LRU, not by stealing. -/
theorem c7_counterexample :
    ((bread (binit 16) 1 0).bind (fun r => bread r.1 1 13)).map (fun r => r.2.2.1) =
      some GetPath.localVictim := by decide

/-- C7 amended: requesting blocks 0, 13, 26 (all shard 0) without releasing
    yields three distinct buffers (0, 13, 1), simultaneously resident with
    the three distinct identities; the first two come from shard 0's own LRU
    and only the third, finding it exhausted, is satisfied by stealing from
    shard 1. -/
theorem c7_theorem :
    (breadSeq (binit 16) [(1, 0), (1, 13), (1, 26)]).map (fun x =>
      (x.2.map (fun y => (y.1, y.2.1)),
       x.2.map (fun y => ((getBuf x.1 y.1).dev, (getBuf x.1 y.1).blockno)),
       x.2.map (fun y => ((getBuf x.1 y.1).refcnt, inSomeChain x.1 y.1)))) =
      some ([(0, GetPath.localVictim), (13, GetPath.localVictim), (1, GetPath.steal 1)],
            [(1, 0), (1, 13), (1, 26)],
            [(1, true), (1, true), (1, true)]) := by decide

/-- C1 is refuted as stated: write 42 to block (1,5), `bwrite`, `brelse`
    (count drops to 0, identity leaves the hash chain), then `bread (1,5)`
    again with no intervening eviction: the content 42 does come back, but
    only through one ADDITIONAL device read (`nreads` goes from 1 to 2 and
    the re-read takes the victim-install path). -/
theorem c1_counterexample :
    ((execSeq (binit 16) [.read 1 5, .put 5 42, .write 5, .rel 5]).bind
        (fun st => (bread st 1 5).map
          (fun r => (st.nreads, r.2.2.1, r.2.2.2, (getBuf r.1 r.2.1).data, r.1.nreads)))) =
      some (1, GetPath.localVictim, true, 42, 2) := by decide

/-- C8: when `bget`'s lookup misses and every shard's LRU list is empty (no
    refcount-0 victim anywhere), the steal loop falls through all K shards and
    `bget` returns `none` — the model of `panic("bget: no buffers")` — rather
    than retrying, blocking, or handing back a buffer. -/
theorem c8_theorem (st : St) (dv bno : Nat)
    (hfind : btable_find st dv bno = none)
    (hlrus : ∀ i, i < NBUCKETS → getN st (sentinel st i) = sentinel st i) :
    bget st dv bno = none := by
  simp only [bget, hfind]
  rw [if_pos (hlrus (bno % NBUCKETS) (Nat.mod_lt bno (by decide)))]
  exact bgetSteal_none st dv bno (bno % NBUCKETS) hfind hlrus (NBUCKETS + 1) 0

/-- C8 witness: after 16 unreleased `bget`s exhaust the 16-buffer cache, a
    request for the uncached block (1, 100) satisfies both hypotheses and the
    `bget` panics. -/
theorem c8_witness :
    btable_find stC8 1 100 = none ∧
      (∀ i, i < NBUCKETS → getN stC8 (sentinel stC8 i) = sentinel stC8 i) ∧
      bget stC8 1 100 = none :=
  ⟨by decide, by decide, c8_theorem stC8 1 100 (by decide) (by decide)⟩

/-- C2: releasing the last reference (`brelse` to count 0) removes the buffer's
    (dev, blockno) entry from its home shard's hash chain and appends the buffer
    at the MRU end of that shard's LRU list; consequently a later `bget` for the
    same identity misses the chain lookup and takes the victim-install path,
    handing back a buffer with `valid` reset to `false`. -/
theorem c2_theorem (st : St) (j : Nat) (A B L : List Nat)
    (hwf : WfSt st) (hj : j < st.nbuf)
    (hheld : (getBuf st j).held = true)
    (href : (getBuf st j).refcnt = 1)
    (hseg : ChainSeg st (.head ((getBuf st j).blockno % NBUCKETS)) (A ++ j :: B))
    (hA : ∀ x ∈ A, ¬ isMatch st (getBuf st j).dev (getBuf st j).blockno x)
    (hB : ∀ x ∈ B, ¬ isMatch st (getBuf st j).dev (getBuf st j).blockno x)
    (hnd : (A ++ j :: B).Nodup)
    (hrange : ∀ x ∈ A ++ j :: B, x < st.nbuf)
    (hlen : (A ++ j :: B).length ≤ st.nbuf)
    (hlru : IsLruList st ((getBuf st j).blockno % NBUCKETS) L)
    (hjL : j ∉ L) :
    ∃ st', brelse st j = some st' ∧
      btable_find st' (getBuf st j).dev (getBuf st j).blockno = none ∧
      IsLruList st' ((getBuf st j).blockno % NBUCKETS) (L ++ [j]) ∧
      (getBuf st' j).refcnt = 0 ∧
      ∃ st'' v, bget st' (getBuf st j).dev (getBuf st j).blockno =
          some (st'', v, GetPath.localVictim) ∧
        (getBuf st'' v).valid = false ∧
        (getBuf st'' v).dev = (getBuf st j).dev ∧
        (getBuf st'' v).blockno = (getBuf st j).blockno := by
  obtain ⟨st', hbr, hn, hwf', hdisk, hnr, hseg', hfields, href', hheld', hlru'⟩ :=
    brelse_spec st j A B L hwf hj hheld href hseg hA hnd hrange hlen hlru hjL
  have hmatchAB : ∀ x ∈ A ++ B, ¬ isMatch st' (getBuf st j).dev (getBuf st j).blockno x := by
    intro x hx
    rw [isMatch_congr st st' (fun y => ⟨(hfields y).2.1, (hfields y).1⟩)]
    rcases List.mem_append.mp hx with h | h
    · exact hA x h
    · exact hB x h
  have hfind' : btable_find st' (getBuf st j).dev (getBuf st j).blockno = none := by
    refine btable_find_none_of st' _ _ (A ++ B) hseg' hmatchAB ?_
    rw [hn]
    simp only [List.length_append, List.length_cons] at hlen ⊢
    omega
  obtain ⟨v, L2, hVL2⟩ : ∃ v L2, L ++ [j] = v :: L2 := by
    cases L with
    | nil => exact ⟨j, [], rfl⟩
    | cons a L0 => exact ⟨a, L0 ++ [j], rfl⟩
  have hlruVL : IsLruList st' ((getBuf st j).blockno % NBUCKETS) (v :: L2) := by
    rw [← hVL2]
    exact hlru'
  obtain ⟨st2, hbg, hval2, hdev2, hbno2, hr2, hh2, hd2, hn2, hnb2⟩ :=
    bget_local_spec st' (getBuf st j).dev (getBuf st j).blockno v L2 hfind' hlruVL
  exact ⟨st', hbr, hfind', hlru', href', st2, v, hbg, hval2, hdev2, hbno2⟩

/-- C2 witness: from a fresh 16-buffer cache, `bread (1, 5)` installs buffer 5;
    the hypotheses of the theorem hold concretely (chain [5], empty LRU), and
    the conclusion follows by applying the theorem. -/
theorem c2_witness :
    (getBuf stC2 5).held = true ∧ (getBuf stC2 5).refcnt = 1 ∧
      ∃ st', brelse stC2 5 = some st' ∧
        btable_find st' (getBuf stC2 5).dev (getBuf stC2 5).blockno = none ∧
        IsLruList st' ((getBuf stC2 5).blockno % NBUCKETS) ([] ++ [5]) ∧
        (getBuf st' 5).refcnt = 0 ∧
        ∃ st'' v, bget st' (getBuf stC2 5).dev (getBuf stC2 5).blockno =
            some (st'', v, GetPath.localVictim) ∧
          (getBuf st'' v).valid = false ∧
          (getBuf st'' v).dev = (getBuf stC2 5).dev ∧
          (getBuf st'' v).blockno = (getBuf stC2 5).blockno :=
  ⟨by decide, by decide,
    c2_theorem stC2 5 [] [] [] (by decide) (by decide) (by decide) (by decide)
      (by decide) (by decide) (by decide) (by decide) (by decide) (by decide)
      (by decide) (by decide)⟩

/-- C1 (as amended): writing content through a held buffer (`setData` then
    `bwrite`), releasing it, then `bread`ing the same identity with no
    intervening eviction always returns the written content; when the release
    dropped the count to 0 the identity left the hash chain, so the re-read
    takes the victim-install path and performs exactly one additional device
    read (recovering the content from disk); when the count stays positive
    (e.g. a pinned buffer, count 2) the re-read hits the cache with no
    additional device read. -/
theorem c1_theorem (st : St) (j v' : Nat) (A B L : List Nat)
    (hwf : WfSt st) (hj : j < st.nbuf)
    (hheld : (getBuf st j).held = true)
    (hvalid : (getBuf st j).valid = true)
    (hseg : ChainSeg st (.head ((getBuf st j).blockno % NBUCKETS)) (A ++ j :: B))
    (hA : ∀ x ∈ A, ¬ isMatch st (getBuf st j).dev (getBuf st j).blockno x)
    (hB : ∀ x ∈ B, ¬ isMatch st (getBuf st j).dev (getBuf st j).blockno x)
    (hnd : (A ++ j :: B).Nodup)
    (hrange : ∀ x ∈ A ++ j :: B, x < st.nbuf)
    (hlen : (A ++ j :: B).length ≤ st.nbuf)
    (hlru : IsLruList st ((getBuf st j).blockno % NBUCKETS) L)
    (hjL : j ∉ L) :
    ((getBuf st j).refcnt = 1 →
      ∃ stw str st2 w, bwrite (setData st j v') j = some stw ∧
        brelse stw j = some str ∧
        bread str (getBuf st j).dev (getBuf st j).blockno =
          some (st2, w, GetPath.localVictim, true) ∧
        (getBuf st2 w).data = v' ∧ st2.nreads = st.nreads + 1) ∧
    ((getBuf st j).refcnt = 2 →
      ∃ stw str st2, bwrite (setData st j v') j = some stw ∧
        brelse stw j = some str ∧
        bread str (getBuf st j).dev (getBuf st j).blockno =
          some (st2, j, GetPath.hit, false) ∧
        (getBuf st2 j).data = v' ∧ st2.nreads = st.nreads) := by
  set st0 := setData st j v' with hst0
  have hg0 : getBuf st0 j = { getBuf st j with data := v' } := by
    rw [hst0]
    exact getBuf_updBuf_self st j (fun b => { b with data := v' }) hj
  have hheld0 : (getBuf st0 j).held = true := by rw [hg0]; exact hheld
  set stw := { st0 with
    disk := (((getBuf st0 j).dev, (getBuf st0 j).blockno), (getBuf st0 j).data) :: st0.disk }
    with hstw
  have hbw : bwrite st0 j = some stw := by
    simp only [bwrite]
    rw [if_neg (by rw [hheld0]; simp), ← hstw]
  have hdev0 : (getBuf st0 j).dev = (getBuf st j).dev := by simp [hg0]
  have hbno0 : (getBuf st0 j).blockno = (getBuf st j).blockno := by simp [hg0]
  have hdata0 : (getBuf st0 j).data = v' := by simp [hg0]
  have hdisk0 : st0.disk = st.disk := by rw [hst0]; rfl
  have hdiskw : stw.disk = (((getBuf st j).dev, (getBuf st j).blockno), v') :: st.disk := by
    rw [hstw]
    show (((getBuf st0 j).dev, (getBuf st0 j).blockno), (getBuf st0 j).data) :: st0.disk = _
    rw [hdev0, hbno0, hdata0, hdisk0]
  have hreadsw : ∀ p, readSlot stw p = readSlot st p := by
    intro p
    rw [hstw, readSlot_setDisk, hst0]
    exact readSlot_updBuf st j (fun b => { b with data := v' }) p (fun b => rfl)
  have hNw : ∀ m, getN stw m = getN st m := by
    intro m
    rw [hstw, getN_setDisk, hst0]
    exact getN_updBuf st j (fun b => { b with data := v' }) m (fun b => rfl)
  have hPw : ∀ m, getP stw m = getP st m := by
    intro m
    rw [hstw, getP_setDisk, hst0]
    exact getP_updBuf st j (fun b => { b with data := v' }) m (fun b => rfl)
  have hnw : stw.nbuf = st.nbuf := by
    rw [hstw, nbuf_setDisk, hst0]
    exact nbuf_updBuf st j (fun b => { b with data := v' })
  have hwfw : WfSt stw := by
    rw [hstw, hst0]
    exact wf_updBuf st j (fun b => { b with data := v' }) hwf
  have hgw_j : getBuf stw j = { getBuf st j with data := v' } := by
    rw [hstw]
    exact hg0
  have hgw_ne : ∀ x, x ≠ j → getBuf stw x = getBuf st x := by
    intro x hx
    rw [hstw, getBuf_setDisk, hst0]
    exact getBuf_updBuf_ne st x j (fun b => { b with data := v' }) (Ne.symm hx)
  have hbdw : ∀ x, (getBuf stw x).blockno = (getBuf st x).blockno ∧
      (getBuf stw x).dev = (getBuf st x).dev := by
    intro x
    by_cases hxj : x = j
    · subst hxj
      rw [hgw_j]
      exact ⟨rfl, rfl⟩
    · rw [hgw_ne x hxj]
      exact ⟨rfl, rfl⟩
  have hdevw : (getBuf stw j).dev = (getBuf st j).dev := (hbdw j).2
  have hbnow : (getBuf stw j).blockno = (getBuf st j).blockno := (hbdw j).1
  have hheldw : (getBuf stw j).held = true := by rw [hgw_j]; exact hheld
  have hvalidw : (getBuf stw j).valid = true := by rw [hgw_j]; exact hvalid
  have hdataw : (getBuf stw j).data = v' := by rw [hgw_j]
  have hjw : j < stw.nbuf := by rw [hnw]; exact hj
  have hsegw : ChainSeg stw (.head ((getBuf stw j).blockno % NBUCKETS)) (A ++ j :: B) := by
    rw [hbnow]
    exact chainSeg_congr st stw hreadsw _ _ hseg
  have hAw : ∀ x ∈ A, ¬ isMatch stw (getBuf stw j).dev (getBuf stw j).blockno x := by
    intro x hx
    rw [hdevw, hbnow, isMatch_congr st stw hbdw]
    exact hA x hx
  have hrangew : ∀ x ∈ A ++ j :: B, x < stw.nbuf := by
    intro x hx
    rw [hnw]
    exact hrange x hx
  have hlenw : (A ++ j :: B).length ≤ stw.nbuf := by rw [hnw]; exact hlen
  have hlruw : IsLruList stw ((getBuf stw j).blockno % NBUCKETS) L := by
    rw [hbnow]
    exact isLruList_congr st stw hnw hNw hPw _ L hlru
  have hnreadsw : stw.nreads = st.nreads := by
    rw [hstw, nreads_setDisk, hst0]
    rfl
  constructor
  · intro h1
    have hrefw : (getBuf stw j).refcnt = 1 := by rw [hgw_j]; exact h1
    obtain ⟨str, hbr, hnstr, hwfstr, hdiskstr, hnrstr, hsegstr, hfstr, hrefstr, hheldstr,
      hlrustr⟩ :=
      brelse_spec stw j A B L hwfw hjw hheldw hrefw hsegw hAw hnd hrangew hlenw hlruw hjL
    have hmstr : ∀ x ∈ A ++ B, ¬ isMatch str (getBuf st j).dev (getBuf st j).blockno x := by
      intro x hx
      rw [isMatch_congr stw str (fun y => ⟨(hfstr y).2.1, (hfstr y).1⟩),
        isMatch_congr st stw hbdw]
      rcases List.mem_append.mp hx with h | h
      · exact hA x h
      · exact hB x h
    have hsegstr2 : ChainSeg str (.head ((getBuf st j).blockno % NBUCKETS)) (A ++ B) := by
      rw [← hbnow]
      exact hsegstr
    have hfindstr : btable_find str (getBuf st j).dev (getBuf st j).blockno = none := by
      refine btable_find_none_of str _ _ (A ++ B) hsegstr2 hmstr ?_
      rw [hnstr, hnw]
      simp only [List.length_append, List.length_cons] at hlen ⊢
      omega
    have hlrustr2 : IsLruList str ((getBuf st j).blockno % NBUCKETS) (L ++ [j]) := by
      rw [← hbnow]
      exact hlrustr
    obtain ⟨v, L2, hVL2⟩ : ∃ v L2, L ++ [j] = v :: L2 := by
      cases L with
      | nil => exact ⟨j, [], rfl⟩
      | cons a L0 => exact ⟨a, L0 ++ [j], rfl⟩
    have hlruVL : IsLruList str ((getBuf st j).blockno % NBUCKETS) (v :: L2) := by
      rw [← hVL2]
      exact hlrustr2
    obtain ⟨stg, hbg, hvalg, hdevg, hbnog, hrg, hhg, hdg, hng, hnbg⟩ :=
      bget_local_spec str (getBuf st j).dev (getBuf st j).blockno v L2 hfindstr hlruVL
    have hvlt : v < stg.nbuf := by
      rw [hnbg]
      exact hlruVL.2.2.1 v (List.mem_cons_self _ _)
    obtain ⟨st2, hbread, hnr2, hdata2, hdev2, hbno2⟩ :=
      bread_fill str (getBuf st j).dev (getBuf st j).blockno stg v .localVictim hbg hvalg hvlt
    have hdiskg : stg.disk = (((getBuf st j).dev, (getBuf st j).blockno), v') :: st.disk := by
      rw [hdg, hdiskstr, hdiskw]
    have hdval : (getBuf st2 v).data = v' := by
      rw [hdata2, hdevg, hbnog]
      exact diskRead_head stg _ _ v' st.disk hdiskg
    have hnrval : st2.nreads = st.nreads + 1 := by
      rw [hnr2, hng, hnrstr, hnreadsw]
    exact ⟨stw, str, st2, v, hbw, hbr, hbread, hdval, hnrval⟩
  · intro h2
    have hrefw2 : (getBuf stw j).refcnt = 2 := by rw [hgw_j]; exact h2
    set str1 := updBuf stw j (fun b => { b with held := false }) with hstr1
    set str2 := updBuf str1 j (fun b => { b with refcnt := b.refcnt - 1 }) with hstr2
    have hjw1 : j < str1.nbuf := by rw [hstr1, nbuf_updBuf]; exact hjw
    have hg1 : getBuf str1 j = { getBuf stw j with held := false } := by
      rw [hstr1]
      exact getBuf_updBuf_self stw j (fun b => { b with held := false }) hjw
    have hg2 : getBuf str2 j = { getBuf str1 j with refcnt := (getBuf str1 j).refcnt - 1 } := by
      rw [hstr2]
      exact getBuf_updBuf_self str1 j (fun b => { b with refcnt := b.refcnt - 1 }) hjw1
    have href2 : (getBuf str2 j).refcnt = 1 := by
      rw [hg2]
      show (getBuf str1 j).refcnt - 1 = 1
      rw [hg1]
      show (getBuf stw j).refcnt - 1 = 1
      rw [hrefw2]
      rfl
    have hbr : brelse stw j = some str2 := by
      simp only [brelse]
      rw [if_neg (by rw [hheldw]; simp), ← hstr1, ← hstr2, if_neg (by rw [href2]; simp)]
    have hreads2 : ∀ p, readSlot str2 p = readSlot st p := by
      intro p
      rw [hstr2, readSlot_updBuf str1 j (fun b => { b with refcnt := b.refcnt - 1 }) p
        (fun b => rfl), hstr1,
        readSlot_updBuf stw j (fun b => { b with held := false }) p (fun b => rfl)]
      exact hreadsw p
    have hbd2 : ∀ x, (getBuf str2 x).blockno = (getBuf st x).blockno ∧
        (getBuf str2 x).dev = (getBuf st x).dev := by
      intro x
      by_cases hxj : x = j
      · rw [hxj]
        constructor
        · rw [hg2]
          show (getBuf str1 j).blockno = _
          rw [hg1]
          show (getBuf stw j).blockno = _
          exact hbnow
        · rw [hg2]
          show (getBuf str1 j).dev = _
          rw [hg1]
          show (getBuf stw j).dev = _
          exact hdevw
      · have e2 : getBuf str2 x = getBuf str1 x := by
          rw [hstr2]
          exact getBuf_updBuf_ne str1 x j (fun b => { b with refcnt := b.refcnt - 1 })
            (Ne.symm hxj)
        have e1 : getBuf str1 x = getBuf stw x := by
          rw [hstr1]
          exact getBuf_updBuf_ne stw x j (fun b => { b with held := false }) (Ne.symm hxj)
        rw [e2, e1]
        exact hbdw x
    have hseg2 : ChainSeg str2 (.head ((getBuf st j).blockno % NBUCKETS)) (A ++ j :: B) :=
      chainSeg_congr st str2 hreads2 _ _ hseg
    have hA2 : ∀ x ∈ A, ¬ isMatch str2 (getBuf st j).dev (getBuf st j).blockno x := by
      intro x hx
      rw [isMatch_congr st str2 hbd2]
      exact hA x hx
    have hjm2 : isMatch str2 (getBuf st j).dev (getBuf st j).blockno j := by
      rw [isMatch_congr st str2 hbd2]
      exact ⟨rfl, rfl⟩
    have hn2 : str2.nbuf = st.nbuf := by
      rw [hstr2, nbuf_updBuf, hstr1, nbuf_updBuf]
      exact hnw
    have hfind2 : btable_find str2 (getBuf st j).dev (getBuf st j).blockno = some j := by
      refine (find_ptr_found str2 _ _ A j B hseg2 hA2 hjm2 ?_).2
      rw [hn2]
      simp only [List.length_append, List.length_cons] at hlen
      omega
    have hj2 : j < str2.nbuf := by rw [hn2]; exact hj
    set st3 := updBuf str2 j (fun x => { x with refcnt := x.refcnt + 1, held := true })
      with hst3
    have hbgh : bget str2 (getBuf st j).dev (getBuf st j).blockno = some (st3, j, .hit) := by
      rw [hst3]
      exact bget_hit_spec str2 _ _ j hfind2
    have hg3 : getBuf st3 j =
        { getBuf str2 j with refcnt := (getBuf str2 j).refcnt + 1, held := true } := by
      rw [hst3]
      exact getBuf_updBuf_self str2 j (fun x => { x with refcnt := x.refcnt + 1, held := true })
        hj2
    have hvalid3 : (getBuf st3 j).valid = true := by
      rw [hg3]
      show (getBuf str2 j).valid = true
      rw [hg2]
      show (getBuf str1 j).valid = true
      rw [hg1]
      show (getBuf stw j).valid = true
      exact hvalidw
    have hbreadh : bread str2 (getBuf st j).dev (getBuf st j).blockno =
        some (st3, j, .hit, false) :=
      bread_hit str2 _ _ st3 j .hit hbgh hvalid3
    have hdata3 : (getBuf st3 j).data = v' := by
      rw [hg3]
      show (getBuf str2 j).data = v'
      rw [hg2]
      show (getBuf str1 j).data = v'
      rw [hg1]
      show (getBuf stw j).data = v'
      exact hdataw
    have hnr3 : st3.nreads = st.nreads := hnreadsw
    exact ⟨stw, str2, st3, hbw, hbr, hbreadh, hdata3, hnr3⟩

/-- C1 witness: buffer 5 holds (1, 5) with count 1 after `bread (1, 5)` from a
    fresh cache; writing 42 through it, `bwrite`, `brelse`, then `bread (1, 5)`
    exercises the count-to-0 branch: the re-read returns 42 through one
    additional device read. -/
theorem c1_witness :
    (getBuf stC2 5).refcnt = 1 ∧
      (((getBuf stC2 5).refcnt = 1 →
        ∃ stw str st2 w, bwrite (setData stC2 5 42) 5 = some stw ∧
          brelse stw 5 = some str ∧
          bread str (getBuf stC2 5).dev (getBuf stC2 5).blockno =
            some (st2, w, GetPath.localVictim, true) ∧
          (getBuf st2 w).data = 42 ∧ st2.nreads = stC2.nreads + 1) ∧
      ((getBuf stC2 5).refcnt = 2 →
        ∃ stw str st2, bwrite (setData stC2 5 42) 5 = some stw ∧
          brelse stw 5 = some str ∧
          bread str (getBuf stC2 5).dev (getBuf stC2 5).blockno =
            some (st2, 5, GetPath.hit, false) ∧
          (getBuf st2 5).data = 42 ∧ st2.nreads = stC2.nreads)) :=
  ⟨by decide,
    c1_theorem stC2 5 42 [] [] [] (by decide) (by decide) (by decide) (by decide)
      (by decide) (by decide) (by decide) (by decide) (by decide) (by decide)
      (by decide) (by decide)⟩

/-- C5: from any disciplined operation sequence (gets, reads, releases,
    writes, data stores, and pins/unpins performed only while holding a live
    reference) started at binit 16, whenever bget selects a victim buffer for
    reuse — on the local-victim path or on the stealing path — that victim's
    reference count in the pre-call state is 0. -/
theorem c5_theorem (l : List Op) (st st' : St) (dv bno b : Nat) (path : GetPath)
    (hrun : runD 16 l = some st)
    (hb : bget st dv bno = some (st', b, path))
    (hpath : path = .localVictim ∨ ∃ i, path = .steal i) :
    (getBuf st b).refcnt = 0 := by
  have hInv0 : Inv (binit 16) := by decide
  have hInv : Inv st := inv_execSeqD l (binit 16) st hInv0 hrun
  exact (inv_bget st dv bno hInv st' b path hb).2 hpath

theorem c5_witness : (getBuf stC5 13).refcnt = 0 :=
  c5_theorem [Op.get 1 0] stC5 stC5r.1 1 13 13 GetPath.localVictim
    (by decide) (by decide) (Or.inl rfl)

end Claims
